import Mathlib

/-!
Verification development for the rayrun2019 "salsa" LBVH ray tracer.

The C++ sources (salsa/include/s3d_math.h, salsa/include/s3d_bvh.h,
salsa/src/s3d_bvh.cpp, salsa/src/dll_main.cpp) are shallowly embedded here.
Float arithmetic is modelled by exact rational arithmetic; 32-bit unsigned
integer arithmetic is modelled by Nat with explicit reduction modulo 2^32.
The parallel per-leaf climb of LBVH::Build is modelled under the sequential
schedule in which climb i runs to completion before climb i+1 starts (one
admissible interleaving of the lock-free algorithm).
-/

namespace S3D

attribute [local semireducible] Rat.add Rat.mul Rat.sub Rat.inv

set_option maxRecDepth 200000

/-- Scalar minimum, from s3d::Min: `(lhs < rhs) ? lhs : rhs`. -/
def sMin (lhs rhs : ℚ) : ℚ := if lhs < rhs then lhs else rhs

/-- Scalar maximum, from s3d::Max: `(lhs > rhs) ? lhs : rhs`. -/
def sMax (lhs rhs : ℚ) : ℚ := if lhs > rhs then lhs else rhs

/-- Scalar clamp, from s3d::Clamp: `Max(mini, Min(maxi, value))`. -/
def sClamp (value mini maxi : ℚ) : ℚ := sMax mini (sMin maxi value)

/-- Model of `FLT_MAX` (numeric_limits<float>::max), the value of s3d::kMaxBound. -/
def kMaxBound : ℚ := 2 ^ 128 - 2 ^ 104

/-- Model of `numeric_limits<float>::lowest()`, the value of s3d::kMinBound. -/
def kMinBound : ℚ := -(2 ^ 128 - 2 ^ 104)

/-- Model of s3d::kInvalid = numeric_limits<uint32_t>::max. -/
def kInvalid : Nat := 2 ^ 32 - 1

/-- Reduction modulo 2^32, modelling uint32_t wraparound. -/
def u32 (n : Nat) : Nat := n % 2 ^ 32

/-- Vector3 of exact rationals, modelling s3d::Vector3f. -/
structure Vec3 where
  x : ℚ
  y : ℚ
  z : ℚ
deriving DecidableEq, Repr

namespace Vec3

/-- Componentwise addition (Vector3 operator +). -/
def add (a b : Vec3) : Vec3 := ⟨a.x + b.x, a.y + b.y, a.z + b.z⟩

/-- Componentwise subtraction (Vector3 operator -). -/
def sub (a b : Vec3) : Vec3 := ⟨a.x - b.x, a.y - b.y, a.z - b.z⟩

/-- Componentwise division (Vector3 operator /), total with ℚ division. -/
def divV (a b : Vec3) : Vec3 := ⟨a.x / b.x, a.y / b.y, a.z / b.z⟩

/-- Scalar multiplication (Vector3 operator * (float)). -/
def smul (a : Vec3) (s : ℚ) : Vec3 := ⟨a.x * s, a.y * s, a.z * s⟩

/-- Scalar division (Vector3 operator / (float)). -/
def sdiv (a : Vec3) (s : ℚ) : Vec3 := ⟨a.x / s, a.y / s, a.z / s⟩

/-- Dot product (Vector3::Dot). -/
def dot (a b : Vec3) : ℚ := a.x * b.x + a.y * b.y + a.z * b.z

/-- Cross product (Vector3::Cross). -/
def cross (a b : Vec3) : Vec3 :=
  ⟨a.y * b.z - a.z * b.y, a.z * b.x - a.x * b.z, a.x * b.y - a.y * b.x⟩

/-- Componentwise minimum (Vector3::Min). -/
def vmin (a b : Vec3) : Vec3 := ⟨sMin a.x b.x, sMin a.y b.y, sMin a.z b.z⟩

/-- Componentwise maximum (Vector3::Max). -/
def vmax (a b : Vec3) : Vec3 := ⟨sMax a.x b.x, sMax a.y b.y, sMax a.z b.z⟩

end Vec3

/-- Max3 from s3d_math.h: `Max(Max(x, y), z)`. -/
def max3 (v : Vec3) : ℚ := sMax (sMax v.x v.y) v.z

/-- Min3 from s3d_math.h: `Min(Min(x, y), z)`. -/
def min3 (v : Vec3) : ℚ := sMin (sMin v.x v.y) v.z

/-- Axis-aligned bounding box with rational corners, modelling s3d::AABB. -/
structure AABBQ where
  mini : Vec3
  maxi : Vec3
deriving DecidableEq, Repr

namespace AABBQ

/-- The empty box produced by AABB(nullptr) / AABB::Clear:
mini at +kMaxBound, maxi at kMinBound on every axis. -/
def empty : AABBQ :=
  ⟨⟨kMaxBound, kMaxBound, kMaxBound⟩, ⟨kMinBound, kMinBound, kMinBound⟩⟩

/-- AABB constructed from a single point: AABB(const Vector3f&). -/
def point (v : Vec3) : AABBQ := ⟨v, v⟩

/-- AABB::Merge(const AABB&). -/
def mergeBox (a b : AABBQ) : AABBQ :=
  ⟨Vec3.vmin a.mini b.mini, Vec3.vmax a.maxi b.maxi⟩

/-- AABB::Merge(const Vector3f&). -/
def mergePoint (a : AABBQ) (v : Vec3) : AABBQ :=
  ⟨Vec3.vmin a.mini v, Vec3.vmax a.maxi v⟩

/-- AABB::Normalize: `(p - mini) / (maxi - mini)` componentwise. -/
def normalizePoint (a : AABBQ) (p : Vec3) : Vec3 :=
  Vec3.divV (Vec3.sub p a.mini) (Vec3.sub a.maxi a.mini)

/-- AABB::Intersect(rayPos, invRayDir, length): sign-selected slab test.
Returns `(tmin <= tmax) && (0 < tmax) && (tmin < length)`. -/
def intersectB (a : AABBQ) (rayPos invRayDir : Vec3) (length : ℚ) : Bool :=
  let ve : Vec3 :=
    ⟨((if 0 < invRayDir.x then a.mini.x else a.maxi.x) - rayPos.x) * invRayDir.x,
     ((if 0 < invRayDir.y then a.mini.y else a.maxi.y) - rayPos.y) * invRayDir.y,
     ((if 0 < invRayDir.z then a.mini.z else a.maxi.z) - rayPos.z) * invRayDir.z⟩
  let tmin := max3 ve
  let vx : Vec3 :=
    ⟨((if 0 < invRayDir.x then a.maxi.x else a.mini.x) - rayPos.x) * invRayDir.x,
     ((if 0 < invRayDir.y then a.maxi.y else a.mini.y) - rayPos.y) * invRayDir.y,
     ((if 0 < invRayDir.z then a.maxi.z else a.mini.z) - rayPos.z) * invRayDir.z⟩
  let tmax := min3 vx
  decide (tmin ≤ tmax) && decide (0 < tmax) && decide (tmin < length)

/-- Translate a box by a vector (used for the `-= box.mini` centering in Build). -/
def translate (a : AABBQ) (v : Vec3) : AABBQ :=
  ⟨Vec3.add a.mini v, Vec3.add a.maxi v⟩

end AABBQ

/-- ExpandBits(uint32_t): the 5-step bit-expansion ladder, with uint32_t
multiplication overflow modelled by reduction mod 2^32. -/
def expandBits (v : Nat) : Nat :=
  let v1 := u32 (v * 0x00010001) &&& 0xFF0000FF
  let v2 := u32 (v1 * 0x00000101) &&& 0x0F00F00F
  let v3 := u32 (v2 * 0x00000011) &&& 0xC30C30C3
  let v4 := u32 (v3 * 0x00000005) &&& 0x49249249
  v4

/-- The clamped value `Clamp(x * 1024, 0, 1023)` computed by Morton3D. -/
def mortonClamp (x : ℚ) : ℚ := sClamp (x * 1024) 0 1023

/-- The bin of one coordinate: the clamped value cast to uint32_t
(truncation toward zero; the clamped value is nonnegative). -/
def mortonBin (x : ℚ) : Nat := (mortonClamp x).floor.toNat

/-- Morton3D(float, float, float): clamp, cast, expand, and combine as
`(xx << 2) + (yy << 1) + zz` in uint32_t arithmetic. -/
def morton3D (x y z : ℚ) : Nat :=
  let xx := expandBits (mortonBin x)
  let yy := expandBits (mortonBin y)
  let zz := expandBits (mortonBin z)
  u32 (u32 (xx <<< 2) + u32 (yy <<< 1) + zz)

/-- Moller-Trumbore determinant `det = Dot(e1, Cross(rayDir, e2))`, as a
standalone quantity for stating specifications about IntersectTriangle. -/
def mtDet (rayDir v0 v1 v2 : Vec3) : ℚ :=
  Vec3.dot (Vec3.sub v1 v0) (Vec3.cross rayDir (Vec3.sub v2 v0))

/-- Moller-Trumbore barycentric u: `Dot(T, P) / det`. -/
def mtU (rayPos rayDir v0 v1 v2 : Vec3) : ℚ :=
  Vec3.dot (Vec3.sub rayPos v0) (Vec3.cross rayDir (Vec3.sub v2 v0)) /
    mtDet rayDir v0 v1 v2

/-- Moller-Trumbore barycentric v: `Dot(rayDir, Q) / det`. -/
def mtV (rayPos rayDir v0 v1 v2 : Vec3) : ℚ :=
  Vec3.dot rayDir (Vec3.cross (Vec3.sub rayPos v0) (Vec3.sub v1 v0)) /
    mtDet rayDir v0 v1 v2

/-- Moller-Trumbore distance t: `Dot(e2, Q) / det`. -/
def mtT (rayPos rayDir v0 v1 v2 : Vec3) : ℚ :=
  Vec3.dot (Vec3.sub v2 v0) (Vec3.cross (Vec3.sub rayPos v0) (Vec3.sub v1 v0)) /
    mtDet rayDir v0 v1 v2

/-- IntersectTriangle from s3d_math.h. The by-reference outputs dist, u, v are
modelled by returning them next to the hit flag: the result is
`(hit, dist, u, v)` where the last three components are the final values of
the reference parameters. -/
def intersectTriangle (rayPos rayDir v0 v1 v2 : Vec3) (tmin tmax : ℚ)
    (dist u v : ℚ) : Bool × ℚ × ℚ × ℚ :=
  let e1 := Vec3.sub v1 v0
  let e2 := Vec3.sub v2 v0
  let P := Vec3.cross rayDir e2
  let det := Vec3.dot e1 P
  if det = 0 then (false, dist, u, v)
  else
    let inv_det := 1 / det
    let T := Vec3.sub rayPos v0
    let fu := Vec3.dot T P * inv_det
    if fu < 0 ∨ fu > 1 then (false, dist, u, v)
    else
      let Q := Vec3.cross T e1
      let fv := Vec3.dot rayDir Q * inv_det
      if fv < 0 ∨ fu + fv > 1 then (false, dist, u, v)
      else
        let t := Vec3.dot e2 Q * inv_det
        if t < tmin ∨ tmax ≤ t ∨ t > dist then (false, dist, u, v)
        else (true, t, fu, fv)

/-- VertexIndex from s3d_bvh.h: position index P and normal index N. -/
structure VertexIndexM where
  P : Nat
  N : Nat
deriving DecidableEq, Repr

/-- The mesh data handed to the LBVH: Positions, Normals, Indices arrays.
PositionCount, NormalCount and IndexCount are the list lengths. -/
structure MeshData where
  positions : List Vec3
  normals : List Vec3
  indices : List VertexIndexM
deriving DecidableEq, Repr

namespace MeshData

/-- Positions[i]; out-of-range access is modelled by the zero vector
(all claims proved about meshes quantify over in-range indices). -/
def pos (m : MeshData) (i : Nat) : Vec3 := m.positions.getD i ⟨0, 0, 0⟩

/-- Normals[i]. -/
def nrm (m : MeshData) (i : Nat) : Vec3 := m.normals.getD i ⟨0, 0, 0⟩

/-- Indices[i]. -/
def vidx (m : MeshData) (i : Nat) : VertexIndexM := m.indices.getD i ⟨0, 0⟩

/-- Vertex j (j = 0, 1, 2) of triangle `face`: `Positions[Indices[3 face + j].P]`. -/
def tv (m : MeshData) (face j : Nat) : Vec3 := m.pos (m.vidx (face * 3 + j)).P

end MeshData

/-- Node from s3d_bvh.h; the default constructor sets Box to the empty box and
both children to kInvalid. -/
structure NodeM where
  box : AABBQ
  L : Nat
  R : Nat
deriving DecidableEq, Repr

/-- The freshly constructed Node: Box(nullptr), L = R = kInvalid. -/
def node0 : NodeM := ⟨AABBQ.empty, kInvalid, kInvalid⟩

/-- Internal ray (s3d::Ray): position, direction, reciprocal direction and
the [tmin, tmax) parameter range. -/
structure RayQ where
  pos : Vec3
  dir : Vec3
  inv_dir : Vec3
  tmin : ℚ
  tmax : ℚ
deriving DecidableEq, Repr

/-- HitRecord from s3d_bvh.h. -/
structure HitRec where
  hit : Bool
  dist : ℚ
  u : ℚ
  v : ℚ
  face : Nat
deriving DecidableEq, Repr

/-- LBVH::IsHit: runs IntersectTriangle on triangle `face` against the record's
current dist/u/v (by reference) and on success also records face and hit. -/
def isHit (m : MeshData) (ray : RayQ) (rec : HitRec) (face : Nat) : HitRec :=
  let r := intersectTriangle ray.pos ray.dir
    (m.tv face 0) (m.tv face 1) (m.tv face 2)
    ray.tmin ray.tmax rec.dist rec.u rec.v
  if r.1 then ⟨true, r.2.1, r.2.2.1, r.2.2.2, face⟩
  else ⟨rec.hit, r.2.1, r.2.2.1, r.2.2.2, rec.face⟩

/-- Leaf records (x = triangle reference, y = morton code), as Vector2u. -/
abbrev LeafRec := Nat × Nat

/-- Delta from s3d_bvh.cpp: `leaves[id + 1].y ^^^ leaves[id].y`. -/
def deltaF (leaves : List LeafRec) (id : Nat) : Nat :=
  (leaves.getD (id + 1) (0, 0)).2 ^^^ (leaves.getD id (0, 0)).2

/-- Mutable state of the build: the Nodes array, the other_bounds array and
the Root field. -/
structure BState where
  nodes : List NodeM
  ob : List Nat
  root : Nat
deriving DecidableEq, Repr

/-- Write the L child of Nodes[p]. -/
def setNodeL (nodes : List NodeM) (p idx : Nat) : List NodeM :=
  nodes.set p { nodes.getD p node0 with L := idx }

/-- Write the R child of Nodes[p]. -/
def setNodeR (nodes : List NodeM) (p idx : Nat) : List NodeM :=
  nodes.set p { nodes.getD p node0 with R := idx }

/-- Nodes[p].Box.Merge(aabb). -/
def mergeNodeBox (nodes : List NodeM) (p : Nat) (b : AABBQ) : List NodeM :=
  nodes.set p { nodes.getD p node0 with
    box := ((nodes.getD p node0).box).mergeBox b }

/-- One leaf-to-root climb of LBVH::Build (the `while(1)` loop body), under the
sequential schedule. `fuel` bounds the number of iterations; the loop of the
source has no bound, and the development proves the chosen fuel is never
exhausted for well-formed meshes. -/
def climbLoop (leaves : List LeafRec) (N : Nat) :
    Nat → Nat → Nat → Nat → AABBQ → Bool → BState → Option BState
  | 0, _, _, _, _, _, _ => none
  | fuel + 1, current, L, R, aabb, is_leaf, st =>
    if L = 0 ∧ R = N then some { st with root := current }
    else
      let index := if is_leaf then u32 ((leaves.getD current (0, 0)).1 * 2 + 1)
                   else u32 (current * 2)
      if L = 0 ∨ (R ≠ N ∧ deltaF leaves R < deltaF leaves (L - 1)) then
        let parent := R
        let previous := st.ob.getD parent kInvalid
        let ob1 := st.ob.set parent L
        let R1 := if previous ≠ kInvalid then previous else R
        let nodes1 := setNodeL st.nodes parent index
        let nodes2 := mergeNodeBox nodes1 parent aabb
        let st1 : BState := ⟨nodes2, ob1, st.root⟩
        if previous = kInvalid then some st1
        else climbLoop leaves N fuel parent L R1
          ((nodes2.getD parent node0).box) false st1
      else
        let parent := L - 1
        let previous := st.ob.getD parent kInvalid
        let ob1 := st.ob.set parent R
        let L1 := if previous ≠ kInvalid then previous else L
        let nodes1 := setNodeR st.nodes parent index
        let nodes2 := mergeNodeBox nodes1 parent aabb
        let st1 : BState := ⟨nodes2, ob1, st.root⟩
        if previous = kInvalid then some st1
        else climbLoop leaves N fuel parent L1 R
          ((nodes2.getD parent node0).box) false st1

/-- The AABB of the triangle referenced by (sorted) leaf i, translated by
`-box.mini` (the centering transform), exactly as set up before the climb. -/
def leafBox (m : MeshData) (leaves : List LeafRec) (gmini : Vec3) (i : Nat) :
    AABBQ :=
  let tri := (leaves.getD i (0, 0)).1
  let b0 := AABBQ.point (m.tv tri 0)
  let b1 := b0.mergePoint (m.tv tri 1)
  let b2 := b1.mergePoint (m.tv tri 2)
  b2.translate ⟨-gmini.x, -gmini.y, -gmini.z⟩

/-- One full climb for parallel_for index i (fuel N + 2 covers the worst case:
at most one merge per spine element plus the final stop). -/
def climb (m : MeshData) (leaves : List LeafRec) (gmini : Vec3) (N : Nat)
    (i : Nat) (st : BState) : Option BState :=
  climbLoop leaves N (N + 2) i i i (leafBox m leaves gmini i) true st

/-- The mesh bounding box computed at the top of LBVH::Build by merging every
entry of Positions into a cleared AABB. -/
def meshBox (m : MeshData) : AABBQ :=
  m.positions.foldl AABBQ.mergePoint AABBQ.empty

/-- The triangle count `T = uint32_t(IndexCount / 3)`. -/
def triCount (m : MeshData) : Nat := u32 (m.indices.length / 3)

/-- uint32_t subtraction of 1 (wraps at 0), for `N = T - 1`. -/
def u32sub1 (t : Nat) : Nat := if t = 0 then 2 ^ 32 - 1 else t - 1

/-- The unsorted leaf table: `leaves[i] = (i, Morton3D(unitcube))` where
unitcube is the normalized triangle centroid. -/
def leafFill (m : MeshData) (box : AABBQ) (T : Nat) : List LeafRec :=
  (List.range T).map fun i =>
    let centroid := Vec3.sdiv
      (Vec3.add (Vec3.add (m.tv i 0) (m.tv i 1)) (m.tv i 2)) 3
    let unitcube := box.normalizePoint centroid
    (i, morton3D unitcube.x unitcube.y unitcube.z)

/-- The comparison used to sort the leaf table by morton code. The source
sorts with std::sort and the strict comparator `lhs.y < rhs.y`; any order
consistent with it is a valid outcome, and the model fixes the stable
insertion-sort refinement of that specification. -/
def leafLE (a b : LeafRec) : Prop := a.2 ≤ b.2

instance : DecidableRel leafLE := fun a b => Nat.decLe a.2 b.2

/-- The sorted leaf table. -/
def sortLeaves (leaves : List LeafRec) : List LeafRec :=
  leaves.insertionSort leafLE

/-- The finished LBVH: Root and the Nodes array. -/
structure LBVHS where
  root : Nat
  nodes : List NodeM
deriving DecidableEq, Repr

/-- LBVH::Build under the sequential climb schedule. Returns none only on
fuel exhaustion inside some climb (proved impossible for the meshes the
claims quantify over). -/
def buildLBVH (m : MeshData) : Option LBVHS :=
  let box := meshBox m
  let T := triCount m
  let leaves := sortLeaves (leafFill m box T)
  let N := u32sub1 T
  let st0 : BState := ⟨List.replicate N node0, List.replicate N kInvalid, kInvalid⟩
  match (List.range T).foldlM (fun st i => climb m leaves box.mini N i st) st0 with
  | none => none
  | some st =>
    some ⟨st.root, st.nodes.map fun nd => { nd with box := nd.box.translate box.mini }⟩

/-- Traversal failure modes: reading a node index outside the Nodes array
(undefined behavior in the source), overflowing the 64-entry visit stack
(likewise), or exhausting the step fuel of the model. -/
inductive TravErr where
  | nodeOOB
  | stackOverflow
  | fuelOut
deriving DecidableEq, Repr

/-- Push onto the fixed-size 64-entry visit stack; a push at size 64 is the
out-of-bounds write `visit_stack[64]` of the source. -/
def pushStack (stack : List Nat) (idx : Nat) : Option (List Nat) :=
  if stack.length < 64 then some (idx :: stack) else none

/-- The loop of LBVH::TraverseIterative. The stack is kept top-first; the
source pushes idxL then idxR, so idxR ends nearer the top. -/
def traverseLoop (m : MeshData) (nodes : List NodeM) (ray : RayQ) :
    Nat → List Nat → HitRec → Except TravErr HitRec
  | 0, _, _ => .error .fuelOut
  | _ + 1, [], rec => .ok rec
  | fuel + 1, idx :: rest, rec =>
    match nodes.get? idx with
    | none => .error .nodeOOB
    | some node =>
      if !(node.box.intersectB ray.pos ray.inv_dir rec.dist) then
        traverseLoop m nodes ray fuel rest rec
      else
        let idxL := node.L / 2
        let idxR := node.R / 2
        if node.L % 2 = 1 then
          let rec1 := isHit m ray rec idxL
          if node.R % 2 = 1 then
            traverseLoop m nodes ray fuel rest (isHit m ray rec1 idxR)
          else
            match pushStack rest idxR with
            | none => .error .stackOverflow
            | some stack1 => traverseLoop m nodes ray fuel stack1 rec1
        else
          match pushStack rest idxL with
          | none => .error .stackOverflow
          | some stack1 =>
            if node.R % 2 = 1 then
              traverseLoop m nodes ray fuel stack1 (isHit m ray rec idxR)
            else
              match pushStack stack1 idxR with
              | none => .error .stackOverflow
              | some stack2 => traverseLoop m nodes ray fuel stack2 rec

/-- LBVH::TraverseIterative: the stack starts holding only Root. -/
def traverseChecked (m : MeshData) (bvh : LBVHS) (ray : RayQ) (rec : HitRec)
    (fuel : Nat) : Except TravErr HitRec :=
  traverseLoop m bvh.nodes ray fuel [bvh.root] rec

/-- The reference semantics of the claims: a brute-force loop calling IsHit on
every triangle 0 .. T-1 with the same initial record. -/
def bruteForce (m : MeshData) (T : Nat) (ray : RayQ) (rec : HitRec) : HitRec :=
  (List.range T).foldl (fun r f => isHit m ray r f) rec

/-- Ray descriptor of the host contract (rayrun.hpp Ray), mutated in place by
`intersect`. -/
structure RayDesc where
  pos : Vec3
  dir : Vec3
  tnear : ℚ
  tfar : ℚ
  valid : Bool
  isisect : Bool
  isect : Vec3
  ns : Vec3
deriving DecidableEq, Repr

/-- LBVH::CalcPosition: `P0 w + P1 u + P2 v`. -/
def calcPosition (m : MeshData) (face : Nat) (u v w : ℚ) : Vec3 :=
  Vec3.add (Vec3.add (Vec3.smul (m.tv face 0) w) (Vec3.smul (m.tv face 1) u))
    (Vec3.smul (m.tv face 2) v)

/-- LBVH::CalcNormal: the same combination over `Normals[Indices[...].N]`. -/
def calcNormal (m : MeshData) (face : Nat) (u v w : ℚ) : Vec3 :=
  let base := face * 3
  Vec3.add (Vec3.add
    (Vec3.smul (m.nrm (m.vidx (base + 0)).N) w)
    (Vec3.smul (m.nrm (m.vidx (base + 1)).N) u))
    (Vec3.smul (m.nrm (m.vidx (base + 2)).N) v)

/-- Processing of a single ray descriptor inside `intersect` (dll_main.cpp):
invalid rays only get isisect = false; valid rays are traversed with a record
initialized to (hit = false, dist = tfar); isect/ns are written only on hit.
The hitAny hint is ignored, as in the source. -/
def intersectOne (m : MeshData) (bvh : LBVHS) (fuel : Nat) (r : RayDesc) :
    Except TravErr RayDesc :=
  if !r.valid then .ok { r with isisect := false }
  else
    let ray : RayQ :=
      ⟨r.pos, r.dir, ⟨1 / r.dir.x, 1 / r.dir.y, 1 / r.dir.z⟩, r.tnear, r.tfar⟩
    let rec0 : HitRec := ⟨false, r.tfar, 0, 0, 0⟩
    match traverseChecked m bvh ray rec0 fuel with
    | .error e => .error e
    | .ok rec =>
      let r1 := { r with isisect := rec.hit }
      if rec.hit then
        let w := 1 - rec.u - rec.v
        .ok { r1 with
          isect := calcPosition m rec.face rec.u rec.v w,
          ns := calcNormal m rec.face rec.u rec.v w }
      else .ok r1

/-- The `intersect` entry point over a batch of rays (sequential loop). -/
def intersectModel (m : MeshData) (bvh : LBVHS) (fuel : Nat)
    (rays : List RayDesc) : Except TravErr (List RayDesc) :=
  rays.mapM (intersectOne m bvh fuel)

/-- The `preprocess` entry point (dll_main.cpp): stores the mesh arrays and
unconditionally calls Build; there is no input validation. A null array with
zero count is modelled by the empty list. -/
def preprocessModel (vertices normals : List Vec3) (indices : List VertexIndexM) :
    Option LBVHS :=
  buildLBVH ⟨vertices, normals, indices⟩

instance {ε α : Type} [DecidableEq ε] [DecidableEq α] :
    DecidableEq (Except ε α) := fun x y =>
  match x, y with
  | .ok a, .ok b =>
    if h : a = b then .isTrue (by rw [h]) else .isFalse (by simp [h])
  | .error a, .error b =>
    if h : a = b then .isTrue (by rw [h]) else .isFalse (by simp [h])
  | .ok _, .error _ => .isFalse (by simp)
  | .error _, .ok _ => .isFalse (by simp)

/-! Specification-side notions used to state the claims. -/

/-- Box containment: every point of `inner` lies in `outer` (componentwise
corner comparison). -/
def boxSubset (inner outer : AABBQ) : Prop :=
  outer.mini.x ≤ inner.mini.x ∧ outer.mini.y ≤ inner.mini.y ∧
  outer.mini.z ≤ inner.mini.z ∧ inner.maxi.x ≤ outer.maxi.x ∧
  inner.maxi.y ≤ outer.maxi.y ∧ inner.maxi.z ≤ outer.maxi.z

/-- Membership of a point in a box. -/
def pointInBox (p : Vec3) (b : AABBQ) : Prop :=
  b.mini.x ≤ p.x ∧ p.x ≤ b.maxi.x ∧ b.mini.y ≤ p.y ∧ p.y ≤ b.maxi.y ∧
  b.mini.z ≤ p.z ∧ p.z ≤ b.maxi.z

/-- The untranslated AABB of triangle `tri`, as assembled in the source
(AABB of vertex 0, then Merge of vertices 1 and 2). -/
def triBoxRaw (m : MeshData) (tri : Nat) : AABBQ :=
  ((AABBQ.point (m.tv tri 0)).mergePoint (m.tv tri 1)).mergePoint (m.tv tri 2)

/-- The merged (translated) box of the triangles referenced by sorted-leaf
positions l .. r, the exact value LBVH::Build accumulates for the internal
node splitting that range. -/
def rangeBox (m : MeshData) (leaves : List LeafRec) (gmini : Vec3) (l r : Nat) :
    AABBQ :=
  (List.range' l (r + 1 - l)).foldl
    (fun b p => b.mergeBox (leafBox m leaves gmini p)) AABBQ.empty

/-- Weak box sanity: the corners stay within the float sentinel bounds, so
merging with the empty box is the identity. Holds for every fold of merges
that starts from the empty box. -/
def boxW (b : AABBQ) : Prop :=
  b.mini.x ≤ kMaxBound ∧ b.mini.y ≤ kMaxBound ∧ b.mini.z ≤ kMaxBound ∧
  kMinBound ≤ b.maxi.x ∧ kMinBound ≤ b.maxi.y ∧ kMinBound ≤ b.maxi.z

/-- Lexicographic dominance of split position s over interior position p:
either a strictly smaller delta, or an equal delta at a not-larger position.
The split of every subtree range is the lexicographic maximum. -/
def lexLE (leaves : List LeafRec) (p s : Nat) : Prop :=
  deltaF leaves p < deltaF leaves s ∨
    (deltaF leaves p = deltaF leaves s ∧ p ≤ s)

/-- Structural correctness of the subtree hanging from the encoded child
`enc` over sorted-leaf positions l .. r: odd encodings are leaves, even
encodings are internal nodes whose children split the range at some s, whose
box is the exact merged range box, and whose split position lexicographically
dominates the interior. -/
inductive SubtreeOK (m : MeshData) (leaves : List LeafRec) (gmini : Vec3) :
    List NodeM → Nat → Nat → Nat → Prop where
  | leaf : ∀ (nodes : List NodeM) (l : Nat),
      SubtreeOK m leaves gmini nodes (u32 ((leaves.getD l (0, 0)).1 * 2 + 1)) l l
  | node : ∀ (nodes : List NodeM) (s l r : Nat), l ≤ s → s < r →
      SubtreeOK m leaves gmini nodes (nodes.getD s node0).L l s →
      SubtreeOK m leaves gmini nodes (nodes.getD s node0).R (s + 1) r →
      (nodes.getD s node0).box = rangeBox m leaves gmini l r →
      (∀ p, l ≤ p → p < r → lexLE leaves p s) →
      SubtreeOK m leaves gmini nodes (u32 (s * 2)) l r

/-- Collect the triangle references reachable from an encoded child, decoding
exactly as the traversal does (tag bit 1 = leaf, shift right one). -/
def collectTris (nodes : List NodeM) : Nat → Nat → Option (List Nat)
  | 0, _ => none
  | fuel + 1, enc =>
    if enc % 2 = 1 then some [enc / 2]
    else
      let nd := nodes.getD (enc / 2) node0
      match collectTris nodes fuel nd.L, collectTris nodes fuel nd.R with
      | some a, some b => some (a ++ b)
      | _, _ => none

/-- One element of the right spine maintained across sequential climbs: a
finished subtree covering sorted-leaf positions l .. r whose encoded root is
`enc` and whose pending parent slot is r. -/
structure SpineElt where
  l : Nat
  r : Nat
  enc : Nat
deriving DecidableEq, Repr

/-- Invariant of the build state after the climbs for leaves 0 .. i-1 have
run (sequential schedule): the processed prefix decomposes into a spine of
finished subtrees. `SpineOK ... spine i` says the spine covers positions
[0, i). The head of the list is the rightmost element. Each element has its
encoded root written as the L child of its pending slot r, other_bounds[r]
holds its left endpoint, interior deltas are bounded by the boundary delta,
and boundary deltas strictly decrease to the right. -/
inductive SpineOK (m : MeshData) (leaves : List LeafRec) (gmini : Vec3)
    (nodes : List NodeM) (ob : List Nat) : List SpineElt → Nat → Prop where
  | nil : SpineOK m leaves gmini nodes ob [] 0
  | cons : ∀ (e : SpineElt) (spine : List SpineElt),
      SpineOK m leaves gmini nodes ob spine e.l →
      e.l ≤ e.r →
      SubtreeOK m leaves gmini nodes e.enc e.l e.r →
      (nodes.getD e.r node0).L = e.enc →
      (nodes.getD e.r node0).R = kInvalid →
      (nodes.getD e.r node0).box = rangeBox m leaves gmini e.l e.r →
      ob.getD e.r kInvalid = e.l →
      (∀ p, e.l ≤ p → p < e.r → deltaF leaves p ≤ deltaF leaves e.r) →
      (∀ e2, e2 ∈ spine → deltaF leaves e.r < deltaF leaves e2.r) →
      SpineOK m leaves gmini nodes ob (e :: spine) (e.r + 1)

/-- Structural shape of a built subtree, without box information: the
traversal's stack-safety analysis only reads child links and tags. -/
inductive TreeOK (leaves : List LeafRec) :
    List NodeM → Nat → Nat → Nat → Prop where
  | leaf : ∀ (nodes : List NodeM) (l : Nat),
      TreeOK leaves nodes (u32 ((leaves.getD l (0, 0)).1 * 2 + 1)) l l
  | node : ∀ (nodes : List NodeM) (s l r : Nat), l ≤ s → s < r →
      TreeOK leaves nodes (nodes.getD s node0).L l s →
      TreeOK leaves nodes (nodes.getD s node0).R (s + 1) r →
      (∀ p, l ≤ p → p < r → lexLE leaves p s) →
      TreeOK leaves nodes (u32 (s * 2)) l r

/-- One live stack entry of the traversal: an internal subtree over l .. r
whose interior deltas are all below 2^B. -/
def EntryOK (leaves : List LeafRec) (T : Nat) (nodes : List NodeM)
    (idx B : Nat) : Prop :=
  ∃ l r, l < r ∧ r < T ∧ idx * 2 < 2 ^ 32 ∧
    TreeOK leaves nodes (u32 (idx * 2)) l r ∧
    ∀ p, l ≤ p → p < r → deltaF leaves p < 2 ^ B

/-- The visit-stack invariant: each entry is live with bound at most 30, the
top two bounds are ordered, and from the second entry on the bounds strictly
increase towards the bottom. -/
def ChainOK (leaves : List LeafRec) (T : Nat) (nodes : List NodeM)
    (stack : List Nat) (Bs : List Nat) : Prop :=
  Bs.length = stack.length ∧
  (∀ j, j < stack.length →
    EntryOK leaves T nodes (stack.getD j 0) (Bs.getD j 0) ∧ Bs.getD j 0 ≤ 30) ∧
  (1 < Bs.length → Bs.getD 0 0 ≤ Bs.getD 1 0) ∧
  (∀ j, 1 ≤ j → j + 1 < Bs.length → Bs.getD j 0 < Bs.getD (j + 1) 0)

instance : IsTotal LeafRec leafLE := ⟨fun a b => Nat.le_total a.2 b.2⟩

instance : IsTrans LeafRec leafLE := ⟨fun a b c => Nat.le_trans⟩

/-- Well-formedness of the sorted leaf table for a T-triangle mesh: length T
and every triangle reference below T. -/
def leavesWF (leaves : List LeafRec) (T : Nat) : Prop :=
  leaves.length = T ∧ ∀ p, p < T → (leaves.getD p (0, 0)).1 < T

/-- The full build invariant after climbs 0 .. i-1. -/
def BuildInv (m : MeshData) (leaves : List LeafRec) (gmini : Vec3) (N i : Nat)
    (st : BState) : Prop :=
  ∃ spine, SpineOK m leaves gmini st.nodes st.ob spine i ∧
    st.root = kInvalid ∧ st.nodes.length = N ∧ st.ob.length = N ∧
    (∀ s, i ≤ s → s < N →
      st.nodes.getD s node0 = node0 ∧ st.ob.getD s kInvalid = kInvalid)

/-- The Moller-Trumbore distance of a ray against triangle `f` of the mesh. -/
def tFace (m : MeshData) (ray : RayQ) (f : Nat) : ℚ :=
  mtT ray.pos ray.dir (m.tv f 0) (m.tv f 1) (m.tv f 2)

/-- The Moller-Trumbore barycentric u of a ray against triangle `f`. -/
def uFace (m : MeshData) (ray : RayQ) (f : Nat) : ℚ :=
  mtU ray.pos ray.dir (m.tv f 0) (m.tv f 1) (m.tv f 2)

/-- The Moller-Trumbore barycentric v of a ray against triangle `f`. -/
def vFace (m : MeshData) (ray : RayQ) (f : Nat) : ℚ :=
  mtV ray.pos ray.dir (m.tv f 0) (m.tv f 1) (m.tv f 2)

/-- Acceptability of triangle `f` for the closest-hit fold at unconstrained
best distance: nonzero determinant, barycentrics in range, and distance in
[tmin, tmax). -/
def okFace (m : MeshData) (ray : RayQ) (f : Nat) : Prop :=
  mtDet ray.dir (m.tv f 0) (m.tv f 1) (m.tv f 2) ≠ 0 ∧
  0 ≤ mtU ray.pos ray.dir (m.tv f 0) (m.tv f 1) (m.tv f 2) ∧
  mtU ray.pos ray.dir (m.tv f 0) (m.tv f 1) (m.tv f 2) ≤ 1 ∧
  0 ≤ mtV ray.pos ray.dir (m.tv f 0) (m.tv f 1) (m.tv f 2) ∧
  mtU ray.pos ray.dir (m.tv f 0) (m.tv f 1) (m.tv f 2) +
    mtV ray.pos ray.dir (m.tv f 0) (m.tv f 1) (m.tv f 2) ≤ 1 ∧
  ray.tmin ≤ tFace m ray f ∧ tFace m ray f < ray.tmax

instance (m : MeshData) (ray : RayQ) (f : Nat) : Decidable (okFace m ray f) := by
  unfold okFace
  infer_instance

/-! Concrete data used for witnesses and counterexamples. -/

/-- A one-triangle mesh (spec scenario 1). -/
def mesh1 : MeshData :=
  ⟨[⟨0, 0, 0⟩, ⟨1, 0, 0⟩, ⟨0, 1, 0⟩], [⟨0, 0, 1⟩],
   [⟨0, 0⟩, ⟨1, 0⟩, ⟨2, 0⟩]⟩

/-- A two-triangle mesh: triangle 0 is the large triangle (0,0,0)-(4,0,0)-
(0,4,0), triangle 1 the small coplanar triangle (0,0,0)-(1,0,0)-(0,1,0); the
sixth position only extends the mesh bounding box in z. Triangle 0 has the
larger morton code, so the sorted leaf order is (1, 0). -/
def mesh2 : MeshData :=
  ⟨[⟨0, 0, 0⟩, ⟨4, 0, 0⟩, ⟨0, 4, 0⟩, ⟨1, 0, 0⟩, ⟨0, 1, 0⟩, ⟨0, 0, 4⟩],
   [⟨0, 0, 1⟩],
   [⟨0, 0⟩, ⟨1, 0⟩, ⟨2, 0⟩, ⟨0, 0⟩, ⟨3, 0⟩, ⟨4, 0⟩]⟩

/-- The built BVH of mesh1. -/
def bvh1 : LBVHS := (buildLBVH mesh1).getD ⟨kInvalid, []⟩

/-- The built BVH of mesh2. -/
def bvh2 : LBVHS := (buildLBVH mesh2).getD ⟨kInvalid, []⟩

/-- A ray hitting both triangles of mesh2 at distance exactly 1 (at the
common point (1/4, 1/4, 0)), with all direction components nonzero. -/
def ray2 : RayQ := ⟨⟨1/8, 1/8, 1⟩, ⟨1/8, 1/8, -1⟩, ⟨8, 8, -1⟩, 0, 10⟩

/-- A ray used to witness the amended two-triangle equivalence: positive
tmin, exact reciprocal direction, and no distance tie (it misses both
triangles of mesh2). -/
def rayC1 : RayQ := ⟨⟨10, 10, 1⟩, ⟨1, 1, -1⟩, ⟨1, 1, -1⟩, 1/2, 10⟩

/-- A ray with tnear = 0 whose origin lies on triangle 0 of mesh2 (inside it,
outside triangle 1), so the only acceptable hit is at distance exactly 0; the
slab test rejects the root box because its exit distance is 0. -/
def rayT0 : RayQ := ⟨⟨2, 1, 0⟩, ⟨1, 1, -1⟩, ⟨1, 1, -1⟩, 0, 10⟩

/-- The initial record for ray2: dist = tfar = 10. -/
def rec10 : HitRec := ⟨false, 10, 0, 0, 0⟩

/-- A valid ray descriptor used to probe `intersect` after a degenerate
preprocess. -/
def rayDescSample : RayDesc :=
  ⟨⟨0, 0, 0⟩, ⟨1, 1, 1⟩, 0, 10, true, false, ⟨0, 0, 0⟩, ⟨0, 0, 0⟩⟩

/-- The descriptor form of ray2. -/
def ray2desc : RayDesc :=
  ⟨⟨1/8, 1/8, 1⟩, ⟨1/8, 1/8, -1⟩, 0, 10, true, false, ⟨0, 0, 0⟩, ⟨0, 0, 0⟩⟩

/-- The expected result of intersect on ray2desc against mesh2. -/
def ray2descHit : RayDesc :=
  ⟨⟨1/8, 1/8, 1⟩, ⟨1/8, 1/8, -1⟩, 0, 10, true, true, ⟨1/4, 1/4, 0⟩, ⟨0, 0, 1⟩⟩

/-- A two-ray batch: one invalid ray and ray2desc. -/
def rayBatchIn : List RayDesc := [{ rayDescSample with valid := false }, ray2desc]

/-- The expected intersect output of rayBatchIn. -/
def rayBatchOut : List RayDesc :=
  [{ rayDescSample with valid := false, isisect := false }, ray2descHit]

/-! Theorems. -/

/-- Characterization of IntersectTriangle: acceptance condition and the
values written on success (shared helper). -/
theorem intersectTriangle_char (rayPos rayDir v0 v1 v2 : Vec3)
    (tmin tmax dist u v : ℚ) :
    ((intersectTriangle rayPos rayDir v0 v1 v2 tmin tmax dist u v).1 = true ↔
      (mtDet rayDir v0 v1 v2 ≠ 0 ∧
       0 ≤ mtU rayPos rayDir v0 v1 v2 ∧ mtU rayPos rayDir v0 v1 v2 ≤ 1 ∧
       0 ≤ mtV rayPos rayDir v0 v1 v2 ∧
       mtU rayPos rayDir v0 v1 v2 + mtV rayPos rayDir v0 v1 v2 ≤ 1 ∧
       tmin ≤ mtT rayPos rayDir v0 v1 v2 ∧ mtT rayPos rayDir v0 v1 v2 < tmax ∧
       mtT rayPos rayDir v0 v1 v2 ≤ dist)) ∧
    ((intersectTriangle rayPos rayDir v0 v1 v2 tmin tmax dist u v).1 = true →
      intersectTriangle rayPos rayDir v0 v1 v2 tmin tmax dist u v =
        (true, mtT rayPos rayDir v0 v1 v2, mtU rayPos rayDir v0 v1 v2,
         mtV rayPos rayDir v0 v1 v2)) := by
  simp only [intersectTriangle, mtU, mtV, mtT, mtDet, mul_one_div]
  split_ifs with h1 h2 h3 h4
  · simp [h1]
  · constructor
    · simp only [Bool.false_eq_true, false_iff, not_and]
      intro _ hu0 hu1
      rcases h2 with h | h
      · exact absurd hu0 (not_le.mpr h)
      · exact absurd hu1 (not_le.mpr h)
    · intro h
      exact absurd h (by simp)
  · constructor
    · simp only [Bool.false_eq_true, false_iff, not_and]
      intro _ _ _ hv0 hsum
      rcases h3 with h | h
      · exact absurd hv0 (not_le.mpr h)
      · exact absurd hsum (not_le.mpr h)
    · intro h
      exact absurd h (by simp)
  · constructor
    · simp only [Bool.false_eq_true, false_iff, not_and]
      intro _ _ _ _ _ ht1 ht2 ht3
      rcases h4 with h | h | h
      · exact absurd ht1 (not_le.mpr h)
      · exact absurd ht2 (not_lt.mpr h)
      · exact absurd ht3 (not_le.mpr h)
    · intro h
      exact absurd h (by simp)
  · simp only [not_or, not_lt] at h2 h3 h4
    refine ⟨?_, fun _ => rfl⟩
    simp only [true_iff]
    exact ⟨h1, h2.1, h2.2, h3.1, h3.2, h4.1, lt_of_not_le h4.2.1, h4.2.2⟩

/-- Rejection leaves the by-reference outputs unchanged (shared helper). -/
theorem intersectTriangle_false_eq (rayPos rayDir v0 v1 v2 : Vec3)
    (tmin tmax dist u v : ℚ)
    (h : (intersectTriangle rayPos rayDir v0 v1 v2 tmin tmax dist u v).1 = false) :
    intersectTriangle rayPos rayDir v0 v1 v2 tmin tmax dist u v =
      (false, dist, u, v) := by
  revert h
  simp only [intersectTriangle]
  split_ifs <;> simp

/-- IsHit leaves the record unchanged when IntersectTriangle rejects
(shared helper). -/
theorem isHit_reject_eq (m : MeshData) (ray : RayQ) (rec : HitRec) (face : Nat)
    (h : (intersectTriangle ray.pos ray.dir (m.tv face 0) (m.tv face 1)
      (m.tv face 2) ray.tmin ray.tmax rec.dist rec.u rec.v).1 = false) :
    isHit m ray rec face = rec := by
  have he := intersectTriangle_false_eq ray.pos ray.dir (m.tv face 0)
    (m.tv face 1) (m.tv face 2) ray.tmin ray.tmax rec.dist rec.u rec.v h
  simp [isHit, he]

/-- C7: IntersectTriangle returns true exactly when the Moller-Trumbore
determinant is nonzero, the barycentrics satisfy 0 <= u <= 1, 0 <= v,
u + v <= 1, and the distance satisfies tmin <= t < tmax and t <= dist; on
success it sets dist = t and stores the barycentrics in u and v. -/
theorem C7_intersectTriangle_iff (rayPos rayDir v0 v1 v2 : Vec3)
    (tmin tmax dist u v : ℚ) :
    ((intersectTriangle rayPos rayDir v0 v1 v2 tmin tmax dist u v).1 = true ↔
      (mtDet rayDir v0 v1 v2 ≠ 0 ∧
       0 ≤ mtU rayPos rayDir v0 v1 v2 ∧ mtU rayPos rayDir v0 v1 v2 ≤ 1 ∧
       0 ≤ mtV rayPos rayDir v0 v1 v2 ∧
       mtU rayPos rayDir v0 v1 v2 + mtV rayPos rayDir v0 v1 v2 ≤ 1 ∧
       tmin ≤ mtT rayPos rayDir v0 v1 v2 ∧ mtT rayPos rayDir v0 v1 v2 < tmax ∧
       mtT rayPos rayDir v0 v1 v2 ≤ dist)) ∧
    ((intersectTriangle rayPos rayDir v0 v1 v2 tmin tmax dist u v).1 = true →
      intersectTriangle rayPos rayDir v0 v1 v2 tmin tmax dist u v =
        (true, mtT rayPos rayDir v0 v1 v2, mtU rayPos rayDir v0 v1 v2,
         mtV rayPos rayDir v0 v1 v2)) :=
  intersectTriangle_char rayPos rayDir v0 v1 v2 tmin tmax dist u v

/-- C7 witness: a concrete accepted intersection, with the acceptance
condition discharged by computation. -/
theorem C7_witness :
    intersectTriangle ⟨1/4, 1/4, 1⟩ ⟨0, 0, -1⟩ ⟨0, 0, 0⟩ ⟨1, 0, 0⟩ ⟨0, 1, 0⟩
      0 10 10 0 0 =
      (true, mtT ⟨1/4, 1/4, 1⟩ ⟨0, 0, -1⟩ ⟨0, 0, 0⟩ ⟨1, 0, 0⟩ ⟨0, 1, 0⟩,
       mtU ⟨1/4, 1/4, 1⟩ ⟨0, 0, -1⟩ ⟨0, 0, 0⟩ ⟨1, 0, 0⟩ ⟨0, 1, 0⟩,
       mtV ⟨1/4, 1/4, 1⟩ ⟨0, 0, -1⟩ ⟨0, 0, 0⟩ ⟨1, 0, 0⟩ ⟨0, 1, 0⟩) :=
  (C7_intersectTriangle_iff ⟨1/4, 1/4, 1⟩ ⟨0, 0, -1⟩ ⟨0, 0, 0⟩ ⟨1, 0, 0⟩
    ⟨0, 1, 0⟩ 0 10 10 0 0).2 (by decide)

/-- C10: whenever IntersectTriangle returns false it leaves dist, u and v
unchanged, and consequently a rejected candidate during traversal leaves the
whole HitRecord unchanged. -/
theorem C10_reject_frame (rayPos rayDir v0 v1 v2 : Vec3)
    (tmin tmax dist u v : ℚ) (m : MeshData) (ray : RayQ) (rec : HitRec)
    (face : Nat) :
    ((intersectTriangle rayPos rayDir v0 v1 v2 tmin tmax dist u v).1 = false →
      intersectTriangle rayPos rayDir v0 v1 v2 tmin tmax dist u v =
        (false, dist, u, v)) ∧
    ((intersectTriangle ray.pos ray.dir (m.tv face 0) (m.tv face 1)
        (m.tv face 2) ray.tmin ray.tmax rec.dist rec.u rec.v).1 = false →
      isHit m ray rec face = rec) :=
  ⟨intersectTriangle_false_eq rayPos rayDir v0 v1 v2 tmin tmax dist u v,
   isHit_reject_eq m ray rec face⟩

/-- C10 witness: a concrete rejected intersection (the ray misses the
triangle), leaving the outputs and the record unchanged. -/
theorem C10_witness :
    intersectTriangle ⟨2, 2, 1⟩ ⟨0, 0, -1⟩ ⟨0, 0, 0⟩ ⟨1, 0, 0⟩ ⟨0, 1, 0⟩
        0 10 10 0 0 = (false, 10, 0, 0) ∧
      isHit mesh1 ⟨⟨2, 2, 1⟩, ⟨0, 0, -1⟩, ⟨0, 0, -1⟩, 0, 10⟩
        ⟨false, 10, 0, 0, 0⟩ 0 = ⟨false, 10, 0, 0, 0⟩ :=
  ⟨(C10_reject_frame ⟨2, 2, 1⟩ ⟨0, 0, -1⟩ ⟨0, 0, 0⟩ ⟨1, 0, 0⟩ ⟨0, 1, 0⟩
      0 10 10 0 0 mesh1 ⟨⟨2, 2, 1⟩, ⟨0, 0, -1⟩, ⟨0, 0, -1⟩, 0, 10⟩
      ⟨false, 10, 0, 0, 0⟩ 0).1 (by decide),
   (C10_reject_frame ⟨2, 2, 1⟩ ⟨0, 0, -1⟩ ⟨0, 0, 0⟩ ⟨1, 0, 0⟩ ⟨0, 1, 0⟩
      0 10 10 0 0 mesh1 ⟨⟨2, 2, 1⟩, ⟨0, 0, -1⟩, ⟨0, 0, -1⟩, 0, 10⟩
      ⟨false, 10, 0, 0, 0⟩ 0).2 (by decide)⟩

/-- C3 counterexample: after a hit at distance 1 has been recorded (record
dist = 1, from triangle 0 of mesh2), the later IntersectTriangle call on
triangle 1 computes the same distance 1 yet returns TRUE, and IsHit
overwrites u, v and face_id; the claim says it returns false and keeps the
earlier values. -/
theorem C3_counterexample :
    tFace mesh2 ray2 1 = 1 ∧
    (intersectTriangle ray2.pos ray2.dir (mesh2.tv 1 0) (mesh2.tv 1 1)
      (mesh2.tv 1 2) ray2.tmin ray2.tmax 1 (1/16) (1/16)).1 = true ∧
    isHit mesh2 ray2 ⟨true, 1, 1/16, 1/16, 0⟩ 1 = ⟨true, 1, 1/4, 1/4, 1⟩ := by
  refine ⟨by decide, by decide, by decide⟩

/-- C3 amended: a later IntersectTriangle call whose computed distance t
equals record.dist returns true and overwrites u, v and (via IsHit) face_id,
while dist keeps the same value; only t strictly greater than record.dist is
rejected by the dist test. -/
theorem C3_equal_t_displaces (m : MeshData) (ray : RayQ) (rec : HitRec)
    (face : Nat) (hok : okFace m ray face) (ht : tFace m ray face = rec.dist) :
    isHit m ray rec face =
      ⟨true, rec.dist,
       mtU ray.pos ray.dir (m.tv face 0) (m.tv face 1) (m.tv face 2),
       mtV ray.pos ray.dir (m.tv face 0) (m.tv face 1) (m.tv face 2), face⟩ := by
  obtain ⟨h1, h2, h3, h4, h5, h6, h7⟩ := hok
  have htrue : (intersectTriangle ray.pos ray.dir (m.tv face 0) (m.tv face 1)
      (m.tv face 2) ray.tmin ray.tmax rec.dist rec.u rec.v).1 = true :=
    (intersectTriangle_char ray.pos ray.dir (m.tv face 0) (m.tv face 1)
      (m.tv face 2) ray.tmin ray.tmax rec.dist rec.u rec.v).1.mpr
      ⟨h1, h2, h3, h4, h5, h6, h7, le_of_eq ht⟩
  have heq := (intersectTriangle_char ray.pos ray.dir (m.tv face 0)
    (m.tv face 1) (m.tv face 2) ray.tmin ray.tmax rec.dist rec.u rec.v).2 htrue
  have htt : mtT ray.pos ray.dir (m.tv face 0) (m.tv face 1) (m.tv face 2) =
      rec.dist := ht
  simp [isHit, heq, htt]

/-- C3 witness: the amended statement at the concrete tie of mesh2/ray2. -/
theorem C3_witness :
    isHit mesh2 ray2 ⟨true, (1 : ℚ), 1/16, 1/16, 0⟩ 1 =
      ⟨true, (1 : ℚ),
       mtU ray2.pos ray2.dir (mesh2.tv 1 0) (mesh2.tv 1 1) (mesh2.tv 1 2),
       mtV ray2.pos ray2.dir (mesh2.tv 1 0) (mesh2.tv 1 1) (mesh2.tv 1 2), 1⟩ :=
  C3_equal_t_displaces mesh2 ray2 ⟨true, 1, 1/16, 1/16, 0⟩ 1 (by decide)
    (by decide)

/-! Bit-level helpers for the Morton code (C8). -/

/-- Addition of naturals with disjoint binary digits is bitwise or. -/
theorem add_eq_lor_of_land_zero (a : Nat) : ∀ b : Nat, a &&& b = 0 →
    a + b = a ||| b := by
  induction a using Nat.strong_induction_on with
  | _ a ih =>
    intro b h
    rcases Nat.eq_zero_or_pos a with ha | ha
    · subst ha; simp
    · have hd : a / 2 &&& b / 2 = 0 := by
        rw [← Nat.and_div_two, h]
      have ihh := ih (a / 2) (Nat.div_lt_self ha (by norm_num)) (b / 2) hd
      have hp : ¬(a % 2 = 1 ∧ b % 2 = 1) := by
        rintro ⟨h1, h2⟩
        have : (a &&& b) % 2 = 1 := Nat.and_mod_two_eq_one.mpr ⟨h1, h2⟩
        rw [h] at this
        simp at this
      have hor2 : (a ||| b) / 2 = a / 2 ||| b / 2 := Nat.or_div_two
      have hmod : (a ||| b) % 2 = a % 2 + b % 2 := by
        rcases Nat.mod_two_eq_zero_or_one a with h1 | h1 <;>
          rcases Nat.mod_two_eq_zero_or_one b with h2 | h2
        · have : ¬ (a ||| b) % 2 = 1 := by
            rw [Nat.or_mod_two_eq_one]
            omega
          omega
        · have : (a ||| b) % 2 = 1 := Nat.or_mod_two_eq_one.mpr (Or.inr h2)
          omega
        · have : (a ||| b) % 2 = 1 := Nat.or_mod_two_eq_one.mpr (Or.inl h1)
          omega
        · exact absurd ⟨h1, h2⟩ hp
      have ha2 := Nat.div_add_mod a 2
      have hb2 := Nat.div_add_mod b 2
      have hab2 := Nat.div_add_mod (a ||| b) 2
      omega

/-- Bitwise and of values included in disjoint masks is zero. -/
theorem land_zero_of_masks {a b m1 m2 : Nat} (ha : a &&& m1 = a)
    (hb : b &&& m2 = b) (hm : m1 &&& m2 = 0) : a &&& b = 0 := by
  apply Nat.eq_of_testBit_eq
  intro i
  have hmi : (m1.testBit i && m2.testBit i) = false := by
    rw [← Nat.testBit_and, hm]
    simp
  have hai : a.testBit i = (a.testBit i && m1.testBit i) := by
    conv_lhs => rw [← ha]
    rw [Nat.testBit_and]
  have hbi : b.testBit i = (b.testBit i && m2.testBit i) := by
    conv_lhs => rw [← hb]
    rw [Nat.testBit_and]
  simp only [Nat.testBit_and, Nat.zero_testBit]
  cases hA : a.testBit i <;> cases hB : b.testBit i <;> simp_all

/-- Shifting preserves mask inclusion. -/
theorem shiftLeft_land_mask {a m : Nat} (n : Nat) (ha : a &&& m = a) :
    (a <<< n) &&& (m <<< n) = a <<< n := by
  apply Nat.eq_of_testBit_eq
  intro i
  have hai : a.testBit (i - n) = (a.testBit (i - n) && m.testBit (i - n)) := by
    conv_lhs => rw [← ha]
    rw [Nat.testBit_and]
  simp only [Nat.testBit_and, Nat.testBit_shiftLeft]
  cases hd : decide (n ≤ i) <;> simp_all

set_option maxRecDepth 40000 in
/-- Every expanded 10-bit value lies in the low interleave mask. -/
theorem expandBits_mask : ∀ v : Nat, v < 1024 →
    expandBits v &&& 0x09249249 = expandBits v := by decide

/-- The clamped Morton coordinate lies in [0, 1023]. -/
theorem mortonClamp_range (x : ℚ) : 0 ≤ mortonClamp x ∧ mortonClamp x ≤ 1023 := by
  unfold mortonClamp sClamp sMax sMin
  split_ifs <;> constructor <;> linarith

/-- The Morton bin is at most 1023: out-of-cube inputs clamp, never wrap. -/
theorem mortonBin_le (x : ℚ) : mortonBin x ≤ 1023 := by
  have h := (mortonClamp_range x).2
  unfold mortonBin
  have hfloor : (mortonClamp x).floor ≤ 1023 := by
    by_contra hlt
    push_neg at hlt
    have : ((1024 : ℤ) : ℚ) ≤ mortonClamp x := Rat.le_floor.mp hlt
    push_cast at this
    linarith
  omega

/-- C8: every Morton bin is clamped into [0, 1023]; the three expanded words
combine carry-free, so the uint32 additions equal the bitwise-or combination
`(xx << 2) | (yy << 1) | zz`; the code is always below 2^30; and identical
bins give identical codes. -/
theorem C8_morton3D (x y z x2 y2 z2 : ℚ) :
    mortonBin x ≤ 1023 ∧
    morton3D x y z =
      (expandBits (mortonBin x) <<< 2) ||| (expandBits (mortonBin y) <<< 1) |||
        expandBits (mortonBin z) ∧
    morton3D x y z < 2 ^ 30 ∧
    (mortonBin x = mortonBin x2 → mortonBin y = mortonBin y2 →
      mortonBin z = mortonBin z2 → morton3D x y z = morton3D x2 y2 z2) := by
  have hx := expandBits_mask (mortonBin x)
    (lt_of_le_of_lt (mortonBin_le x) (by norm_num))
  have hy := expandBits_mask (mortonBin y)
    (lt_of_le_of_lt (mortonBin_le y) (by norm_num))
  have hz := expandBits_mask (mortonBin z)
    (lt_of_le_of_lt (mortonBin_le z) (by norm_num))
  set xx := expandBits (mortonBin x) with hxx
  set yy := expandBits (mortonBin y) with hyy
  set zz := expandBits (mortonBin z) with hzz
  have hxb : xx ≤ 0x09249249 := by
    conv_lhs => rw [← hx]
    exact Nat.and_le_right
  have hyb : yy ≤ 0x09249249 := by
    conv_lhs => rw [← hy]
    exact Nat.and_le_right
  have hzb : zz ≤ 0x09249249 := by
    conv_lhs => rw [← hz]
    exact Nat.and_le_right
  have h2x := shiftLeft_land_mask 2 hx
  have h1y := shiftLeft_land_mask 1 hy
  have dxy : (xx <<< 2) &&& (yy <<< 1) = 0 :=
    land_zero_of_masks h2x h1y (by decide)
  have dxz : (xx <<< 2) &&& zz = 0 :=
    land_zero_of_masks h2x hz (by decide)
  have dyz : (yy <<< 1) &&& zz = 0 :=
    land_zero_of_masks h1y hz (by decide)
  have hor1 : (xx <<< 2) + (yy <<< 1) = (xx <<< 2) ||| (yy <<< 1) :=
    add_eq_lor_of_land_zero _ _ dxy
  have dxyz : ((xx <<< 2) ||| (yy <<< 1)) &&& zz = 0 := by
    rw [Nat.and_distrib_right, dxz, dyz]
    rfl
  have hor2 : ((xx <<< 2) ||| (yy <<< 1)) + zz =
      ((xx <<< 2) ||| (yy <<< 1)) ||| zz :=
    add_eq_lor_of_land_zero _ _ dxyz
  have hsx : xx <<< 2 = xx * 4 := Nat.shiftLeft_eq xx 2
  have hsy : yy <<< 1 = yy * 2 := Nat.shiftLeft_eq yy 1
  have hsum : (xx <<< 2) + (yy <<< 1) + zz < 2 ^ 30 := by
    rw [hsx, hsy]
    omega
  have hmx : xx <<< 2 % 2 ^ 32 = xx <<< 2 := Nat.mod_eq_of_lt (by rw [hsx]; omega)
  have hmy : yy <<< 1 % 2 ^ 32 = yy <<< 1 := Nat.mod_eq_of_lt (by rw [hsy]; omega)
  have hmor : morton3D x y z = (xx <<< 2) + (yy <<< 1) + zz := by
    simp only [morton3D, ← hxx, ← hyy, ← hzz, u32, hmx, hmy]
    exact Nat.mod_eq_of_lt (lt_trans hsum (by norm_num : (2:Nat) ^ 30 < 2 ^ 32))
  refine ⟨mortonBin_le x, ?_, ?_, ?_⟩
  · rw [hmor, Nat.add_assoc, ← Nat.add_assoc, hor1, hor2]
  · rw [hmor]
    exact hsum
  · intro e1 e2 e3
    simp only [morton3D, e1, e2, e3]

/-- C8 witness: two distinct points with identical bins get identical codes
(discharging the implication hypotheses at a concrete input). -/
theorem C8_witness :
    mortonBin (1/3 : ℚ) = mortonBin (1/3 + 1/4096 : ℚ) ∧
    morton3D (1/3) (1/2) 0 = morton3D (1/3 + 1/4096) (1/2) 0 :=
  ⟨by decide,
   (C8_morton3D (1/3) (1/2) 0 (1/3 + 1/4096) (1/2) 0).2.2.2 (by decide)
     (by decide) (by decide)⟩

/-- Traversal immediately fails when Root indexes outside the Nodes array
(shared helper). -/
theorem traverse_root_oob (m : MeshData) (bvh : LBVHS) (ray : RayQ)
    (rec : HitRec) (fuel : Nat) (h : bvh.nodes.get? bvh.root = none) :
    traverseChecked m bvh ray rec (fuel + 1) = .error .nodeOOB := by
  rw [traverseChecked, traverseLoop, h]

/-- A traversal error on a valid ray propagates out of intersectOne
(shared helper). -/
theorem intersectOne_error (m : MeshData) (bvh : LBVHS) (fuel : Nat)
    (r : RayDesc) (e : TravErr) (hv : r.valid = true)
    (h : traverseChecked m bvh
      ⟨r.pos, r.dir, ⟨1 / r.dir.x, 1 / r.dir.y, 1 / r.dir.z⟩, r.tnear, r.tfar⟩
      ⟨false, r.tfar, 0, 0, 0⟩ fuel = .error e) :
    intersectOne m bvh fuel r = .error e := by
  rw [intersectOne]
  simp only [hv, Bool.not_true, Bool.false_eq_true, if_false, h]

/-- C4 counterexample: preprocess with faceCount = 0 (and null = empty
arrays) does NOT return without building: it runs Build, where the uint32
node count T - 1 underflows to 2^32 - 1; Root stays kInvalid, and a
subsequent intersect on a valid ray dereferences Nodes out of bounds
(model error nodeOOB) instead of reporting a miss. -/
theorem C4_counterexample :
    ((preprocessModel [] [] []).map fun b => (b.nodes.length, b.root)) =
      some (2 ^ 32 - 1, kInvalid) ∧
    intersectOne ⟨[], [], []⟩ ((preprocessModel [] [] []).getD ⟨kInvalid, []⟩)
      (4 + 1) rayDescSample = .error .nodeOOB := by
  have h0 : triCount (⟨[], [], []⟩ : MeshData) = 0 := rfl
  have h1 : u32sub1 0 = 2 ^ 32 - 1 := rfl
  have hbuild : preprocessModel [] [] [] =
      some ⟨kInvalid, (List.replicate (2 ^ 32 - 1) node0).map fun nd =>
        { nd with box := nd.box.translate (meshBox ⟨[], [], []⟩).mini }⟩ := by
    simp only [preprocessModel, buildLBVH, h0, h1, List.range_zero,
      List.foldlM_nil, pure]
  constructor
  · rw [hbuild]
    simp only [Option.map_some', List.length_map, List.length_replicate]
  · rw [hbuild, Option.getD_some]
    refine intersectOne_error _ _ _ _ _ rfl (traverse_root_oob _ _ _ _ 4 ?_)
    rw [List.get?_eq_none]
    simp only [List.length_map, List.length_replicate, kInvalid]
    exact Nat.le_refl _

/-- C4 amended: preprocess performs no validation and always calls Build.
For faceCount = 0 (empty index array) the uint32 node count underflows to
2^32 - 1, Root remains kInvalid, and every subsequent traversal reads the
Nodes array out of bounds rather than reporting a miss. -/
theorem C4_no_guard (vertices normals : List Vec3) (bvh : LBVHS)
    (h : preprocessModel vertices normals [] = some bvh) :
    bvh.nodes.length = 2 ^ 32 - 1 ∧ bvh.root = kInvalid ∧
    ∀ (ray : RayQ) (rec : HitRec) (fuel : Nat),
      traverseChecked ⟨vertices, normals, []⟩ bvh ray rec (fuel + 1) =
        .error .nodeOOB := by
  have h0 : triCount (⟨vertices, normals, []⟩ : MeshData) = 0 := by
    simp [triCount, u32]
  have h1 : u32sub1 0 = 2 ^ 32 - 1 := rfl
  have hbuild : preprocessModel vertices normals [] =
      some ⟨kInvalid, (List.replicate (2 ^ 32 - 1) node0).map fun nd =>
        { nd with box := nd.box.translate (meshBox ⟨vertices, normals, []⟩).mini }⟩ := by
    simp only [preprocessModel, buildLBVH, h0, h1, List.range_zero,
      List.foldlM_nil, pure]
  rw [hbuild] at h
  obtain rfl : bvh = _ := (Option.some_inj.mp h).symm
  refine ⟨by simp only [List.length_map, List.length_replicate], rfl, ?_⟩
  intro ray rec fuel
  apply traverse_root_oob
  rw [List.get?_eq_none]
  simp only [List.length_map, List.length_replicate, kInvalid]
  exact Nat.le_refl _

/-- C4 witness: the amended statement instantiated at the empty input. -/
theorem C4_witness :
    ((preprocessModel [] [] []).getD ⟨kInvalid, []⟩).nodes.length =
        2 ^ 32 - 1 ∧
      traverseChecked ⟨[], [], []⟩ ((preprocessModel [] [] []).getD ⟨kInvalid, []⟩)
        ⟨⟨0, 0, 0⟩, ⟨1, 1, 1⟩, ⟨1, 1, 1⟩, 0, 10⟩ ⟨false, 10, 0, 0, 0⟩ 3 =
        .error .nodeOOB :=
  have h := C4_no_guard [] [] ((preprocessModel [] [] []).getD ⟨kInvalid, []⟩) rfl
  ⟨h.1, h.2.2 ⟨⟨0, 0, 0⟩, ⟨1, 1, 1⟩, ⟨1, 1, 1⟩, 0, 10⟩ ⟨false, 10, 0, 0, 0⟩ 2⟩

/-- C6: for a one-triangle mesh, Build produces zero internal nodes but sets
Root = 0; the very first step of every traversal then reads Nodes[0] of the
empty Nodes array - an out-of-bounds access - so the single triangle is
never tested. -/
theorem C6_single_triangle_oob (ray : RayQ) (rec : HitRec) (fuel : Nat) :
    buildLBVH mesh1 = some bvh1 ∧ bvh1.root = 0 ∧ bvh1.nodes = [] ∧
    traverseChecked mesh1 bvh1 ray rec (fuel + 1) = .error .nodeOOB := by
  have hn : bvh1.nodes = [] := by decide
  refine ⟨by decide, by decide, hn, ?_⟩
  simp [traverseChecked, hn, traverseLoop]

/-- Frame behavior of intersectOne (shared helper). -/
theorem intersectOne_frame (m : MeshData) (bvh : LBVHS) (fuel : Nat)
    (r r2 : RayDesc) (h : intersectOne m bvh fuel r = .ok r2) :
    (r.valid = false → r2 = { r with isisect := false }) ∧
    r2.pos = r.pos ∧ r2.dir = r.dir ∧ r2.tnear = r.tnear ∧
    r2.tfar = r.tfar ∧ r2.valid = r.valid ∧
    (r2.isisect = false → r2.isect = r.isect ∧ r2.ns = r.ns) := by
  by_cases hv : r.valid
  · rw [intersectOne] at h
    simp only [hv, Bool.not_true, Bool.false_eq_true, if_false] at h
    rcases htr : traverseChecked m bvh
        ⟨r.pos, r.dir, ⟨1 / r.dir.x, 1 / r.dir.y, 1 / r.dir.z⟩, r.tnear, r.tfar⟩
        ⟨false, r.tfar, 0, 0, 0⟩ fuel with e | rec
    · rw [htr] at h
      exact absurd h (by simp)
    · rw [htr] at h
      by_cases hh : rec.hit
      · simp only [hh, if_true, Except.ok.injEq] at h
        subst h
        simp [hv]
      · simp only [hh, Bool.false_eq_true, if_false, Except.ok.injEq] at h
        subst h
        simp [hv, hh]
  · rw [intersectOne] at h
    simp only [Bool.not_eq_true] at hv
    simp only [hv, Bool.not_false, if_true, Except.ok.injEq] at h
    subst h
    simp [hv]

/-- C9: for every batch accepted by intersect: an invalid ray only has its
isisect flag cleared; pos, dir, tnear, tfar and valid are never modified;
and isect and ns are written only when a hit is reported. -/
theorem C9_intersect_frame (m : MeshData) (bvh : LBVHS) (fuel : Nat)
    (rays rays2 : List RayDesc)
    (h : intersectModel m bvh fuel rays = .ok rays2) :
    rays2.length = rays.length ∧
    ∀ i, i < rays.length →
      ((rays.getD i rayDescSample).valid = false →
        rays2.getD i rayDescSample =
          { rays.getD i rayDescSample with isisect := false }) ∧
      (rays2.getD i rayDescSample).pos = (rays.getD i rayDescSample).pos ∧
      (rays2.getD i rayDescSample).dir = (rays.getD i rayDescSample).dir ∧
      (rays2.getD i rayDescSample).tnear = (rays.getD i rayDescSample).tnear ∧
      (rays2.getD i rayDescSample).tfar = (rays.getD i rayDescSample).tfar ∧
      (rays2.getD i rayDescSample).valid = (rays.getD i rayDescSample).valid ∧
      ((rays2.getD i rayDescSample).isisect = false →
        (rays2.getD i rayDescSample).isect = (rays.getD i rayDescSample).isect ∧
        (rays2.getD i rayDescSample).ns = (rays.getD i rayDescSample).ns) := by
  induction rays generalizing rays2 with
  | nil =>
    rw [intersectModel, List.mapM_nil] at h
    obtain rfl : rays2 = [] := by
      simpa [pure, Except.pure] using h.symm
    exact ⟨rfl, fun i hi => absurd hi (by simp)⟩
  | cons a l ih =>
    rw [intersectModel, List.mapM_cons] at h
    rcases hfa : intersectOne m bvh fuel a with e | b
    · rw [hfa] at h
      exact absurd h (by simp [Bind.bind, Except.bind])
    · rw [hfa] at h
      rcases hrest : l.mapM (intersectOne m bvh fuel) with e | bs
      · rw [hrest] at h
        exact absurd h (by simp [Bind.bind, Except.bind])
      · rw [hrest] at h
        obtain rfl : rays2 = b :: bs := by
          simpa [Bind.bind, Except.bind, pure, Except.pure] using h.symm
        have hl := ih bs hrest
        refine ⟨by simpa using hl.1, ?_⟩
        intro i hi
        match i with
        | 0 =>
          simpa using intersectOne_frame m bvh fuel a b hfa
        | i + 1 =>
          simpa using hl.2 i (by simpa using hi)

/-- C9 witness: a two-ray batch (one invalid, one valid hitting mesh2),
with the acceptance hypothesis discharged by computation. -/
theorem C9_witness :
    rayBatchOut.length = rayBatchIn.length ∧
    (rayBatchOut.getD 1 rayDescSample).pos =
      (rayBatchIn.getD 1 rayDescSample).pos ∧
    ((rayBatchIn.getD 0 rayDescSample).valid = false →
      rayBatchOut.getD 0 rayDescSample =
        { rayBatchIn.getD 0 rayDescSample with isisect := false }) :=
  have h : intersectModel mesh2 bvh2 5 rayBatchIn = .ok rayBatchOut := by decide
  have hf := C9_intersect_frame mesh2 bvh2 5 rayBatchIn rayBatchOut h
  ⟨hf.1, (hf.2 1 (by decide)).2.1, (hf.2 0 (by decide)).1⟩

/-- C1 counterexample: on mesh2 and ray2 both triangles are hit at distance
exactly 1; the BVH traversal tests them in sorted morton order (1, then 0)
while brute force tests (0, then 1); the inclusive t <= dist acceptance
makes the last-tested equal-distance triangle win, so the two closest hits
differ in u, v and face_id. -/
theorem C1_counterexample :
    buildLBVH mesh2 = some bvh2 ∧
    traverseChecked mesh2 bvh2 ray2 rec10 5 = .ok ⟨true, 1, 1/16, 1/16, 0⟩ ∧
    bruteForce mesh2 2 ray2 rec10 = ⟨true, 1, 1/4, 1/4, 1⟩ ∧
    traverseChecked mesh2 bvh2 ray2 rec10 5 ≠
      .ok (bruteForce mesh2 2 ray2 rec10) := by
  exact ⟨by decide, by decide, by decide, by decide⟩

/-! Merge algebra for the AABB model. -/

/-- sMin agrees with the lattice minimum. -/
theorem sMin_eq (a b : ℚ) : sMin a b = min a b := by
  unfold sMin
  rcases lt_trichotomy a b with h | h | h
  · rw [if_pos h, min_eq_left (le_of_lt h)]
  · rw [h, if_neg (lt_irrefl b), min_self]
  · rw [if_neg (not_lt.mpr (le_of_lt h)), min_eq_right (le_of_lt h)]

/-- sMax agrees with the lattice maximum. -/
theorem sMax_eq (a b : ℚ) : sMax a b = max a b := by
  unfold sMax
  rcases lt_trichotomy a b with h | h | h
  · rw [if_neg (not_lt.mpr (le_of_lt h)), max_eq_right (le_of_lt h)]
  · rw [h, if_neg (lt_irrefl b), max_self]
  · rw [if_pos h, max_eq_left (le_of_lt h)]

/-- Merging boxes is commutative. -/
theorem mergeBox_comm (a b : AABBQ) : a.mergeBox b = b.mergeBox a := by
  simp [AABBQ.mergeBox, Vec3.vmin, Vec3.vmax, sMin_eq, sMax_eq, min_comm,
    max_comm]

/-- Merging boxes is associative. -/
theorem mergeBox_assoc (a b c : AABBQ) :
    (a.mergeBox b).mergeBox c = a.mergeBox (b.mergeBox c) := by
  simp [AABBQ.mergeBox, Vec3.vmin, Vec3.vmax, sMin_eq, sMax_eq, min_assoc,
    max_assoc]

/-- Merging the empty box on the right is the identity on weakly sane boxes. -/
theorem mergeBox_empty_right {b : AABBQ} (h : boxW b) :
    b.mergeBox AABBQ.empty = b := by
  obtain ⟨h1, h2, h3, h4, h5, h6⟩ := h
  simp [AABBQ.mergeBox, AABBQ.empty, Vec3.vmin, Vec3.vmax, sMin_eq, sMax_eq,
    min_eq_left, max_eq_left, h1, h2, h3, h4, h5, h6]

/-- Merging the empty box on the left is the identity on weakly sane boxes. -/
theorem mergeBox_empty_left {b : AABBQ} (h : boxW b) :
    AABBQ.empty.mergeBox b = b := by
  rw [mergeBox_comm]
  exact mergeBox_empty_right h

/-- The empty box is weakly sane. -/
theorem boxW_empty : boxW AABBQ.empty := by
  simp [boxW, AABBQ.empty, kMaxBound, kMinBound]

/-- Merging preserves weak sanity (left argument). -/
theorem boxW_merge_left {a : AABBQ} (b : AABBQ) (h : boxW a) :
    boxW (a.mergeBox b) := by
  obtain ⟨h1, h2, h3, h4, h5, h6⟩ := h
  refine ⟨?_, ?_, ?_, ?_, ?_, ?_⟩ <;>
    simp [AABBQ.mergeBox, Vec3.vmin, Vec3.vmax, sMin_eq, sMax_eq] <;>
    first
    | exact Or.inl (by assumption)
    | exact le_max_of_le_left (by assumption)

/-- Folding merges from a weakly sane accumulator stays weakly sane. -/
theorem boxW_foldl (f : Nat → AABBQ) :
    ∀ (L : List Nat) (x : AABBQ), boxW x →
      boxW (L.foldl (fun b p => b.mergeBox (f p)) x) := by
  intro L
  induction L with
  | nil => intro x hx; exact hx
  | cons a l ih =>
    intro x hx
    exact ih (x.mergeBox (f a)) (boxW_merge_left (f a) hx)

/-- Fold of merges out of a merged accumulator (pure associativity). -/
theorem foldl_mergeBox_acc (f : Nat → AABBQ) :
    ∀ (L : List Nat) (x y : AABBQ),
      L.foldl (fun b p => b.mergeBox (f p)) (x.mergeBox y) =
        x.mergeBox (L.foldl (fun b p => b.mergeBox (f p)) y) := by
  intro L
  induction L with
  | nil => intro x y; rfl
  | cons a l ih =>
    intro x y
    simp only [List.foldl_cons, mergeBox_assoc, ih]

/-- Fold of merges from a weakly sane accumulator factors through the fold
from the empty box. -/
theorem foldl_mergeBox_split (f : Nat → AABBQ) (L : List Nat) (x : AABBQ)
    (h : boxW x) :
    L.foldl (fun b p => b.mergeBox (f p)) x =
      x.mergeBox (L.foldl (fun b p => b.mergeBox (f p)) AABBQ.empty) := by
  conv_lhs => rw [← mergeBox_empty_right h]
  exact foldl_mergeBox_acc f L x AABBQ.empty

/-- The range box is weakly sane. -/
theorem boxW_rangeBox (m : MeshData) (leaves : List LeafRec) (gmini : Vec3)
    (l r : Nat) : boxW (rangeBox m leaves gmini l r) :=
  boxW_foldl _ _ AABBQ.empty boxW_empty

/-- Singleton range box. -/
theorem rangeBox_single (m : MeshData) (leaves : List LeafRec) (gmini : Vec3)
    (l : Nat) :
    rangeBox m leaves gmini l l =
      AABBQ.empty.mergeBox (leafBox m leaves gmini l) := by
  have h : l + 1 - l = 1 := by omega
  simp [rangeBox, h, List.range']

/-- Splitting a range box at an interior position. -/
theorem rangeBox_split (m : MeshData) (leaves : List LeafRec) (gmini : Vec3)
    (l q r : Nat) (hlq : l ≤ q) (hqr : q < r) :
    rangeBox m leaves gmini l r =
      (rangeBox m leaves gmini l q).mergeBox
        (rangeBox m leaves gmini (q + 1) r) := by
  have hsplit : List.range' l (r + 1 - l) =
      List.range' l (q + 1 - l) ++ List.range' (q + 1) (r - q) := by
    have h0 := List.range'_append l (q + 1 - l) (r - q) 1
    rw [one_mul, show l + (q + 1 - l) = q + 1 by omega,
      show r - q + (q + 1 - l) = r + 1 - l by omega] at h0
    exact h0.symm
  rw [rangeBox, hsplit, List.foldl_append]
  rw [show List.range' (q + 1) (r - q) = List.range' (q + 1) (r + 1 - (q + 1))
    by congr 1; omega]
  rw [← rangeBox]
  exact foldl_mergeBox_split _ _ _ (boxW_rangeBox m leaves gmini l q)

/-- Appending one leaf on the right of a range box. -/
theorem rangeBox_snoc (m : MeshData) (leaves : List LeafRec) (gmini : Vec3)
    (l r : Nat) (hlr : l ≤ r) :
    rangeBox m leaves gmini l (r + 1) =
      (rangeBox m leaves gmini l r).mergeBox (leafBox m leaves gmini (r + 1)) := by
  rw [rangeBox_split m leaves gmini l r (r + 1) hlr (by omega),
    rangeBox_single, ← mergeBox_assoc,
    mergeBox_empty_right (boxW_rangeBox m leaves gmini l r)]

/-! List update helpers and monotonicity of the structural invariants. -/

/-- getD after set at a different index. -/
theorem getD_set_ne {α : Type} (l : List α) (i j : Nat) (a d : α) (h : i ≠ j) :
    (l.set i a).getD j d = l.getD j d := by
  simp [List.getD_eq_getElem?_getD, List.getElem?_set_ne h]

/-- getD after set at the written index. -/
theorem getD_set_self {α : Type} (l : List α) (i : Nat) (a d : α)
    (h : i < l.length) :
    (l.set i a).getD i d = a := by
  simp [List.getD_eq_getElem?_getD, List.getElem?_set_self h]

/-- setNodeL changes no other slot. -/
theorem setNodeL_getD_ne (nodes : List NodeM) (p idx s : Nat) (h : p ≠ s) :
    (setNodeL nodes p idx).getD s node0 = nodes.getD s node0 :=
  getD_set_ne _ p s _ _ h

/-- setNodeL at the written slot. -/
theorem setNodeL_getD_self (nodes : List NodeM) (p idx : Nat)
    (h : p < nodes.length) :
    (setNodeL nodes p idx).getD p node0 =
      { nodes.getD p node0 with L := idx } :=
  getD_set_self _ p _ _ h

/-- setNodeR changes no other slot. -/
theorem setNodeR_getD_ne (nodes : List NodeM) (p idx s : Nat) (h : p ≠ s) :
    (setNodeR nodes p idx).getD s node0 = nodes.getD s node0 :=
  getD_set_ne _ p s _ _ h

/-- setNodeR at the written slot. -/
theorem setNodeR_getD_self (nodes : List NodeM) (p idx : Nat)
    (h : p < nodes.length) :
    (setNodeR nodes p idx).getD p node0 =
      { nodes.getD p node0 with R := idx } :=
  getD_set_self _ p _ _ h

/-- mergeNodeBox changes no other slot. -/
theorem mergeNodeBox_getD_ne (nodes : List NodeM) (p s : Nat) (b : AABBQ)
    (h : p ≠ s) :
    (mergeNodeBox nodes p b).getD s node0 = nodes.getD s node0 :=
  getD_set_ne _ p s _ _ h

/-- mergeNodeBox at the written slot. -/
theorem mergeNodeBox_getD_self (nodes : List NodeM) (p : Nat) (b : AABBQ)
    (h : p < nodes.length) :
    (mergeNodeBox nodes p b).getD p node0 =
      { nodes.getD p node0 with
        box := ((nodes.getD p node0).box).mergeBox b } :=
  getD_set_self _ p _ _ h

/-- SubtreeOK only inspects node slots in [l, r): agreeing updates keep it. -/
theorem SubtreeOK_mono (m : MeshData) (leaves : List LeafRec) (gmini : Vec3)
    {nodes : List NodeM} {enc l r : Nat}
    (h : SubtreeOK m leaves gmini nodes enc l r) :
    ∀ nodes2 : List NodeM,
      (∀ s, l ≤ s → s < r → nodes2.getD s node0 = nodes.getD s node0) →
      SubtreeOK m leaves gmini nodes2 enc l r := by
  induction h with
  | leaf l2 =>
    intro nodes2 _
    exact SubtreeOK.leaf nodes2 l2
  | node s2 l2 r2 hls hsr hL hR hbox hlex ihL ihR =>
    intro nodes2 hag
    have hs : nodes2.getD s2 node0 = nodes.getD s2 node0 :=
      hag s2 hls hsr
    refine SubtreeOK.node nodes2 s2 l2 r2 hls hsr ?_ ?_ ?_ hlex
    · rw [hs]
      exact ihL nodes2 fun p hp1 hp2 => hag p hp1 (lt_trans hp2 hsr)
    · rw [hs]
      exact ihR nodes2 fun p hp1 hp2 => hag p (le_trans (by omega) hp1) hp2
    · rw [hs, hbox]

/-- SpineOK only inspects node and other_bounds slots in [0, i): agreeing
updates keep it. -/
theorem SpineOK_mono (m : MeshData) (leaves : List LeafRec) (gmini : Vec3)
    {nodes : List NodeM} {ob : List Nat} {spine : List SpineElt} {i : Nat}
    (h : SpineOK m leaves gmini nodes ob spine i) :
    ∀ (nodes2 : List NodeM) (ob2 : List Nat),
      (∀ s, s < i → nodes2.getD s node0 = nodes.getD s node0) →
      (∀ s, s < i → ob2.getD s kInvalid = ob.getD s kInvalid) →
      SpineOK m leaves gmini nodes2 ob2 spine i := by
  induction h with
  | nil =>
    intro nodes2 ob2 _ _
    exact SpineOK.nil
  | cons e spine hsp hler hsub hL hR hbox hob hclause hchain ih =>
    intro nodes2 ob2 hn ho
    have her : e.r < e.r + 1 := by omega
    have hre : nodes2.getD e.r node0 = nodes.getD e.r node0 := hn e.r her
    refine SpineOK.cons e spine ?_ hler ?_ ?_ ?_ ?_ ?_ hclause hchain
    · exact ih nodes2 ob2 (fun s hs => hn s (by omega)) fun s hs => ho s (by omega)
    · exact SubtreeOK_mono m leaves gmini hsub nodes2 fun s hs1 hs2 =>
        hn s (by omega)
    · rw [hre, hL]
    · rw [hre, hR]
    · rw [hre, hbox]
    · rw [ho e.r her, hob]

/-- A spine covering [0, i) has at most i elements. -/
theorem SpineOK_length_le (m : MeshData) (leaves : List LeafRec) (gmini : Vec3)
    {nodes : List NodeM} {ob : List Nat} {spine : List SpineElt} {i : Nat}
    (h : SpineOK m leaves gmini nodes ob spine i) : spine.length ≤ i := by
  induction h with
  | nil => exact Nat.le_refl 0
  | cons e spine hsp hler hsub hL hR hbox hob hclause hchain ih =>
    simp only [List.length_cons]
    omega

/-- The left end of a spine head is one past the boundary of the next
element (zero for the last element). -/
theorem SpineOK_head_l (m : MeshData) (leaves : List LeafRec) (gmini : Vec3)
    {nodes : List NodeM} {ob : List Nat} {spine : List SpineElt} {i : Nat}
    (h : SpineOK m leaves gmini nodes ob spine i) :
    (spine = [] → i = 0) ∧
    ∀ e rest, spine = e :: rest → i = e.r + 1 := by
  cases h with
  | nil => exact ⟨fun _ => rfl, fun e rest h => by simp at h⟩
  | cons e spine hsp hler hsub hL hR hbox hob hclause hchain =>
    refine ⟨fun h => by simp at h, ?_⟩
    intro e2 rest h2
    obtain ⟨rfl, rfl⟩ : e = e2 ∧ spine = rest := by
      constructor <;> simp_all
    rfl

/-- Subtree ranges are ordered. -/
theorem SubtreeOK_le (m : MeshData) (leaves : List LeafRec) (gmini : Vec3)
    {nodes : List NodeM} {enc l r : Nat}
    (h : SubtreeOK m leaves gmini nodes enc l r) : l ≤ r := by
  cases h with
  | leaf l2 => exact Nat.le_refl _
  | node s2 l2 r2 hls hsr hL hR hbox hlex => omega

/-- The state after a first-visitor stop write at slot p: the node gets the
child as L, keeps R = kInvalid, and its box becomes the merge of the empty
box with the climb box; no other slot changes. -/
theorem stop_state (st : BState) (p index : Nat) (aabb : AABBQ)
    (hp : p < st.nodes.length) (hop : p < st.ob.length)
    (hnode0 : st.nodes.getD p node0 = node0) (Lval : Nat) :
    (mergeNodeBox (setNodeL st.nodes p index) p aabb).getD p node0 =
      ⟨AABBQ.empty.mergeBox aabb, index, kInvalid⟩ ∧
    (∀ s, s ≠ p →
      (mergeNodeBox (setNodeL st.nodes p index) p aabb).getD s node0 =
        st.nodes.getD s node0) ∧
    (mergeNodeBox (setNodeL st.nodes p index) p aabb).length =
      st.nodes.length ∧
    (st.ob.set p Lval).getD p kInvalid = Lval ∧
    (∀ s, s ≠ p → (st.ob.set p Lval).getD s kInvalid =
      st.ob.getD s kInvalid) ∧
    (st.ob.set p Lval).length = st.ob.length := by
  have hlen1 : (setNodeL st.nodes p index).length = st.nodes.length := by
    simp [setNodeL]
  refine ⟨?_, ?_, ?_, ?_, ?_, ?_⟩
  · rw [mergeNodeBox_getD_self _ _ _ (by omega),
      setNodeL_getD_self _ _ _ (by omega), hnode0]
    rfl
  · intro s hs
    rw [mergeNodeBox_getD_ne _ _ _ _ (fun h => hs h.symm),
      setNodeL_getD_ne _ _ _ _ (fun h => hs h.symm)]
  · simp [mergeNodeBox, setNodeL]
  · exact getD_set_self _ _ _ _ hop
  · intro s hs
    exact getD_set_ne _ _ _ _ _ (fun h => hs h.symm)
  · simp

/-- The state after a second-visitor merge write at slot p: the node gets the
child as R, keeps its L, and its box is merged with the climb box; no other
slot changes. -/
theorem merge_state (st : BState) (p index : Nat) (aabb : AABBQ)
    (hp : p < st.nodes.length) (hop : p < st.ob.length) (Rval : Nat) :
    (mergeNodeBox (setNodeR st.nodes p index) p aabb).getD p node0 =
      ⟨((st.nodes.getD p node0).box).mergeBox aabb,
       (st.nodes.getD p node0).L, index⟩ ∧
    (∀ s, s ≠ p →
      (mergeNodeBox (setNodeR st.nodes p index) p aabb).getD s node0 =
        st.nodes.getD s node0) ∧
    (mergeNodeBox (setNodeR st.nodes p index) p aabb).length =
      st.nodes.length ∧
    (∀ s, s ≠ p → (st.ob.set p Rval).getD s kInvalid =
      st.ob.getD s kInvalid) ∧
    (st.ob.set p Rval).length = st.ob.length := by
  have hlen1 : (setNodeR st.nodes p index).length = st.nodes.length := by
    simp [setNodeR]
  refine ⟨?_, ?_, ?_, ?_, ?_⟩
  · rw [mergeNodeBox_getD_self _ _ _ (by omega),
      setNodeR_getD_self _ _ _ (by omega)]
  · intro s hs
    rw [mergeNodeBox_getD_ne _ _ _ _ (fun h => hs h.symm),
      setNodeR_getD_ne _ _ _ _ (fun h => hs h.symm)]
  · simp [mergeNodeBox, setNodeR]
  · intro s hs
    exact getD_set_ne _ _ _ _ _ (fun h => hs h.symm)
  · simp

/-- Unfolding of climbLoop when the whole range is covered: store Root. -/
theorem climbLoop_root (leaves : List LeafRec) (N f current L R : Nat)
    (aabb : AABBQ) (is_leaf : Bool) (st : BState)
    (hC : L = 0 ∧ R = N) :
    climbLoop leaves N (f + 1) current L R aabb is_leaf st =
      some { st with root := current } := by
  simp only [climbLoop]
  rw [if_pos hC]

/-- Unfolding of climbLoop for a first-visitor stop at parent R. -/
theorem climbLoop_stop (leaves : List LeafRec) (N f current L R : Nat)
    (aabb : AABBQ) (is_leaf : Bool) (st : BState)
    (hC1 : ¬(L = 0 ∧ R = N))
    (hchoice : L = 0 ∨ (R ≠ N ∧ deltaF leaves R < deltaF leaves (L - 1)))
    (hprev : st.ob.getD R kInvalid = kInvalid) :
    climbLoop leaves N (f + 1) current L R aabb is_leaf st =
      some ⟨mergeNodeBox (setNodeL st.nodes R
          (if is_leaf then u32 ((leaves.getD current (0, 0)).1 * 2 + 1)
           else u32 (current * 2))) R aabb,
        st.ob.set R L, st.root⟩ := by
  simp only [climbLoop]
  rw [if_neg hC1, if_pos hchoice, hprev, if_pos rfl]

/-- Unfolding of climbLoop for a second-visitor merge at parent L - 1. -/
theorem climbLoop_merge (leaves : List LeafRec) (N f current L R prev : Nat)
    (aabb : AABBQ) (is_leaf : Bool) (st : BState)
    (hC1 : ¬(L = 0 ∧ R = N))
    (hchoice : ¬(L = 0 ∨ (R ≠ N ∧ deltaF leaves R < deltaF leaves (L - 1))))
    (hprev : st.ob.getD (L - 1) kInvalid = prev) (hne : prev ≠ kInvalid) :
    climbLoop leaves N (f + 1) current L R aabb is_leaf st =
      climbLoop leaves N f (L - 1) prev R
        (((mergeNodeBox (setNodeR st.nodes (L - 1)
            (if is_leaf then u32 ((leaves.getD current (0, 0)).1 * 2 + 1)
             else u32 (current * 2))) (L - 1) aabb).getD (L - 1) node0).box)
        false
        ⟨mergeNodeBox (setNodeR st.nodes (L - 1)
            (if is_leaf then u32 ((leaves.getD current (0, 0)).1 * 2 + 1)
             else u32 (current * 2))) (L - 1) aabb,
          st.ob.set (L - 1) R, st.root⟩ := by
  simp only [climbLoop]
  rw [if_neg hC1, if_neg hchoice, hprev, if_neg hne]
  simp only [ne_eq, hne, not_false_eq_true, if_true]

/-- Inversion of a non-empty spine. -/
theorem SpineOK_cons_inv (m : MeshData) (leaves : List LeafRec) (gmini : Vec3)
    {nodes : List NodeM} {ob : List Nat} {e : SpineElt} {rest : List SpineElt}
    {L : Nat} (h : SpineOK m leaves gmini nodes ob (e :: rest) L) :
    L = e.r + 1 ∧ SpineOK m leaves gmini nodes ob rest e.l ∧ e.l ≤ e.r ∧
    SubtreeOK m leaves gmini nodes e.enc e.l e.r ∧
    (nodes.getD e.r node0).L = e.enc ∧
    (nodes.getD e.r node0).R = kInvalid ∧
    (nodes.getD e.r node0).box = rangeBox m leaves gmini e.l e.r ∧
    ob.getD e.r kInvalid = e.l ∧
    (∀ p, e.l ≤ p → p < e.r → deltaF leaves p ≤ deltaF leaves e.r) ∧
    (∀ e2, e2 ∈ rest → deltaF leaves e.r < deltaF leaves e2.r) := by
  cases h with
  | cons e spine hsp hler hsub hL hR hbox hob hclause hchain =>
    exact ⟨rfl, hsp, hler, hsub, hL, hR, hbox, hob, hclause, hchain⟩

theorem climbLoop_run (m : MeshData) (leaves : List LeafRec) (gmini : Vec3)
    (N T : Nat) (hNT : N + 1 = T) (hT : T < 2 ^ 31) (hN1 : 1 ≤ N)
    (i : Nat) (hiN : i ≤ N) :
    ∀ (spine : List SpineElt) (st : BState) (current L : Nat)
      (aabb : AABBQ) (is_leaf : Bool) (fuel : Nat),
      spine.length + 1 ≤ fuel →
      SpineOK m leaves gmini st.nodes st.ob spine L →
      st.root = kInvalid → st.nodes.length = N → st.ob.length = N →
      (∀ s, i ≤ s → s < N →
        st.nodes.getD s node0 = node0 ∧ st.ob.getD s kInvalid = kInvalid) →
      (is_leaf = true → current = i ∧ L = i) →
      (is_leaf = false →
        SubtreeOK m leaves gmini st.nodes (u32 (current * 2)) L i ∧
        current < N) →
      aabb = (if is_leaf then leafBox m leaves gmini i
              else rangeBox m leaves gmini L i) →
      (i ≠ N → ∀ p, L ≤ p → p < i → deltaF leaves p ≤ deltaF leaves i) →
      (0 < L → ∀ p, L ≤ p → p < i → deltaF leaves p < deltaF leaves (L - 1)) →
      (i < N →
        ∃ st2 e2 spine2,
          climbLoop leaves N fuel current L i aabb is_leaf st = some st2 ∧
          st2.root = kInvalid ∧ st2.nodes.length = N ∧ st2.ob.length = N ∧
          (∀ s, i + 1 ≤ s → s < N →
            st2.nodes.getD s node0 = node0 ∧
            st2.ob.getD s kInvalid = kInvalid) ∧
          SpineOK m leaves gmini st2.nodes st2.ob (e2 :: spine2) (i + 1) ∧
          e2.r = i) ∧
      (i = N →
        ∃ st2,
          climbLoop leaves N fuel current L i aabb is_leaf st = some st2 ∧
          st2.nodes.length = N ∧ st2.ob.length = N ∧ st2.root < N ∧
          SubtreeOK m leaves gmini st2.nodes (u32 (st2.root * 2)) 0 N) := by
  intro spine
  induction spine with
  | nil =>
    intro st current L aabb is_leaf fuel hfuel hsp hroot hlen hoblen
      huntouched hleaf hnode haabb hINVB hINVA
    obtain rfl : L = 0 := by cases hsp; rfl
    obtain ⟨f, rfl⟩ : ∃ f, fuel = f + 1 := ⟨fuel - 1, by omega⟩
    by_cases hi : i = N
    · refine ⟨fun hlt => absurd hlt (by omega), fun _ => ?_⟩
      refine ⟨{ st with root := current }, ?_, hlen, hoblen, ?_, ?_⟩
      · exact climbLoop_root leaves N f current 0 i aabb is_leaf st ⟨rfl, hi⟩
      · cases is_leaf with
        | true =>
          obtain ⟨hc, hL0⟩ := hleaf rfl
          omega
        | false => exact (hnode rfl).2
      · cases is_leaf with
        | true =>
          obtain ⟨hc, hL0⟩ := hleaf rfl
          exact absurd hi (by omega)
        | false =>
          have h := (hnode rfl).1
          rw [hi] at h
          exact h
    · have hilt : i < N := lt_of_le_of_ne hiN hi
      have hub := huntouched i (Nat.le_refl i) hilt
      refine ⟨fun _ => ?_, fun h => absurd h hi⟩
      cases is_leaf with
      | true =>
        obtain ⟨hc, hL0⟩ := hleaf rfl
        obtain rfl : i = 0 := hL0.symm
        obtain rfl : current = 0 := hc
        have hws := stop_state st 0
          (u32 ((leaves.getD 0 (0, 0)).1 * 2 + 1)) aabb
          (by omega) (by omega) hub.1 0
        refine ⟨⟨mergeNodeBox (setNodeL st.nodes 0
            (u32 ((leaves.getD 0 (0, 0)).1 * 2 + 1))) 0 aabb,
            st.ob.set 0 0, st.root⟩,
          ⟨0, 0, u32 ((leaves.getD 0 (0, 0)).1 * 2 + 1)⟩, [], ?_, hroot,
          ?_, ?_, ?_, ?_, rfl⟩
        · exact climbLoop_stop leaves N f 0 0 0 aabb true st (by omega)
            (Or.inl rfl) hub.2
        · rw [hws.2.2.1, hlen]
        · rw [hws.2.2.2.2.2, hoblen]
        · intro s hs1 hs2
          constructor
          · rw [hws.2.1 s (by omega)]
            exact (huntouched s (by omega) hs2).1
          · rw [hws.2.2.2.2.1 s (by omega)]
            exact (huntouched s (by omega) hs2).2
        · refine SpineOK.cons ⟨0, 0, u32 ((leaves.getD 0 (0, 0)).1 * 2 + 1)⟩
            [] SpineOK.nil (Nat.le_refl 0) (SubtreeOK.leaf _ 0) ?_ ?_ ?_
            ?_ ?_ ?_
          · rw [hws.1]
          · rw [hws.1]
          · rw [hws.1, haabb]
            show AABBQ.empty.mergeBox (leafBox m leaves gmini 0) =
              rangeBox m leaves gmini 0 0
            rw [rangeBox_single]
          · exact hws.2.2.2.1
          · intro p hp1 hp2
            exact absurd hp2 (Nat.not_lt_zero p)
          · intro e2 he2
            exact absurd he2 (List.not_mem_nil e2)
      | false =>
        obtain ⟨hsub, hcur⟩ := hnode rfl
        have hws := stop_state st i (u32 (current * 2)) aabb
          (by omega) (by omega) hub.1 0
        refine ⟨⟨mergeNodeBox (setNodeL st.nodes i (u32 (current * 2))) i aabb,
            st.ob.set i 0, st.root⟩,
          ⟨0, i, u32 (current * 2)⟩, [], ?_, hroot, ?_, ?_, ?_, ?_, rfl⟩
        · exact climbLoop_stop leaves N f current 0 i aabb false st (by omega)
            (Or.inl rfl) hub.2
        · rw [hws.2.2.1, hlen]
        · rw [hws.2.2.2.2.2, hoblen]
        · intro s hs1 hs2
          constructor
          · rw [hws.2.1 s (by omega)]
            exact (huntouched s (by omega) hs2).1
          · rw [hws.2.2.2.2.1 s (by omega)]
            exact (huntouched s (by omega) hs2).2
        · refine SpineOK.cons ⟨0, i, u32 (current * 2)⟩ [] SpineOK.nil
            (Nat.zero_le i) ?_ ?_ ?_ ?_ ?_ ?_ ?_
          · exact SubtreeOK_mono m leaves gmini hsub _
              fun s hs1 hs2 => hws.2.1 s (by omega)
          · rw [hws.1]
          · rw [hws.1]
          · rw [hws.1]
            rw [haabb]
            simp only [Bool.false_eq_true, if_false]
            exact mergeBox_empty_left (boxW_rangeBox m leaves gmini 0 i)
          · exact hws.2.2.2.1
          · intro p hp1 hp2
            exact hINVB hi p hp1 hp2
          · intro e2 he2
            exact absurd he2 (List.not_mem_nil e2)
  | cons e rest ih =>
    intro st current L aabb is_leaf fuel hfuel hsp hroot hlen hoblen
      huntouched hleaf hnode haabb hINVB hINVA
    obtain ⟨hLrw, hsp2, hler, hsub, hL, hR, hbox, hob, hclause, hchain⟩ :=
      SpineOK_cons_inv m leaves gmini hsp
    subst hLrw
    obtain ⟨f, rfl⟩ : ∃ f, fuel = f + 1 := ⟨fuel - 1, by
      simp only [List.length_cons] at hfuel
      omega⟩
    have hLi : e.r + 1 ≤ i := by
      cases is_leaf with
      | true => exact Nat.le_of_eq (hleaf rfl).2
      | false => exact SubtreeOK_le m leaves gmini (hnode rfl).1
    have hriN : e.r < N := by omega
    have hC1 : ¬(e.r + 1 = 0 ∧ i = N) := fun h => Nat.succ_ne_zero _ h.1
    by_cases hstop : i ≠ N ∧ deltaF leaves i < deltaF leaves e.r
    · have hiltN : i < N := by
        rcases hstop with ⟨h1, _⟩
        omega
      have hub := huntouched i (Nat.le_refl i) hiltN
      have hws := stop_state st i
        (if is_leaf then u32 ((leaves.getD current (0, 0)).1 * 2 + 1)
         else u32 (current * 2)) aabb (by omega) (by omega) hub.1 (e.r + 1)
      refine ⟨fun _ => ?_, fun h => absurd h hstop.1⟩
      refine ⟨⟨mergeNodeBox (setNodeL st.nodes i
          (if is_leaf then u32 ((leaves.getD current (0, 0)).1 * 2 + 1)
           else u32 (current * 2))) i aabb,
          st.ob.set i (e.r + 1), st.root⟩,
        ⟨e.r + 1, i,
          (if is_leaf then u32 ((leaves.getD current (0, 0)).1 * 2 + 1)
           else u32 (current * 2))⟩, e :: rest, ?_, hroot, ?_, ?_, ?_, ?_, rfl⟩
      · exact climbLoop_stop leaves N f current (e.r + 1) i aabb is_leaf st hC1
          (Or.inr ⟨hstop.1, hstop.2⟩) hub.2
      · rw [hws.2.2.1, hlen]
      · rw [hws.2.2.2.2.2, hoblen]
      · intro s hs1 hs2
        constructor
        · rw [hws.2.1 s (by omega)]
          exact (huntouched s (by omega) hs2).1
        · rw [hws.2.2.2.2.1 s (by omega)]
          exact (huntouched s (by omega) hs2).2
      · refine SpineOK.cons ⟨e.r + 1, i,
            (if is_leaf then u32 ((leaves.getD current (0, 0)).1 * 2 + 1)
             else u32 (current * 2))⟩ (e :: rest) ?_ hLi ?_ ?_ ?_ ?_ ?_ ?_ ?_
        · exact SpineOK_mono m leaves gmini hsp _ _
            (fun s hs => hws.2.1 s (by omega))
            (fun s hs => hws.2.2.2.2.1 s (by omega))
        · cases is_leaf with
          | true =>
            obtain ⟨hc, hLi2⟩ := hleaf rfl
            rw [hc, ← hLi2]
            exact SubtreeOK.leaf _ (e.r + 1)
          | false =>
            exact SubtreeOK_mono m leaves gmini (hnode rfl).1 _
              (fun s hs1 hs2 => hws.2.1 s (by omega))
        · rw [hws.1]
        · rw [hws.1]
        · rw [hws.1, haabb]
          cases is_leaf with
          | true =>
            obtain ⟨hc, hLi2⟩ := hleaf rfl
            show AABBQ.empty.mergeBox (leafBox m leaves gmini i) =
              rangeBox m leaves gmini (e.r + 1) i
            rw [← hLi2, rangeBox_single]
          | false =>
            show AABBQ.empty.mergeBox (rangeBox m leaves gmini (e.r + 1) i) =
              rangeBox m leaves gmini (e.r + 1) i
            exact mergeBox_empty_left (boxW_rangeBox m leaves gmini (e.r + 1) i)
        · exact hws.2.2.2.1
        · exact hINVB hstop.1
        · intro e2 he2
          rcases List.mem_cons.mp he2 with h | h
          · rw [h]
            exact hstop.2
          · exact lt_trans hstop.2 (hchain e2 h)
    · have hlK : e.l ≠ kInvalid := by
        show e.l ≠ 2 ^ 32 - 1
        omega
      have heq := climbLoop_merge leaves N f current (e.r + 1) i e.l aabb
        is_leaf st hC1 (by
          rintro (h | h)
          · exact Nat.succ_ne_zero _ h
          · exact hstop h) hob hlK
      simp only [Nat.add_sub_cancel] at heq
      have hws := merge_state st e.r
        (if is_leaf then u32 ((leaves.getD current (0, 0)).1 * 2 + 1)
         else u32 (current * 2)) aabb (by omega) (by omega) i
      have hbox2 : ((mergeNodeBox (setNodeR st.nodes e.r
          (if is_leaf then u32 ((leaves.getD current (0, 0)).1 * 2 + 1)
           else u32 (current * 2))) e.r aabb).getD e.r node0).box =
          rangeBox m leaves gmini e.l i := by
        rw [hws.1]
        show ((st.nodes.getD e.r node0).box).mergeBox aabb = _
        rw [hbox, haabb]
        cases is_leaf with
        | true =>
          obtain ⟨hc, hLi2⟩ := hleaf rfl
          show (rangeBox m leaves gmini e.l e.r).mergeBox
            (leafBox m leaves gmini i) = rangeBox m leaves gmini e.l i
          rw [← hLi2]
          exact (rangeBox_snoc m leaves gmini e.l e.r hler).symm
        | false =>
          show (rangeBox m leaves gmini e.l e.r).mergeBox
            (rangeBox m leaves gmini (e.r + 1) i) = rangeBox m leaves gmini e.l i
          exact (rangeBox_split m leaves gmini e.l e.r i hler (by omega)).symm
      have hsubL2 : SubtreeOK m leaves gmini (mergeNodeBox (setNodeR st.nodes e.r
          (if is_leaf then u32 ((leaves.getD current (0, 0)).1 * 2 + 1)
           else u32 (current * 2))) e.r aabb) e.enc e.l e.r :=
        SubtreeOK_mono m leaves gmini hsub _
          (fun s hs1 hs2 => hws.2.1 s (by omega))
      have hsubR2 : SubtreeOK m leaves gmini (mergeNodeBox (setNodeR st.nodes e.r
          (if is_leaf then u32 ((leaves.getD current (0, 0)).1 * 2 + 1)
           else u32 (current * 2))) e.r aabb)
          (if is_leaf then u32 ((leaves.getD current (0, 0)).1 * 2 + 1)
           else u32 (current * 2)) (e.r + 1) i := by
        cases is_leaf with
        | true =>
          obtain ⟨hc, hLi2⟩ := hleaf rfl
          rw [hc, ← hLi2]
          exact SubtreeOK.leaf _ (e.r + 1)
        | false =>
          exact SubtreeOK_mono m leaves gmini (hnode rfl).1 _
            (fun s hs1 hs2 => hws.2.1 s (by omega))
      have hlex2 : ∀ p, e.l ≤ p → p < i → lexLE leaves p e.r := by
        intro p hp1 hp2
        rcases Nat.lt_trichotomy p e.r with h | h | h
        · rcases Nat.lt_or_ge (deltaF leaves p) (deltaF leaves e.r) with h2 | h2
          · exact Or.inl h2
          · exact Or.inr ⟨Nat.le_antisymm (hclause p hp1 h) h2, Nat.le_of_lt h⟩
        · exact Or.inr ⟨by rw [h], by omega⟩
        · exact Or.inl (hINVA (Nat.succ_pos _) p (by omega) hp2)
      have hnode2 : SubtreeOK m leaves gmini (mergeNodeBox (setNodeR st.nodes e.r
          (if is_leaf then u32 ((leaves.getD current (0, 0)).1 * 2 + 1)
           else u32 (current * 2))) e.r aabb) (u32 (e.r * 2)) e.l i := by
        refine SubtreeOK.node _ e.r e.l i hler (by omega) ?_ ?_ hbox2 hlex2
        · rw [hws.1]
          show SubtreeOK m leaves gmini _ ((st.nodes.getD e.r node0).L) e.l e.r
          rw [hL]
          exact hsubL2
        · rw [hws.1]
          exact hsubR2
      have hINVB2 : i ≠ N → ∀ p, e.l ≤ p → p < i →
          deltaF leaves p ≤ deltaF leaves i := by
        intro hiN2 p hp1 hp2
        have hri : deltaF leaves e.r ≤ deltaF leaves i := by
          rcases Nat.lt_or_ge (deltaF leaves i) (deltaF leaves e.r) with h2 | h2
          · exact absurd ⟨hiN2, h2⟩ hstop
          · exact h2
        rcases Nat.lt_trichotomy p e.r with h | h | h
        · exact le_trans (hclause p hp1 h) hri
        · rw [h]
          exact hri
        · exact le_trans (Nat.le_of_lt (hINVA (Nat.succ_pos _) p (by omega) hp2))
            hri
      have hINVA2 : 0 < e.l → ∀ p, e.l ≤ p → p < i →
          deltaF leaves p < deltaF leaves (e.l - 1) := by
        intro hpos p hp1 hp2
        cases rest with
        | nil =>
          have h0 : e.l = 0 := (SpineOK_head_l m leaves gmini hsp2).1 rfl
          omega
        | cons e2 rest2 =>
          have h1 : e.l = e2.r + 1 :=
            (SpineOK_head_l m leaves gmini hsp2).2 e2 rest2 rfl
          have h2 : deltaF leaves e.r < deltaF leaves e2.r :=
            hchain e2 (List.mem_cons_self e2 rest2)
          have h3 : e.l - 1 = e2.r := by omega
          rw [h3]
          rcases Nat.lt_trichotomy p e.r with h | h | h
          · exact lt_of_le_of_lt (hclause p hp1 h) h2
          · rw [h]
            exact h2
          · exact lt_trans (hINVA (Nat.succ_pos _) p (by omega) hp2) h2
      have hres := ih ⟨mergeNodeBox (setNodeR st.nodes e.r
          (if is_leaf then u32 ((leaves.getD current (0, 0)).1 * 2 + 1)
           else u32 (current * 2))) e.r aabb, st.ob.set e.r i, st.root⟩
        e.r e.l ((mergeNodeBox (setNodeR st.nodes e.r
          (if is_leaf then u32 ((leaves.getD current (0, 0)).1 * 2 + 1)
           else u32 (current * 2))) e.r aabb).getD e.r node0).box false f
        (by
          simp only [List.length_cons] at hfuel
          omega)
        (SpineOK_mono m leaves gmini hsp2 _ _
          (fun s hs => hws.2.1 s (by omega))
          (fun s hs => hws.2.2.2.1 s (by omega)))
        hroot
        (by rw [hws.2.2.1]; exact hlen)
        (by simp only [List.length_set]; exact hoblen)
        (fun s hs1 hs2 => ⟨by
            rw [hws.2.1 s (by omega)]
            exact (huntouched s (by omega) hs2).1, by
            rw [hws.2.2.2.1 s (by omega)]
            exact (huntouched s (by omega) hs2).2⟩)
        (fun h => nomatch h)
        (fun _ => ⟨hnode2, hriN⟩)
        (by
          rw [hbox2]
          simp)
        hINVB2 hINVA2
      rw [heq]
      exact hres

/-- Merge grows boxes: the left operand is contained. -/
theorem boxSubset_mergeBox_left (a b : AABBQ) : boxSubset a (a.mergeBox b) := by
  simp only [boxSubset, AABBQ.mergeBox, Vec3.vmin, Vec3.vmax, sMin_eq, sMax_eq]
  exact ⟨min_le_left _ _, min_le_left _ _, min_le_left _ _,
    le_max_left _ _, le_max_left _ _, le_max_left _ _⟩

/-- Merge grows boxes: the right operand is contained. -/
theorem boxSubset_mergeBox_right (a b : AABBQ) : boxSubset b (a.mergeBox b) := by
  rw [mergeBox_comm]
  exact boxSubset_mergeBox_left b a

/-- Containment is transitive. -/
theorem boxSubset_trans {a b c : AABBQ} (h1 : boxSubset a b)
    (h2 : boxSubset b c) : boxSubset a c := by
  obtain ⟨x1, x2, x3, x4, x5, x6⟩ := h1
  obtain ⟨y1, y2, y3, y4, y5, y6⟩ := h2
  exact ⟨le_trans y1 x1, le_trans y2 x2, le_trans y3 x3,
    le_trans x4 y4, le_trans x5 y5, le_trans x6 y6⟩

/-- Any member leaf box is contained in the range box. -/
theorem rangeBox_contains (m : MeshData) (leaves : List LeafRec) (gmini : Vec3)
    (l p r : Nat) (hlp : l ≤ p) (hpr : p ≤ r) :
    boxSubset (leafBox m leaves gmini p) (rangeBox m leaves gmini l r) := by
  have h1 : boxSubset (leafBox m leaves gmini p) (rangeBox m leaves gmini p r) := by
    rcases Nat.eq_or_lt_of_le hpr with h | h
    · rw [← h, rangeBox_single]
      exact boxSubset_mergeBox_right _ _
    · rw [rangeBox_split m leaves gmini p p r (Nat.le_refl p) h]
      exact boxSubset_trans
        (by
          rw [rangeBox_single]
          exact boxSubset_mergeBox_right _ _)
        (boxSubset_mergeBox_left _ _)
  rcases Nat.eq_or_lt_of_le hlp with h | h
  · rw [h]
    exact h1
  · have hq : p - 1 + 1 = p := by omega
    have hsplit := rangeBox_split m leaves gmini l (p - 1) r (by omega) (by omega)
    rw [hq] at hsplit
    rw [hsplit]
    exact boxSubset_trans h1 (boxSubset_mergeBox_right _ _)

/-- Translation preserves containment. -/
theorem boxSubset_translate {a b : AABBQ} (v : Vec3) (h : boxSubset a b) :
    boxSubset (a.translate v) (b.translate v) := by
  obtain ⟨x1, x2, x3, x4, x5, x6⟩ := h
  simp only [boxSubset, AABBQ.translate, Vec3.add]
  refine ⟨?_, ?_, ?_, ?_, ?_, ?_⟩ <;> linarith

/-- Translating by the negation and back is the identity. -/
theorem translate_neg_cancel (b : AABBQ) (v : Vec3) :
    (b.translate ⟨-v.x, -v.y, -v.z⟩).translate v = b := by
  obtain ⟨⟨ax, ay, az⟩, ⟨bx, by2, bz⟩⟩ := b
  simp only [AABBQ.translate, Vec3.add, AABBQ.mk.injEq, Vec3.mk.injEq]
  refine ⟨⟨?_, ?_, ?_⟩, ?_, ?_, ?_⟩ <;> ring

/-- The leaf box is the raw triangle box recentered by -gmini. -/
theorem leafBox_eq_triBoxRaw (m : MeshData) (leaves : List LeafRec)
    (gmini : Vec3) (p : Nat) :
    leafBox m leaves gmini p =
      (triBoxRaw m (leaves.getD p (0, 0)).1).translate
        ⟨-gmini.x, -gmini.y, -gmini.z⟩ := rfl

/-- Recentring the leaf box back gives the raw triangle box. -/
theorem leafBox_translate_back (m : MeshData) (leaves : List LeafRec)
    (gmini : Vec3) (p : Nat) :
    (leafBox m leaves gmini p).translate gmini =
      triBoxRaw m (leaves.getD p (0, 0)).1 := by
  rw [leafBox_eq_triBoxRaw]
  exact translate_neg_cancel _ _

/-- No encoded child produced by the build equals kInvalid. -/
theorem SubtreeOK_enc_ne (m : MeshData) (leaves : List LeafRec) (gmini : Vec3)
    (T : Nat) (hwf : leavesWF leaves T) (hT31 : T < 2 ^ 31)
    {nodes : List NodeM} {enc l r : Nat}
    (h : SubtreeOK m leaves gmini nodes enc l r) (hrT : r < T) :
    enc ≠ kInvalid := by
  cases h with
  | leaf l2 =>
    have href := hwf.2 l (by omega)
    simp only [u32, kInvalid]
    omega
  | node s2 l2 r2 hls hsr hL hR hbox hlex =>
    simp only [u32, kInvalid]
    omega

/-- collectTris on a correct subtree returns exactly the leaf references of
its range, given enough fuel. -/
theorem SubtreeOK_collect (m : MeshData) (leaves : List LeafRec) (gmini : Vec3)
    (T : Nat) (hwf : leavesWF leaves T) (hT31 : T < 2 ^ 31)
    {nodes : List NodeM} {enc l r : Nat}
    (h : SubtreeOK m leaves gmini nodes enc l r) :
    r < T → ∀ fuel, r + 1 - l ≤ fuel →
      collectTris nodes fuel enc =
        some ((List.range' l (r + 1 - l)).map
          fun p => (leaves.getD p (0, 0)).1) := by
  induction h with
  | leaf l2 =>
    intro hrT fuel hfu
    obtain ⟨f, rfl⟩ : ∃ f, fuel = f + 1 := ⟨fuel - 1, by omega⟩
    have href := hwf.2 l2 (by omega)
    have hu : u32 ((leaves.getD l2 (0, 0)).1 * 2 + 1) =
        (leaves.getD l2 (0, 0)).1 * 2 + 1 := Nat.mod_eq_of_lt (by omega)
    simp only [collectTris, hu]
    rw [if_pos (by omega)]
    have hdiv : ((leaves.getD l2 (0, 0)).1 * 2 + 1) / 2 =
        (leaves.getD l2 (0, 0)).1 := by omega
    rw [hdiv]
    have hone : l2 + 1 - l2 = 1 := by omega
    rw [hone, List.range'_one]
    rfl
  | node s2 l2 r2 hls hsr hL hR hbox hlex ihL ihR =>
    intro hrT fuel hfu
    obtain ⟨f, rfl⟩ : ∃ f, fuel = f + 1 := ⟨fuel - 1, by omega⟩
    have hu : u32 (s2 * 2) = s2 * 2 := Nat.mod_eq_of_lt (by omega)
    simp only [collectTris, hu]
    rw [if_neg (by omega)]
    have hdiv : s2 * 2 / 2 = s2 := by omega
    rw [hdiv]
    rw [ihL (by omega) f (by omega), ihR (by omega) f (by omega)]
    show some _ = some _
    rw [Nat.succ_sub_succ]
    have happ := List.range'_append l2 (s2 + 1 - l2) (r2 - s2) 1
    rw [one_mul, show l2 + (s2 + 1 - l2) = s2 + 1 by omega,
      show r2 - s2 + (s2 + 1 - l2) = r2 + 1 - l2 by omega] at happ
    rw [← happ, List.map_append]

/-- Every slot interior to a correct subtree is itself the split of a correct
subrange, with the recorded children and box. -/
theorem SubtreeOK_all_slots (m : MeshData) (leaves : List LeafRec)
    (gmini : Vec3) {nodes : List NodeM} {enc l r : Nat}
    (h : SubtreeOK m leaves gmini nodes enc l r) :
    ∀ q, l ≤ q → q < r →
      ∃ l2 r2, l ≤ l2 ∧ l2 ≤ q ∧ q < r2 ∧ r2 ≤ r ∧
        SubtreeOK m leaves gmini nodes (u32 (q * 2)) l2 r2 ∧
        SubtreeOK m leaves gmini nodes (nodes.getD q node0).L l2 q ∧
        SubtreeOK m leaves gmini nodes (nodes.getD q node0).R (q + 1) r2 ∧
        (nodes.getD q node0).box = rangeBox m leaves gmini l2 r2 := by
  induction h with
  | leaf l2 =>
    intro q h1 h2
    exact absurd h2 (by omega)
  | node s2 l2 r2 hls hsr hL hR hbox hlex ihL ihR =>
    intro q h1 h2
    rcases Nat.lt_trichotomy q s2 with h | h | h
    · obtain ⟨a, b, k1, k2, k3, k4, k5, k6, k7, k8⟩ := ihL q h1 h
      exact ⟨a, b, k1, k2, k3, by omega, k5, k6, k7, k8⟩
    · subst h
      exact ⟨l2, r2, Nat.le_refl _, h1, h2, Nat.le_refl _,
        SubtreeOK.node _ q l2 r2 hls hsr hL hR hbox hlex, hL, hR, hbox⟩
    · obtain ⟨a, b, k1, k2, k3, k4, k5, k6, k7, k8⟩ := ihR q (by omega) h2
      exact ⟨a, b, by omega, k2, k3, k4, k5, k6, k7, k8⟩

/-- getD through the final box-translation map. -/
theorem getD_map_box (nodes : List NodeM) (mv : Vec3) (q : Nat)
    (h : q < nodes.length) :
    (nodes.map fun nd => { nd with box := nd.box.translate mv }).getD q node0 =
      { nodes.getD q node0 with
        box := ((nodes.getD q node0).box).translate mv } := by
  simp [List.getD_eq_getElem?_getD, List.getElem?_eq_getElem h]

/-- One climb from a valid prefix state. -/
theorem climb_run (m : MeshData) (leaves : List LeafRec) (gmini : Vec3)
    (N T : Nat) (hNT : N + 1 = T) (hT : T < 2 ^ 31) (hN1 : 1 ≤ N)
    (i : Nat) (hiN : i ≤ N) (st : BState)
    (hinv : BuildInv m leaves gmini N i st) :
    (i < N → ∃ st2, climb m leaves gmini N i st = some st2 ∧
      BuildInv m leaves gmini N (i + 1) st2) ∧
    (i = N → ∃ st2, climb m leaves gmini N i st = some st2 ∧
      st2.nodes.length = N ∧ st2.ob.length = N ∧ st2.root < N ∧
      SubtreeOK m leaves gmini st2.nodes (u32 (st2.root * 2)) 0 N) := by
  obtain ⟨spine, hsp, hroot, hlen, hoblen, hunt⟩ := hinv
  have hflen : spine.length + 1 ≤ N + 2 := by
    have := SpineOK_length_le m leaves gmini hsp
    omega
  have hrun := climbLoop_run m leaves gmini N T hNT hT hN1 i hiN spine st i i
    (leafBox m leaves gmini i) true (N + 2) hflen hsp hroot hlen hoblen hunt
    (fun _ => ⟨rfl, rfl⟩) (fun h => nomatch h) (by simp)
    (fun _ p hp1 hp2 => absurd hp2 (by omega))
    (fun _ p hp1 hp2 => absurd hp2 (by omega))
  constructor
  · intro hlt
    obtain ⟨st2, e2, spine2, heq, h1, h2, h3, h4, h5, h6⟩ := hrun.1 hlt
    exact ⟨st2, heq, e2 :: spine2, h5, h1, h2, h3, h4⟩
  · intro heqN
    obtain ⟨st2, heq, h2, h3, h4, h5⟩ := hrun.2 heqN
    exact ⟨st2, heq, h2, h3, h4, h5⟩

/-- The climbs for leaves j .. j+k-1 preserve the invariant. -/
theorem climbs_fold (m : MeshData) (leaves : List LeafRec) (gmini : Vec3)
    (N T : Nat) (hNT : N + 1 = T) (hT : T < 2 ^ 31) (hN1 : 1 ≤ N) :
    ∀ (k j : Nat), j + k ≤ N → ∀ st, BuildInv m leaves gmini N j st →
      ∃ st2, (List.range' j k).foldlM
          (fun st i => climb m leaves gmini N i st) st = some st2 ∧
        BuildInv m leaves gmini N (j + k) st2 := by
  intro k
  induction k with
  | zero =>
    intro j hjk st hinv
    exact ⟨st, by simp, by simpa using hinv⟩
  | succ k2 ih =>
    intro j hjk st hinv
    obtain ⟨st1, heq, hinv1⟩ :=
      (climb_run m leaves gmini N T hNT hT hN1 j (by omega) st hinv).1 (by omega)
    obtain ⟨st2, heq2, hinv2⟩ := ih (j + 1) (by omega) st1 hinv1
    refine ⟨st2, ?_, ?_⟩
    · rw [List.range'_succ, List.foldlM_cons, heq]
      simpa using heq2
    · have hidx : j + (k2 + 1) = j + 1 + k2 := by omega
      rw [hidx]
      exact hinv2

/-- getD on a replicated list. -/
theorem getD_replicate {α : Type} (n s : Nat) (a d : α) :
    (List.replicate n a).getD s d = if s < n then a else d := by
  rw [List.getD_eq_getElem?_getD, List.getElem?_replicate]
  split
  · rfl
  · rfl

/-- The sorted leaf table of a T-triangle mesh is well-formed. -/
theorem leavesWF_sorted (m : MeshData) (box : AABBQ) (T : Nat) :
    leavesWF (sortLeaves (leafFill m box T)) T := by
  have hlen : (sortLeaves (leafFill m box T)).length = T := by
    rw [sortLeaves, (List.perm_insertionSort leafLE (leafFill m box T)).length_eq]
    simp [leafFill]
  refine ⟨hlen, ?_⟩
  intro p hp
  have hall : ∀ x, x ∈ leafFill m box T → x.1 < T := by
    intro x hx
    simp only [leafFill, List.mem_map, List.mem_range] at hx
    obtain ⟨i, hi, heq⟩ := hx
    rw [← heq]
    exact hi
  apply hall
  refine (List.perm_insertionSort leafLE (leafFill m box T)).mem_iff.mp ?_
  rw [List.getD_eq_getElem?_getD, List.getElem?_eq_getElem (by omega)]
  exact List.getElem_mem _

/-- The cleared arrays satisfy the invariant with the empty spine. -/
theorem buildInv_start (m : MeshData) (leaves : List LeafRec) (gmini : Vec3)
    (N : Nat) :
    BuildInv m leaves gmini N 0
      ⟨List.replicate N node0, List.replicate N kInvalid, kInvalid⟩ := by
  refine ⟨[], SpineOK.nil, rfl, by simp, by simp, ?_⟩
  intro s hs1 hs2
  constructor
  · rw [getD_replicate, if_pos hs2]
  · rw [getD_replicate]
    split
    · rfl
    · rfl

/-- LBVH::Build succeeds on meshes with 2 <= T < 2^31 and produces a correct
tree, with Nodes translated back at the end. -/
theorem buildLBVH_ok (m : MeshData) (hT2 : 2 ≤ triCount m)
    (hT31 : triCount m < 2 ^ 31) :
    ∃ stF : BState, buildLBVH m = some ⟨stF.root,
        stF.nodes.map fun nd => { nd with
          box := nd.box.translate (meshBox m).mini }⟩ ∧
      stF.nodes.length = triCount m - 1 ∧
      stF.root < triCount m - 1 ∧
      SubtreeOK m (sortLeaves (leafFill m (meshBox m) (triCount m)))
        (meshBox m).mini stF.nodes (u32 (stF.root * 2)) 0 (triCount m - 1) := by
  have hN : u32sub1 (triCount m) = triCount m - 1 := by
    rw [u32sub1, if_neg (by omega)]
  have hNT : (triCount m - 1) + 1 = triCount m := by omega
  have hN1 : 1 ≤ triCount m - 1 := by omega
  have hrange : List.range (triCount m) =
      List.range' 0 (triCount m - 1) ++ List.range' (triCount m - 1) 1 := by
    rw [List.range_eq_range']
    have happ := List.range'_append 0 (triCount m - 1) 1 1
    rw [one_mul, Nat.zero_add,
      show 1 + (triCount m - 1) = triCount m from by omega] at happ
    exact happ.symm
  obtain ⟨stN, hfold, hinvN⟩ := climbs_fold m
    (sortLeaves (leafFill m (meshBox m) (triCount m))) (meshBox m).mini
    (triCount m - 1) (triCount m) hNT hT31 hN1 (triCount m - 1) 0 (by omega)
    ⟨List.replicate (triCount m - 1) node0,
     List.replicate (triCount m - 1) kInvalid, kInvalid⟩
    (buildInv_start m (sortLeaves (leafFill m (meshBox m) (triCount m)))
      (meshBox m).mini (triCount m - 1))
  obtain ⟨stF, hlast, hlen, hoblen, hrootlt, hsub⟩ :=
    (climb_run m (sortLeaves (leafFill m (meshBox m) (triCount m)))
      (meshBox m).mini (triCount m - 1) (triCount m) hNT hT31 hN1
      (triCount m - 1) (Nat.le_refl _) stN (by simpa using hinvN)).2 rfl
  have hfold2 : (List.range (triCount m)).foldlM
      (fun st i => climb m (sortLeaves (leafFill m (meshBox m) (triCount m)))
        (meshBox m).mini (triCount m - 1) i st)
      ⟨List.replicate (triCount m - 1) node0,
       List.replicate (triCount m - 1) kInvalid, kInvalid⟩ = some stF := by
    rw [hrange, List.foldlM_append, hfold]
    simp [List.range'_one, List.foldlM_cons, List.foldlM_nil, hlast]
  have hrw : buildLBVH m = match (List.range (triCount m)).foldlM
      (fun st i => climb m (sortLeaves (leafFill m (meshBox m) (triCount m)))
        (meshBox m).mini (u32sub1 (triCount m)) i st)
      (⟨List.replicate (u32sub1 (triCount m)) node0,
        List.replicate (u32sub1 (triCount m)) kInvalid,
        kInvalid⟩ : BState) with
    | none => none
    | some st => some ⟨st.root, st.nodes.map fun nd =>
        { nd with box := nd.box.translate (meshBox m).mini }⟩ := rfl
  refine ⟨stF, ?_, hlen, hrootlt, hsub⟩
  rw [hrw, hN, hfold2]

/-- The L field of a slot survives the final box translation. -/
theorem getD_map_box_L (nodes : List NodeM) (mv : Vec3) (q : Nat) :
    ((nodes.map fun nd => { nd with box := nd.box.translate mv }).getD q
      node0).L = (nodes.getD q node0).L := by
  by_cases hq : q < nodes.length
  · rw [getD_map_box _ _ _ hq]
  · rw [List.getD_eq_getElem?_getD, List.getD_eq_getElem?_getD,
      List.getElem?_eq_none (by simpa using hq),
      List.getElem?_eq_none (by omega)]

/-- The R field of a slot survives the final box translation. -/
theorem getD_map_box_R (nodes : List NodeM) (mv : Vec3) (q : Nat) :
    ((nodes.map fun nd => { nd with box := nd.box.translate mv }).getD q
      node0).R = (nodes.getD q node0).R := by
  by_cases hq : q < nodes.length
  · rw [getD_map_box _ _ _ hq]
  · rw [List.getD_eq_getElem?_getD, List.getD_eq_getElem?_getD,
      List.getElem?_eq_none (by simpa using hq),
      List.getElem?_eq_none (by omega)]

/-- collectTris only reads child links, so the final box translation does not
change its result. -/
theorem collectTris_map_box (nodes : List NodeM) (mv : Vec3) :
    ∀ fuel enc, collectTris
        (nodes.map fun nd => { nd with box := nd.box.translate mv }) fuel enc =
      collectTris nodes fuel enc := by
  intro fuel
  induction fuel with
  | zero => intro enc; rfl
  | succ f ih =>
    intro enc
    by_cases h : enc % 2 = 1
    · simp only [collectTris, if_pos h]
    · simp only [collectTris, if_neg h, getD_map_box_L, getD_map_box_R, ih]

/-- Reading every position of a list through getD reproduces the list. -/
theorem tris_eq_map_fst (leaves : List LeafRec) (T : Nat)
    (hlen : leaves.length = T) :
    (List.range' 0 T).map (fun p => (leaves.getD p (0, 0)).1) =
      leaves.map Prod.fst := by
  subst hlen
  apply List.ext_getElem
  · simp
  · intro j h1 h2
    have hj : j < leaves.length := by simpa using h1
    simp only [List.getElem_map, List.getElem_range', Nat.zero_add, one_mul,
      List.getD_eq_getElem?_getD, List.getElem?_eq_getElem hj, Option.getD_some]

/-- The triangle references of the sorted leaf table are a permutation of
0 .. T-1. -/
theorem leaves_fst_perm (m : MeshData) (box : AABBQ) (T : Nat) :
    ((sortLeaves (leafFill m box T)).map Prod.fst).Perm (List.range T) := by
  have h1 : ((sortLeaves (leafFill m box T)).map Prod.fst).Perm
      ((leafFill m box T).map Prod.fst) :=
    (List.perm_insertionSort leafLE (leafFill m box T)).map Prod.fst
  have h2 : (leafFill m box T).map Prod.fst = List.range T := by
    rw [leafFill, List.map_map]
    apply List.map_id''
    intro x
    rfl
  exact h2 ▸ h1

/-- C2: after LBVH::Build (sequential schedule) on a mesh with
2 <= T < 2^31 triangles, the build succeeds; every node of the Nodes array
has both children written (L, R != kInvalid), the multiset of leaf triangle
indices decoded from Root exactly permutes {0 .. T-1}, and every node's box
contains the raw AABB of every triangle of its subtree. -/
theorem C2_build_invariants (m : MeshData) (hT2 : 2 ≤ triCount m)
    (hT31 : triCount m < 2 ^ 31) :
    ∃ bvh : LBVHS, buildLBVH m = some bvh ∧
      bvh.nodes.length = triCount m - 1 ∧
      bvh.root < triCount m - 1 ∧
      (∀ v ∈ bvh.nodes, v.L ≠ kInvalid ∧ v.R ≠ kInvalid) ∧
      (∃ tris, collectTris bvh.nodes (triCount m) (u32 (bvh.root * 2)) =
          some tris ∧ tris.Perm (List.range (triCount m))) ∧
      (∀ q, q < triCount m - 1 →
        ∃ tris, collectTris bvh.nodes (triCount m) (u32 (q * 2)) = some tris ∧
          ∀ tri ∈ tris, boxSubset (triBoxRaw m tri)
            ((bvh.nodes.getD q node0).box)) := by
  obtain ⟨stF, hbuild, hlen, hrootlt, hsub⟩ := buildLBVH_ok m hT2 hT31
  have hwf := leavesWF_sorted m (meshBox m) (triCount m)
  refine ⟨⟨stF.root, stF.nodes.map fun nd => { nd with
      box := nd.box.translate (meshBox m).mini }⟩, hbuild,
    by simpa using hlen, hrootlt, ?_, ?_, ?_⟩
  · intro v hv
    obtain ⟨q, hq, hvq⟩ := List.getElem_of_mem hv
    have hqN : q < triCount m - 1 := by
      simpa [hlen] using hq
    have hveq : v = (stF.nodes.map fun nd => { nd with
        box := nd.box.translate (meshBox m).mini }).getD q node0 := by
      rw [List.getD_eq_getElem?_getD, List.getElem?_eq_getElem hq]
      exact hvq.symm
    obtain ⟨l2, r2, k1, k2, k3, k4, k5, k6, k7, k8⟩ :=
      SubtreeOK_all_slots m _ _ hsub q (Nat.zero_le q) hqN
    constructor
    · rw [hveq, getD_map_box_L]
      exact SubtreeOK_enc_ne m _ _ (triCount m) hwf hT31 k6 (by omega)
    · rw [hveq, getD_map_box_R]
      exact SubtreeOK_enc_ne m _ _ (triCount m) hwf hT31 k7 (by omega)
  · have hcoll := SubtreeOK_collect m _ _ (triCount m) hwf hT31 hsub
      (by omega) (triCount m) (by omega)
    refine ⟨(List.range' 0 (triCount m - 1 + 1 - 0)).map
        (fun p => ((sortLeaves (leafFill m (meshBox m) (triCount m))).getD p
          (0, 0)).1), ?_, ?_⟩
    · rw [collectTris_map_box]
      exact hcoll
    · have hTT : (triCount m - 1) + 1 - 0 = triCount m := by omega
      rw [hTT, tris_eq_map_fst _ _ hwf.1]
      exact leaves_fst_perm m (meshBox m) (triCount m)
  · intro q hq
    obtain ⟨l2, r2, k1, k2, k3, k4, k5, k6, k7, k8⟩ :=
      SubtreeOK_all_slots m _ _ hsub q (Nat.zero_le q) hq
    have hcoll := SubtreeOK_collect m _ _ (triCount m) hwf hT31 k5
      (by omega) (triCount m) (by omega)
    refine ⟨(List.range' l2 (r2 + 1 - l2)).map
        (fun p => ((sortLeaves (leafFill m (meshBox m) (triCount m))).getD p
          (0, 0)).1), ?_, ?_⟩
    · rw [collectTris_map_box]
      exact hcoll
    · intro tri htri
      simp only [List.mem_map] at htri
      obtain ⟨p, hp, rfl⟩ := htri
      have hp2 : l2 ≤ p ∧ p ≤ r2 := by
        rcases List.mem_range'.mp hp with ⟨ii, hii, heqp⟩
        omega
      have hbs := rangeBox_contains m
        (sortLeaves (leafFill m (meshBox m) (triCount m))) (meshBox m).mini
        l2 p r2 hp2.1 hp2.2
      have hbs2 := boxSubset_translate (meshBox m).mini hbs
      rw [leafBox_translate_back] at hbs2
      rw [getD_map_box _ _ _ (by omega)]
      show boxSubset _ (((stF.nodes.getD q node0).box).translate
        (meshBox m).mini)
      rw [k8]
      exact hbs2

/-- IsHit on an acceptable face within the current distance bound:
the record is replaced by the new hit. -/
theorem isHit_accept (m : MeshData) (ray : RayQ) (rec : HitRec) (f : Nat)
    (hok : okFace m ray f) (hle : tFace m ray f ≤ rec.dist) :
    isHit m ray rec f =
      ⟨true, tFace m ray f, uFace m ray f, vFace m ray f, f⟩ := by
  obtain ⟨h1, h2, h3, h4, h5, h6, h7⟩ := hok
  have hchar := intersectTriangle_char ray.pos ray.dir (m.tv f 0) (m.tv f 1)
    (m.tv f 2) ray.tmin ray.tmax rec.dist rec.u rec.v
  have htrue : (intersectTriangle ray.pos ray.dir (m.tv f 0) (m.tv f 1)
      (m.tv f 2) ray.tmin ray.tmax rec.dist rec.u rec.v).1 = true :=
    hchar.1.mpr ⟨h1, h2, h3, h4, h5, h6, h7, hle⟩
  have heq := hchar.2 htrue
  simp only [isHit, heq, tFace, uFace, vFace]
  simp

/-- IsHit on a face that is unacceptable or beyond the current distance
bound: the record is unchanged. -/
theorem isHit_skip (m : MeshData) (ray : RayQ) (rec : HitRec) (f : Nat)
    (h : ¬(okFace m ray f ∧ tFace m ray f ≤ rec.dist)) :
    isHit m ray rec f = rec := by
  apply isHit_reject_eq
  have hchar := (intersectTriangle_char ray.pos ray.dir (m.tv f 0) (m.tv f 1)
    (m.tv f 2) ray.tmin ray.tmax rec.dist rec.u rec.v).1
  cases hb : (intersectTriangle ray.pos ray.dir (m.tv f 0) (m.tv f 1)
      (m.tv f 2) ray.tmin ray.tmax rec.dist rec.u rec.v).1 with
  | false => rfl
  | true =>
    exfalso
    obtain ⟨k1, k2, k3, k4, k5, k6, k7, k8⟩ := hchar.mp hb
    exact h ⟨⟨k1, k2, k3, k4, k5, k6, k7⟩, k8⟩

/-- Two IsHit calls commute when the two faces do not tie at the same exact
distance. -/
theorem isHit_comm (m : MeshData) (ray : RayQ) (rec : HitRec) (f g : Nat)
    (hnotie : ¬(okFace m ray f ∧ okFace m ray g ∧
      tFace m ray f = tFace m ray g)) :
    isHit m ray (isHit m ray rec f) g = isHit m ray (isHit m ray rec g) f := by
  by_cases hf : okFace m ray f
  · by_cases hg : okFace m ray g
    · have hne : tFace m ray f ≠ tFace m ray g := fun h => hnotie ⟨hf, hg, h⟩
      rcases le_or_lt (tFace m ray f) rec.dist with hfd | hfd
      · rcases le_or_lt (tFace m ray g) rec.dist with hgd | hgd
        · rcases lt_or_gt_of_ne hne with hlt | hgt
          · rw [isHit_accept m ray rec f hf hfd,
              isHit_skip m ray
                ⟨true, tFace m ray f, uFace m ray f, vFace m ray f, f⟩ g
                (fun hc => absurd hc.2 (not_le.mpr hlt)),
              isHit_accept m ray rec g hg hgd,
              isHit_accept m ray
                ⟨true, tFace m ray g, uFace m ray g, vFace m ray g, g⟩ f hf
                (le_of_lt hlt)]
          · rw [isHit_accept m ray rec f hf hfd,
              isHit_accept m ray
                ⟨true, tFace m ray f, uFace m ray f, vFace m ray f, f⟩ g hg
                (le_of_lt hgt),
              isHit_accept m ray rec g hg hgd,
              isHit_skip m ray
                ⟨true, tFace m ray g, uFace m ray g, vFace m ray g, g⟩ f
                (fun hc => absurd hc.2 (not_le.mpr hgt))]
        · rw [isHit_accept m ray rec f hf hfd,
            isHit_skip m ray
              ⟨true, tFace m ray f, uFace m ray f, vFace m ray f, f⟩ g
              (fun hc => absurd hc.2 (not_le.mpr (lt_of_le_of_lt hfd hgd))),
            isHit_skip m ray rec g (fun hc => absurd hc.2 (not_le.mpr hgd)),
            isHit_accept m ray rec f hf hfd]
      · rcases le_or_lt (tFace m ray g) rec.dist with hgd | hgd
        · rw [isHit_skip m ray rec f (fun hc => absurd hc.2 (not_le.mpr hfd)),
            isHit_accept m ray rec g hg hgd,
            isHit_skip m ray
              ⟨true, tFace m ray g, uFace m ray g, vFace m ray g, g⟩ f
              (fun hc => absurd hc.2 (not_le.mpr (lt_of_le_of_lt hgd hfd)))]
        · rw [isHit_skip m ray rec f (fun hc => absurd hc.2 (not_le.mpr hfd)),
            isHit_skip m ray rec g (fun hc => absurd hc.2 (not_le.mpr hgd)),
            isHit_skip m ray rec f (fun hc => absurd hc.2 (not_le.mpr hfd))]
    · rw [isHit_skip m ray (isHit m ray rec f) g (fun hc => absurd hc.1 hg),
        isHit_skip m ray rec g (fun hc => absurd hc.1 hg)]
  · rw [isHit_skip m ray rec f (fun hc => absurd hc.1 hf),
      isHit_skip m ray (isHit m ray rec g) f (fun hc => absurd hc.1 hf)]

/-- Cramer identity of the Moller-Trumbore solution: the ray point at the
computed distance is the barycentric combination of the triangle vertices. -/
theorem mt_point_identity (rayPos rayDir v0 v1 v2 : Vec3)
    (hdet : mtDet rayDir v0 v1 v2 ≠ 0) :
    rayPos.x + mtT rayPos rayDir v0 v1 v2 * rayDir.x =
      (1 - mtU rayPos rayDir v0 v1 v2 - mtV rayPos rayDir v0 v1 v2) * v0.x +
        mtU rayPos rayDir v0 v1 v2 * v1.x +
        mtV rayPos rayDir v0 v1 v2 * v2.x ∧
    rayPos.y + mtT rayPos rayDir v0 v1 v2 * rayDir.y =
      (1 - mtU rayPos rayDir v0 v1 v2 - mtV rayPos rayDir v0 v1 v2) * v0.y +
        mtU rayPos rayDir v0 v1 v2 * v1.y +
        mtV rayPos rayDir v0 v1 v2 * v2.y ∧
    rayPos.z + mtT rayPos rayDir v0 v1 v2 * rayDir.z =
      (1 - mtU rayPos rayDir v0 v1 v2 - mtV rayPos rayDir v0 v1 v2) * v0.z +
        mtU rayPos rayDir v0 v1 v2 * v1.z +
        mtV rayPos rayDir v0 v1 v2 * v2.z := by
  simp only [mtT, mtU, mtV, mtDet, Vec3.dot, Vec3.cross, Vec3.sub] at hdet ⊢
  refine ⟨?_, ?_, ?_⟩ <;>
    · field_simp
      ring

/-- A convex combination lies between the (source-shaped) min and max of the
three values. -/
theorem convex_bound (a b c u v x : ℚ) (hu : 0 ≤ u) (hv : 0 ≤ v)
    (hw : 0 ≤ 1 - u - v)
    (hx : x = (1 - u - v) * a + u * b + v * c) :
    min (min a b) c ≤ x ∧ x ≤ max (max a b) c := by
  have ha1 : min (min a b) c ≤ a := le_trans (min_le_left _ _) (min_le_left _ _)
  have hb1 : min (min a b) c ≤ b :=
    le_trans (min_le_left _ _) (min_le_right _ _)
  have hc1 : min (min a b) c ≤ c := min_le_right _ _
  have ha2 : a ≤ max (max a b) c := le_trans (le_max_left _ _) (le_max_left _ _)
  have hb2 : b ≤ max (max a b) c :=
    le_trans (le_max_right _ _) (le_max_left _ _)
  have hc2 : c ≤ max (max a b) c := le_max_right _ _
  constructor
  · have e1 := mul_le_mul_of_nonneg_left ha1 hw
    have e2 := mul_le_mul_of_nonneg_left hb1 hu
    have e3 := mul_le_mul_of_nonneg_left hc1 hv
    have hmsum : (1 - u - v) * (min (min a b) c) + u * (min (min a b) c) +
        v * (min (min a b) c) = min (min a b) c := by ring
    linarith [e1, e2, e3, hmsum]
  · have e1 := mul_le_mul_of_nonneg_left ha2 hw
    have e2 := mul_le_mul_of_nonneg_left hb2 hu
    have e3 := mul_le_mul_of_nonneg_left hc2 hv
    have hmsum : (1 - u - v) * (max (max a b) c) + u * (max (max a b) c) +
        v * (max (max a b) c) = max (max a b) c := by ring
    linarith [e1, e2, e3, hmsum]

/-- Per-axis slab bounds: a parameter whose point lies between the slabs is
bounded by the sign-selected entry and exit values. -/
theorem slab_axis (lo hi po di t : ℚ) (hdi : di ≠ 0)
    (hlo : lo ≤ po + t * di) (hhi : po + t * di ≤ hi) :
    ((if 0 < 1 / di then lo else hi) - po) * (1 / di) ≤ t ∧
    t ≤ ((if 0 < 1 / di then hi else lo) - po) * (1 / di) := by
  rcases lt_trichotomy di 0 with hneg | hzero | hpos
  · have hinv : ¬(0 < 1 / di) := by
      rw [not_lt]
      exact le_of_lt (one_div_neg.mpr hneg)
    rw [if_neg hinv, if_neg hinv]
    constructor
    · rw [mul_one_div, div_le_iff_of_neg hneg]
      linarith
    · rw [mul_one_div, le_div_iff_of_neg hneg]
      linarith
  · exact absurd hzero hdi
  · have hinv : 0 < 1 / di := one_div_pos.mpr hpos
    rw [if_pos hinv, if_pos hinv]
    constructor
    · rw [mul_one_div, div_le_iff hpos]
      linarith
    · rw [mul_one_div, le_div_iff hpos]
      linarith

/-- Prune soundness: an acceptable face whose raw triangle box is inside `b`
forces the sign-selected slab test of `b` to pass at any length bound at
least tmax. -/
theorem okFace_box_pass (m : MeshData) (ray : RayQ) (f : Nat) (b : AABBQ)
    (hdx : ray.dir.x ≠ 0) (hdy : ray.dir.y ≠ 0) (hdz : ray.dir.z ≠ 0)
    (hinv : ray.inv_dir = ⟨1 / ray.dir.x, 1 / ray.dir.y, 1 / ray.dir.z⟩)
    (htmin : 0 < ray.tmin)
    (hsub : boxSubset (triBoxRaw m f) b)
    (hok : okFace m ray f) (d : ℚ) (hd : ray.tmax ≤ d) :
    b.intersectB ray.pos ray.inv_dir d = true := by
  obtain ⟨h1, h2, h3, h4, h5, h6, h7⟩ := hok
  simp only [tFace] at h6 h7
  obtain ⟨px, py, pz⟩ := mt_point_identity ray.pos ray.dir (m.tv f 0)
    (m.tv f 1) (m.tv f 2) h1
  have hw : 0 ≤ 1 - mtU ray.pos ray.dir (m.tv f 0) (m.tv f 1) (m.tv f 2) -
      mtV ray.pos ray.dir (m.tv f 0) (m.tv f 1) (m.tv f 2) := by linarith
  have hbx := convex_bound _ _ _ _ _ _ h2 h4 hw px
  have hby := convex_bound _ _ _ _ _ _ h2 h4 hw py
  have hbz := convex_bound _ _ _ _ _ _ h2 h4 hw pz
  simp only [boxSubset, triBoxRaw, AABBQ.point, AABBQ.mergePoint, Vec3.vmin,
    Vec3.vmax, sMin_eq, sMax_eq] at hsub
  obtain ⟨s1, s2, s3, s4, s5, s6⟩ := hsub
  have hax := slab_axis b.mini.x b.maxi.x ray.pos.x ray.dir.x
    (mtT ray.pos ray.dir (m.tv f 0) (m.tv f 1) (m.tv f 2)) hdx
    (by linarith [hbx.1, hbx.2]) (by linarith [hbx.1, hbx.2])
  have hay := slab_axis b.mini.y b.maxi.y ray.pos.y ray.dir.y
    (mtT ray.pos ray.dir (m.tv f 0) (m.tv f 1) (m.tv f 2)) hdy
    (by linarith [hby.1, hby.2]) (by linarith [hby.1, hby.2])
  have haz := slab_axis b.mini.z b.maxi.z ray.pos.z ray.dir.z
    (mtT ray.pos ray.dir (m.tv f 0) (m.tv f 1) (m.tv f 2)) hdz
    (by linarith [hbz.1, hbz.2]) (by linarith [hbz.1, hbz.2])
  simp only [AABBQ.intersectB, hinv, max3, min3, sMax_eq, sMin_eq,
    Bool.and_eq_true, decide_eq_true_eq]
  have hen : max (max (((if 0 < 1 / ray.dir.x then b.mini.x else b.maxi.x) -
      ray.pos.x) * (1 / ray.dir.x))
      (((if 0 < 1 / ray.dir.y then b.mini.y else b.maxi.y) -
        ray.pos.y) * (1 / ray.dir.y)))
      (((if 0 < 1 / ray.dir.z then b.mini.z else b.maxi.z) -
        ray.pos.z) * (1 / ray.dir.z)) ≤
      mtT ray.pos ray.dir (m.tv f 0) (m.tv f 1) (m.tv f 2) :=
    max_le (max_le hax.1 hay.1) haz.1
  have hex : mtT ray.pos ray.dir (m.tv f 0) (m.tv f 1) (m.tv f 2) ≤
      min (min (((if 0 < 1 / ray.dir.x then b.maxi.x else b.mini.x) -
        ray.pos.x) * (1 / ray.dir.x))
        (((if 0 < 1 / ray.dir.y then b.maxi.y else b.mini.y) -
          ray.pos.y) * (1 / ray.dir.y)))
        (((if 0 < 1 / ray.dir.z then b.maxi.z else b.mini.z) -
          ray.pos.z) * (1 / ray.dir.z)) :=
    le_min (le_min hax.2 hay.2) haz.2
  refine ⟨⟨le_trans hen hex, ?_⟩, ?_⟩
  · calc (0 : ℚ) < ray.tmin := htmin
      _ ≤ mtT ray.pos ray.dir (m.tv f 0) (m.tv f 1) (m.tv f 2) := h6
      _ ≤ _ := hex
  · calc max (max _ _) _ ≤
        mtT ray.pos ray.dir (m.tv f 0) (m.tv f 1) (m.tv f 2) := hen
      _ < ray.tmax := h7
      _ ≤ d := hd

/-- Inversion of a nondegenerate correct subtree: it is an internal node. -/
theorem SubtreeOK_node_inv (m : MeshData) (leaves : List LeafRec)
    (gmini : Vec3) {nodes : List NodeM} {enc l r : Nat}
    (h : SubtreeOK m leaves gmini nodes enc l r) (hlr : l < r) :
    ∃ s, l ≤ s ∧ s < r ∧ enc = u32 (s * 2) ∧
      SubtreeOK m leaves gmini nodes (nodes.getD s node0).L l s ∧
      SubtreeOK m leaves gmini nodes (nodes.getD s node0).R (s + 1) r ∧
      (nodes.getD s node0).box = rangeBox m leaves gmini l r := by
  cases h with
  | leaf l2 => exact absurd hlr (by omega)
  | node s2 l2 r2 hls hsr hL hR hbox hlex =>
    exact ⟨s2, hls, hsr, rfl, hL, hR, hbox⟩

/-- Inversion of a single-position correct subtree: it is a leaf. -/
theorem SubtreeOK_leaf_inv (m : MeshData) (leaves : List LeafRec)
    (gmini : Vec3) {nodes : List NodeM} {enc l r : Nat}
    (h : SubtreeOK m leaves gmini nodes enc l r) (hlr : l = r) :
    enc = u32 ((leaves.getD l (0, 0)).1 * 2 + 1) := by
  cases h with
  | leaf l2 => rfl
  | node s2 l2 r2 hls hsr hL hR hbox hlex => exact absurd hlr (by omega)

/-- The two-leaf traversal: one internal node whose children are both leaves
tests both triangles when the box passes and nothing otherwise. -/
theorem traverse_two_leaves (m : MeshData) (ray : RayQ) (rec : HitRec)
    (nd : NodeM) (f g fuel : Nat)
    (hL : nd.L = f * 2 + 1) (hR : nd.R = g * 2 + 1) :
    traverseLoop m [nd] ray (fuel + 1 + 1) [0] rec =
      (if nd.box.intersectB ray.pos ray.inv_dir rec.dist then
        Except.ok (isHit m ray (isHit m ray rec f) g)
      else Except.ok rec) := by
  have hLm : nd.L % 2 = 1 := by omega
  have hRm : nd.R % 2 = 1 := by omega
  have hLd : nd.L / 2 = f := by omega
  have hRd : nd.R / 2 = g := by omega
  simp only [traverseLoop, List.get?_cons_zero]
  cases hb : nd.box.intersectB ray.pos ray.inv_dir rec.dist with
  | false => simp [traverseLoop]
  | true => simp [traverseLoop, hLm, hRm, hLd, hRd]

/-- Witness for C2 at the two-triangle mesh. -/
theorem C2_witness :
    ∃ bvh : LBVHS, buildLBVH mesh2 = some bvh ∧
      bvh.nodes.length = triCount mesh2 - 1 ∧
      bvh.root < triCount mesh2 - 1 ∧
      (∀ v ∈ bvh.nodes, v.L ≠ kInvalid ∧ v.R ≠ kInvalid) ∧
      (∃ tris, collectTris bvh.nodes (triCount mesh2) (u32 (bvh.root * 2)) =
          some tris ∧ tris.Perm (List.range (triCount mesh2))) ∧
      (∀ q, q < triCount mesh2 - 1 →
        ∃ tris, collectTris bvh.nodes (triCount mesh2) (u32 (q * 2)) =
            some tris ∧
          ∀ tri ∈ tris, boxSubset (triBoxRaw mesh2 tri)
            ((bvh.nodes.getD q node0).box)) :=
  C2_build_invariants mesh2 (by decide) (by decide)

/-- Shifting out the low bit commutes with xor. -/
theorem xor_div_two (a b : Nat) : (a ^^^ b) / 2 = a / 2 ^^^ b / 2 := by
  apply Nat.eq_of_testBit_eq
  intro i
  rw [Nat.testBit_div_two, Nat.testBit_xor, Nat.testBit_xor,
    Nat.testBit_div_two, Nat.testBit_div_two]

/-- Shifting out k low bits commutes with xor. -/
theorem xor_div_pow (a b k : Nat) :
    (a ^^^ b) / 2 ^ k = a / 2 ^ k ^^^ b / 2 ^ k := by
  induction k generalizing a b with
  | zero => simp
  | succ k2 ih =>
    rw [pow_succ, ← Nat.div_div_eq_div_mul, ← Nat.div_div_eq_div_mul,
      ← Nat.div_div_eq_div_mul, ih, xor_div_two]

/-- Numbers whose xor is below 2^k agree above bit k. -/
theorem xor_lt_pow_div_eq {a b k : Nat} (h : a ^^^ b < 2 ^ k) :
    a / 2 ^ k = b / 2 ^ k := by
  have h0 : (a ^^^ b) / 2 ^ k = 0 := Nat.div_eq_of_lt h
  rw [xor_div_pow] at h0
  exact Nat.xor_eq_zero.mp h0

/-- A number with bit k set beats one with bit k clear when the higher bits
agree. -/
theorem lt_of_bits {a b k : Nat} (ha : a / 2 ^ k % 2 = 1)
    (hb : b / 2 ^ k % 2 = 0) (hH : a / 2 ^ (k + 1) = b / 2 ^ (k + 1)) :
    b < a := by
  have hpk : 0 < 2 ^ k := Nat.two_pow_pos k
  have hda : a / 2 ^ k / 2 = a / 2 ^ (k + 1) := by
    rw [Nat.div_div_eq_div_mul, pow_succ]
  have hdb : b / 2 ^ k / 2 = b / 2 ^ (k + 1) := by
    rw [Nat.div_div_eq_div_mul, pow_succ]
  have hqa : a / 2 ^ k = 2 * (b / 2 ^ (k + 1)) + 1 := by omega
  have hqb : b / 2 ^ k = 2 * (b / 2 ^ (k + 1)) := by omega
  have h1 := Nat.div_add_mod b (2 ^ k)
  have h2 : b % 2 ^ k < 2 ^ k := Nat.mod_lt _ hpk
  have h3 : 2 ^ k * (a / 2 ^ k) ≤ a := Nat.mul_div_le a (2 ^ k)
  rw [hqa] at h3
  rw [hqb] at h1
  have hr1 : 2 ^ k * (2 * (b / 2 ^ (k + 1)) + 1) =
      2 ^ k * (2 * (b / 2 ^ (k + 1))) + 2 ^ k := by ring
  rw [hr1] at h3
  omega

/-- For a <= b with xor in [2^k, 2^(k+1)): bit k of a is clear, bit k of b is
set, and the higher bits agree. -/
theorem sorted_delta_bits {a b k : Nat} (hab : a ≤ b)
    (h1 : 2 ^ k ≤ a ^^^ b) (h2 : a ^^^ b < 2 ^ (k + 1)) :
    a / 2 ^ k % 2 = 0 ∧ b / 2 ^ k % 2 = 1 ∧
    a / 2 ^ (k + 1) = b / 2 ^ (k + 1) := by
  have hH : a / 2 ^ (k + 1) = b / 2 ^ (k + 1) := xor_lt_pow_div_eq h2
  have hd : (a ^^^ b) / 2 ^ k = 1 := by
    apply Nat.div_eq_of_lt_le
    · simpa using h1
    · have he : (1 + 1) * 2 ^ k = 2 ^ (k + 1) := by ring
      omega
  rw [xor_div_pow] at hd
  have hp : (a / 2 ^ k + b / 2 ^ k) % 2 = 1 := by
    rw [← Nat.xor_mod_two_eq, hd]
  rcases Nat.mod_two_eq_zero_or_one (a / 2 ^ k) with hx | hx <;>
    rcases Nat.mod_two_eq_zero_or_one (b / 2 ^ k) with hy | hy
  · omega
  · exact ⟨hx, hy, hH⟩
  · have := lt_of_bits hx hy hH
    omega
  · omega

/-- Codes within a range whose adjacent deltas stay below 2^(k+1) share their
bits above k. -/
theorem range_high_eq (leaves : List LeafRec) (k l r : Nat)
    (hδ : ∀ p, l ≤ p → p < r → deltaF leaves p < 2 ^ (k + 1)) :
    ∀ q, l ≤ q → q ≤ r →
      (leaves.getD l (0, 0)).2 / 2 ^ (k + 1) =
        (leaves.getD q (0, 0)).2 / 2 ^ (k + 1) := by
  intro q hq1 hq2
  induction q, hq1 using Nat.le_induction with
  | base => rfl
  | succ q2 hq ih =>
    have hstep : deltaF leaves q2 < 2 ^ (k + 1) := hδ q2 hq (by omega)
    have hpair : (leaves.getD (q2 + 1) (0, 0)).2 / 2 ^ (k + 1) =
        (leaves.getD q2 (0, 0)).2 / 2 ^ (k + 1) :=
      xor_lt_pow_div_eq hstep
    rw [ih (by omega), ← hpair]

/-- With a zero split delta the split is the rightmost position and all
deltas left of it vanish. -/
theorem split_rightmost (leaves : List LeafRec) (s l r : Nat)
    (hls : l ≤ s) (hsr : s < r)
    (hlex : ∀ p, l ≤ p → p < r → lexLE leaves p s)
    (hz : deltaF leaves s = 0) :
    s + 1 = r ∧ ∀ p, l ≤ p → p < s → deltaF leaves p = 0 := by
  constructor
  · rcases hlex (r - 1) (by omega) (by omega) with h | h
    · omega
    · omega
  · intro p hp1 hp2
    rcases hlex p hp1 (by omega) with h | h
    · omega
    · omega

/-- The interior deltas of both children of a split with positive delta lie
strictly below the split delta's top bit. -/
theorem child_delta_bound (leaves : List LeafRec) (s l r : Nat)
    (hls : l ≤ s) (hsr : s < r) (hrlen : r < leaves.length)
    (hsorted : ∀ p q, p ≤ q → q < leaves.length →
      (leaves.getD p (0, 0)).2 ≤ (leaves.getD q (0, 0)).2)
    (hlex : ∀ p, l ≤ p → p < r → lexLE leaves p s)
    (hpos : 0 < deltaF leaves s) :
    (∀ p, l ≤ p → p < s →
      deltaF leaves p < 2 ^ Nat.log2 (deltaF leaves s)) ∧
    (∀ p, s + 1 ≤ p → p < r →
      deltaF leaves p < 2 ^ Nat.log2 (deltaF leaves s)) := by
  have hk1 : 2 ^ Nat.log2 (deltaF leaves s) ≤ deltaF leaves s :=
    Nat.log2_self_le (by omega)
  have hk2 : deltaF leaves s < 2 ^ (Nat.log2 (deltaF leaves s) + 1) :=
    Nat.lt_log2_self
  have hle : ∀ p, l ≤ p → p < r → deltaF leaves p ≤ deltaF leaves s := by
    intro p hp1 hp2
    rcases hlex p hp1 hp2 with h | h
    · exact le_of_lt h
    · exact le_of_eq h.1
  have hδ : ∀ p, l ≤ p → p < r →
      deltaF leaves p < 2 ^ (Nat.log2 (deltaF leaves s) + 1) := fun p h1 h2 =>
    lt_of_le_of_lt (hle p h1 h2) hk2
  have hhigh := range_high_eq leaves (Nat.log2 (deltaF leaves s)) l r hδ
  have hs0 : (leaves.getD s (0, 0)).2 ≤ (leaves.getD (s + 1) (0, 0)).2 :=
    hsorted s (s + 1) (by omega) (by omega)
  have hsb := sorted_delta_bits hs0
    (by rw [Nat.xor_comm]; exact hk1) (by rw [Nat.xor_comm]; exact hk2)
  constructor
  · intro p hp1 hp2
    by_contra hge
    push_neg at hge
    have hp0 : (leaves.getD p (0, 0)).2 ≤ (leaves.getD (p + 1) (0, 0)).2 :=
      hsorted p (p + 1) (by omega) (by omega)
    have hpb := sorted_delta_bits hp0 (by rw [Nat.xor_comm]; exact hge)
      (by rw [Nat.xor_comm]; exact hδ p (by omega) (by omega))
    have h1 := hhigh (p + 1) (by omega) (by omega)
    have h2 := hhigh s (by omega) (by omega)
    have hlt := lt_of_bits hpb.2.1 hsb.1 (by omega)
    have hmono := hsorted (p + 1) s (by omega) (by omega)
    omega
  · intro p hp1 hp2
    by_contra hge
    push_neg at hge
    have hp0 : (leaves.getD p (0, 0)).2 ≤ (leaves.getD (p + 1) (0, 0)).2 :=
      hsorted p (p + 1) (by omega) (by omega)
    have hpb := sorted_delta_bits hp0 (by rw [Nat.xor_comm]; exact hge)
      (by rw [Nat.xor_comm]; exact hδ p (by omega) (by omega))
    have h1 := hhigh (s + 1) (by omega) (by omega)
    have h2 := hhigh p (by omega) (by omega)
    have hlt := lt_of_bits hsb.2.1 hpb.1 (by omega)
    have hmono := hsorted (s + 1) p (by omega) (by omega)
    omega

/-- SubtreeOK implies the box-free structural shape. -/
theorem SubtreeOK_toTree (m : MeshData) (leaves : List LeafRec) (gmini : Vec3)
    {nodes : List NodeM} {enc l r : Nat}
    (h : SubtreeOK m leaves gmini nodes enc l r) :
    TreeOK leaves nodes enc l r := by
  induction h with
  | leaf l2 => exact TreeOK.leaf _ _
  | node s2 l2 r2 hls hsr hL hR hbox hlex ihL ihR =>
    exact TreeOK.node _ s2 l2 r2 hls hsr ihL ihR hlex

/-- The structural shape survives the final box translation. -/
theorem TreeOK_map_box (leaves : List LeafRec) (mv : Vec3)
    {nodes : List NodeM} {enc l r : Nat} (h : TreeOK leaves nodes enc l r) :
    TreeOK leaves (nodes.map fun nd => { nd with
      box := nd.box.translate mv }) enc l r := by
  induction h with
  | leaf l2 => exact TreeOK.leaf _ _
  | node s2 l2 r2 hls hsr hL hR hlex ihL ihR =>
    refine TreeOK.node _ s2 l2 r2 hls hsr ?_ ?_ hlex
    · rw [getD_map_box_L]
      exact ihL
    · rw [getD_map_box_R]
      exact ihR

/-- Inversion of a nondegenerate structural subtree. -/
theorem TreeOK_node_inv (leaves : List LeafRec) {nodes : List NodeM}
    {enc l r : Nat} (h : TreeOK leaves nodes enc l r) (hlr : l < r) :
    ∃ s, l ≤ s ∧ s < r ∧ enc = u32 (s * 2) ∧
      TreeOK leaves nodes (nodes.getD s node0).L l s ∧
      TreeOK leaves nodes (nodes.getD s node0).R (s + 1) r ∧
      (∀ p, l ≤ p → p < r → lexLE leaves p s) := by
  cases h with
  | leaf l2 => exact absurd hlr (by omega)
  | node s2 l2 r2 hls hsr hL hR hlex =>
    exact ⟨s2, hls, hsr, rfl, hL, hR, hlex⟩

/-- Inversion of a single-position structural subtree. -/
theorem TreeOK_leaf_inv (leaves : List LeafRec) {nodes : List NodeM}
    {enc l r : Nat} (h : TreeOK leaves nodes enc l r) (hlr : l = r) :
    enc = u32 ((leaves.getD l (0, 0)).1 * 2 + 1) := by
  cases h with
  | leaf l2 => rfl
  | node s2 l2 r2 hls hsr hL hR hlex => exact absurd hlr (by omega)

/-- Dropping the top of a valid stack keeps it valid. -/
theorem chain_tail (leaves : List LeafRec) (T : Nat) (nodes : List NodeM)
    (i : Nat) (s : List Nat) (B : Nat) (Bs : List Nat)
    (h : ChainOK leaves T nodes (i :: s) (B :: Bs)) :
    ChainOK leaves T nodes s Bs := by
  obtain ⟨h1, h2, h3, h4⟩ := h
  refine ⟨by simpa using h1, ?_, ?_, ?_⟩
  · intro j hj
    have := h2 (j + 1) (by simpa using Nat.succ_lt_succ hj)
    simpa using this
  · intro hlen
    have := h4 1 (Nat.le_refl 1) (by simpa using Nat.succ_lt_succ hlen)
    simpa using le_of_lt this
  · intro j hj1 hj2
    have := h4 (j + 1) (by omega) (by simpa using Nat.succ_lt_succ hj2)
    simpa using this

/-- A valid stack holds at most 32 entries. -/
theorem chain_len (leaves : List LeafRec) (T : Nat) (nodes : List NodeM)
    (stack Bs : List Nat) (h : ChainOK leaves T nodes stack Bs) :
    stack.length ≤ 32 := by
  obtain ⟨h1, h2, h3, h4⟩ := h
  by_contra hlong
  push_neg at hlong
  have hgrow : ∀ j, 1 ≤ j → j < Bs.length →
      Bs.getD 1 0 + (j - 1) ≤ Bs.getD j 0 := by
    intro j hj1 hj2
    induction j, hj1 using Nat.le_induction with
    | base => omega
    | succ j2 hj ih =>
      have hstep := h4 j2 hj (by omega)
      have := ih (by omega)
      omega
  have hlast := hgrow (Bs.length - 1) (by omega) (by omega)
  have hbound := (h2 (Bs.length - 1) (by omega)).2
  omega

/-- Replacing the top of a valid stack by an entry with a smaller-or-equal
bound keeps it valid. -/
theorem chain_push1 (leaves : List LeafRec) (T : Nat) (nodes : List NodeM)
    (i : Nat) (s : List Nat) (B B2 i2 : Nat) (Bs : List Nat)
    (h : ChainOK leaves T nodes (i :: s) (B :: Bs))
    (he : EntryOK leaves T nodes i2 B2) (h30 : B2 ≤ 30) (hBB : B2 ≤ B) :
    ChainOK leaves T nodes (i2 :: s) (B2 :: Bs) := by
  obtain ⟨h1, h2, h3, h4⟩ := h
  refine ⟨by simpa using h1, ?_, ?_, ?_⟩
  · intro j hj
    cases j with
    | zero => simpa using ⟨he, h30⟩
    | succ j2 =>
      have := h2 (j2 + 1) (by simpa using hj)
      simpa using this
  · intro hlen
    have := h3 (by simpa using hlen)
    simp only [List.getD_cons_zero, List.getD_cons_succ] at this ⊢
    omega
  · intro j hj1 hj2
    cases j with
    | zero => omega
    | succ j2 =>
      have := h4 (j2 + 1) (by omega) (by simpa using hj2)
      simp only [List.getD_cons_succ] at this ⊢
      exact this

/-- Replacing the top of a valid stack by two sibling entries with a strictly
smaller bound keeps it valid. -/
theorem chain_push2 (leaves : List LeafRec) (T : Nat) (nodes : List NodeM)
    (i : Nat) (s : List Nat) (B B2 iL iR : Nat) (Bs : List Nat)
    (h : ChainOK leaves T nodes (i :: s) (B :: Bs))
    (heL : EntryOK leaves T nodes iL B2) (heR : EntryOK leaves T nodes iR B2)
    (h30 : B2 ≤ 30) (hBB : B2 < B) :
    ChainOK leaves T nodes (iR :: iL :: s) (B2 :: B2 :: Bs) := by
  obtain ⟨h1, h2, h3, h4⟩ := h
  refine ⟨by simpa using h1, ?_, ?_, ?_⟩
  · intro j hj
    cases j with
    | zero => simpa using ⟨heR, h30⟩
    | succ j2 =>
      cases j2 with
      | zero => simpa using ⟨heL, h30⟩
      | succ j3 =>
        have := h2 (j3 + 1) (by simpa using hj)
        simpa using this
  · intro _
    simp
  · intro j hj1 hj2
    cases j with
    | zero => omega
    | succ j2 =>
      cases j2 with
      | zero =>
        simp only [List.getD_cons_succ, List.getD_cons_zero] at hj2 ⊢
        have := h3 (by simp only [List.length_cons] at hj2 ⊢; omega)
        simp only [List.getD_cons_zero, List.getD_cons_succ] at this
        omega
      | succ j3 =>
        have := h4 (j3 + 1) (by omega) (by
          simp only [List.length_cons] at hj2 ⊢
          omega)
        simp only [List.getD_cons_succ] at this ⊢
        exact this

/-- The traversal never overflows the 64-entry visit stack from a valid
stack configuration. -/
theorem traverseLoop_no_overflow (m : MeshData) (leaves : List LeafRec)
    (T : Nat) (nodes : List NodeM) (ray : RayQ) (hT31 : T < 2 ^ 31)
    (hsorted : ∀ p q, p ≤ q → q < leaves.length →
      (leaves.getD p (0, 0)).2 ≤ (leaves.getD q (0, 0)).2)
    (hlenT : T ≤ leaves.length)
    (hwf : ∀ p, p < T → (leaves.getD p (0, 0)).1 < T) :
    ∀ fuel stack Bs rec, ChainOK leaves T nodes stack Bs →
      traverseLoop m nodes ray fuel stack rec ≠
        Except.error TravErr.stackOverflow := by
  intro fuel
  induction fuel with
  | zero =>
    intro stack Bs rec hch
    simp [traverseLoop]
  | succ f ih =>
    intro stack Bs rec hch
    cases stack with
    | nil => simp [traverseLoop]
    | cons idx rest =>
      cases Bs with
      | nil => exact absurd hch.1 (by simp)
      | cons B Bs2 =>
        have hhead := hch.2.1 0 (by simp)
        simp only [List.getD_cons_zero] at hhead
        obtain ⟨⟨l, r, hlr, hrT, hsm, htree, hbnd⟩, hB30⟩ := hhead
        have hrest31 : rest.length ≤ 31 := by
          have := chain_len leaves T nodes (idx :: rest) (B :: Bs2) hch
          simp only [List.length_cons] at this
          omega
        cases hget : nodes[idx]? with
        | none =>
          have hget1 : nodes.get? idx = none := by
            rw [List.get?_eq_getElem?, hget]
          simp [traverseLoop, hget1, hget]
        | some node =>
          have hget1 : nodes.get? idx = some node := by
            rw [List.get?_eq_getElem?, hget]
          simp only [traverseLoop, hget1]
          cases hbox : node.box.intersectB ray.pos ray.inv_dir rec.dist with
          | false =>
            rw [if_pos (by simp)]
            exact ih rest Bs2 rec
              (chain_tail leaves T nodes idx rest B Bs2 hch)
          | true =>
            rw [if_neg (by simp)]
            obtain ⟨sx, hls, hsr2, hencEq, hLt, hRt, hlex⟩ :=
              TreeOK_node_inv leaves htree hlr
            have hsx : sx = idx := by
              have hx1 : sx * 2 < 2 ^ 32 := by omega
              simp only [u32] at hencEq
              omega
            subst hsx
            have hnode : nodes.getD sx node0 = node := by
              rw [List.getD_eq_getElem?_getD, hget]
              rfl
            rw [hnode] at hLt hRt
            have hδin : deltaF leaves sx < 2 ^ B := hbnd sx hls hsr2
            rcases Nat.eq_or_lt_of_le hls with hleq | hllt <;>
              rcases Nat.eq_or_lt_of_le (show sx + 1 ≤ r by omega)
                with hreq | hrlt
            · -- both children leaves
              have hL1 := TreeOK_leaf_inv leaves hLt hleq
              have hLval : node.L = (leaves.getD l (0, 0)).1 * 2 + 1 := by
                rw [hL1]
                simp only [u32]
                have := hwf l (by omega)
                omega
              have hR1 := TreeOK_leaf_inv leaves hRt hreq
              have hRval : node.R =
                  (leaves.getD (sx + 1) (0, 0)).1 * 2 + 1 := by
                rw [hR1]
                simp only [u32]
                have := hwf (sx + 1) (by omega)
                omega
              rw [if_pos (by omega : node.L % 2 = 1),
                if_pos (by omega : node.R % 2 = 1)]
              exact ih rest Bs2 _
                (chain_tail leaves T nodes sx rest B Bs2 hch)
            · -- left leaf, right internal
              have hL1 := TreeOK_leaf_inv leaves hLt hleq
              have hLval : node.L = (leaves.getD l (0, 0)).1 * 2 + 1 := by
                rw [hL1]
                simp only [u32]
                have := hwf l (by omega)
                omega
              obtain ⟨s2, hs2a, hs2b, hRenc, hR2a, hR2b, hR2c⟩ :=
                TreeOK_node_inv leaves hRt hrlt
              have hRval : node.R = s2 * 2 := by
                rw [hRenc]
                simp only [u32]
                omega
              have hδpos : 0 < deltaF leaves sx := by
                by_contra hz
                push_neg at hz
                have := (split_rightmost leaves sx l r hls hsr2 hlex
                  (by omega)).1
                omega
              have hcb := child_delta_bound leaves sx l r hls hsr2
                (by omega) hsorted hlex hδpos
              have hk : Nat.log2 (deltaF leaves sx) < B :=
                (Nat.log2_lt (by omega)).mpr hδin
              have hentry : EntryOK leaves T nodes (node.R / 2)
                  (Nat.log2 (deltaF leaves sx)) := by
                refine ⟨sx + 1, r, hrlt, hrT, by omega, ?_, hcb.2⟩
                have hu : u32 (node.R / 2 * 2) = node.R := by
                  rw [show node.R / 2 * 2 = s2 * 2 from by omega]
                  exact hRenc.symm
                rw [hu]
                exact hRt
              rw [if_pos (by omega : node.L % 2 = 1),
                if_neg (by omega : ¬node.R % 2 = 1)]
              have hpush : pushStack rest (node.R / 2) =
                  some (node.R / 2 :: rest) := by
                simp only [pushStack]
                rw [if_pos (by omega)]
              simp only [hpush]
              exact ih (node.R / 2 :: rest) (_ :: Bs2) _
                (chain_push1 leaves T nodes sx rest B _ _ Bs2 hch hentry
                  (by omega) (by omega))
            · -- left internal, right leaf
              obtain ⟨s1, hs1a, hs1b, hLenc, hL2a, hL2b, hL2c⟩ :=
                TreeOK_node_inv leaves hLt hllt
              have hLval : node.L = s1 * 2 := by
                rw [hLenc]
                simp only [u32]
                omega
              have hR1 := TreeOK_leaf_inv leaves hRt hreq
              have hRval : node.R =
                  (leaves.getD (sx + 1) (0, 0)).1 * 2 + 1 := by
                rw [hR1]
                simp only [u32]
                have := hwf (sx + 1) (by omega)
                omega
              have huL : u32 (node.L / 2 * 2) = node.L := by
                rw [show node.L / 2 * 2 = s1 * 2 from by omega]
                exact hLenc.symm
              rw [if_neg (by omega : ¬node.L % 2 = 1)]
              have hpush : pushStack rest (node.L / 2) =
                  some (node.L / 2 :: rest) := by
                simp only [pushStack]
                rw [if_pos (by omega)]
              simp only [hpush]
              rw [if_pos (by omega : node.R % 2 = 1)]
              rcases Nat.eq_zero_or_pos (deltaF leaves sx) with hz | hδpos
              · have hsz := split_rightmost leaves sx l r hls hsr2 hlex hz
                have hentry : EntryOK leaves T nodes (node.L / 2) 0 := by
                  refine ⟨l, sx, hllt, by omega, by omega, ?_, ?_⟩
                  · rw [huL]
                    exact hLt
                  · intro p hp1 hp2
                    have := hsz.2 p hp1 hp2
                    omega
                exact ih (node.L / 2 :: rest) (0 :: Bs2) _
                  (chain_push1 leaves T nodes sx rest B 0 _ Bs2 hch hentry
                    (by omega) (by omega))
              · have hcb := child_delta_bound leaves sx l r hls hsr2
                  (by omega) hsorted hlex hδpos
                have hk : Nat.log2 (deltaF leaves sx) < B :=
                  (Nat.log2_lt (by omega)).mpr hδin
                have hentry : EntryOK leaves T nodes (node.L / 2)
                    (Nat.log2 (deltaF leaves sx)) := by
                  refine ⟨l, sx, hllt, by omega, by omega, ?_, hcb.1⟩
                  rw [huL]
                  exact hLt
                exact ih (node.L / 2 :: rest) (_ :: Bs2) _
                  (chain_push1 leaves T nodes sx rest B _ _ Bs2 hch hentry
                    (by omega) (by omega))
            · -- both internal
              obtain ⟨s1, hs1a, hs1b, hLenc, hL2a, hL2b, hL2c⟩ :=
                TreeOK_node_inv leaves hLt hllt
              have hLval : node.L = s1 * 2 := by
                rw [hLenc]
                simp only [u32]
                omega
              obtain ⟨s2, hs2a, hs2b, hRenc, hR2a, hR2b, hR2c⟩ :=
                TreeOK_node_inv leaves hRt hrlt
              have hRval : node.R = s2 * 2 := by
                rw [hRenc]
                simp only [u32]
                omega
              have hδpos : 0 < deltaF leaves sx := by
                by_contra hz
                push_neg at hz
                have := (split_rightmost leaves sx l r hls hsr2 hlex
                  (by omega)).1
                omega
              have hcb := child_delta_bound leaves sx l r hls hsr2
                (by omega) hsorted hlex hδpos
              have hk : Nat.log2 (deltaF leaves sx) < B :=
                (Nat.log2_lt (by omega)).mpr hδin
              have huL : u32 (node.L / 2 * 2) = node.L := by
                rw [show node.L / 2 * 2 = s1 * 2 from by omega]
                exact hLenc.symm
              have huR : u32 (node.R / 2 * 2) = node.R := by
                rw [show node.R / 2 * 2 = s2 * 2 from by omega]
                exact hRenc.symm
              have hentryL : EntryOK leaves T nodes (node.L / 2)
                  (Nat.log2 (deltaF leaves sx)) := by
                refine ⟨l, sx, hllt, by omega, by omega, ?_, hcb.1⟩
                rw [huL]
                exact hLt
              have hentryR : EntryOK leaves T nodes (node.R / 2)
                  (Nat.log2 (deltaF leaves sx)) := by
                refine ⟨sx + 1, r, hrlt, hrT, by omega, ?_, hcb.2⟩
                rw [huR]
                exact hRt
              rw [if_neg (by omega : ¬node.L % 2 = 1)]
              have hpush1 : pushStack rest (node.L / 2) =
                  some (node.L / 2 :: rest) := by
                simp only [pushStack]
                rw [if_pos (by omega)]
              simp only [hpush1]
              rw [if_neg (by omega : ¬node.R % 2 = 1)]
              have hpush2 : pushStack (node.L / 2 :: rest) (node.R / 2) =
                  some (node.R / 2 :: node.L / 2 :: rest) := by
                simp only [pushStack]
                rw [if_pos (by simp only [List.length_cons]; omega)]
              simp only [hpush2]
              exact ih (node.R / 2 :: node.L / 2 :: rest) (_ :: _ :: Bs2) _
                (chain_push2 leaves T nodes sx rest B _ _ _ Bs2 hch hentryL
                  hentryR (by omega) (by omega))

/-- Every Morton3D code produced by the source is below 2^30: the carried
uint32 sums stay within the interleave range (shared helper, independent of
the carry-free decomposition). -/
theorem morton3D_lt (x y z : ℚ) : morton3D x y z < 2 ^ 30 := by
  have hx := expandBits_mask (mortonBin x)
    (lt_of_le_of_lt (mortonBin_le x) (by norm_num))
  have hy := expandBits_mask (mortonBin y)
    (lt_of_le_of_lt (mortonBin_le y) (by norm_num))
  have hz := expandBits_mask (mortonBin z)
    (lt_of_le_of_lt (mortonBin_le z) (by norm_num))
  set xx := expandBits (mortonBin x) with hxx
  set yy := expandBits (mortonBin y) with hyy
  set zz := expandBits (mortonBin z) with hzz
  have hxb : xx ≤ 0x09249249 := by
    conv_lhs => rw [← hx]
    exact Nat.and_le_right
  have hyb : yy ≤ 0x09249249 := by
    conv_lhs => rw [← hy]
    exact Nat.and_le_right
  have hzb : zz ≤ 0x09249249 := by
    conv_lhs => rw [← hz]
    exact Nat.and_le_right
  have hsx : xx <<< 2 = xx * 4 := Nat.shiftLeft_eq xx 2
  have hsy : yy <<< 1 = yy * 2 := Nat.shiftLeft_eq yy 1
  simp only [morton3D, ← hxx, ← hyy, ← hzz, u32, hsx, hsy]
  have h1 : xx * 4 % 2 ^ 32 = xx * 4 := Nat.mod_eq_of_lt (by omega)
  have h2 : yy * 2 % 2 ^ 32 = yy * 2 := Nat.mod_eq_of_lt (by omega)
  rw [h1, h2]
  have h3 : (xx * 4 + yy * 2 + zz) % 2 ^ 32 = xx * 4 + yy * 2 + zz :=
    Nat.mod_eq_of_lt (by omega)
  rw [h3]
  omega

/-- Every code stored in the sorted leaf table is below 2^30. -/
theorem leaf_code_lt (m : MeshData) (box : AABBQ) (T p : Nat) :
    ((sortLeaves (leafFill m box T)).getD p (0, 0)).2 < 2 ^ 30 := by
  by_cases hp : p < (sortLeaves (leafFill m box T)).length
  · have hall : ∀ x, x ∈ leafFill m box T → x.2 < 2 ^ 30 := by
      intro x hx
      simp only [leafFill, List.mem_map, List.mem_range] at hx
      obtain ⟨i, hi, heq⟩ := hx
      rw [← heq]
      exact morton3D_lt _ _ _
    apply hall
    refine (List.perm_insertionSort leafLE (leafFill m box T)).mem_iff.mp ?_
    rw [List.getD_eq_getElem?_getD, List.getElem?_eq_getElem hp]
    exact List.getElem_mem _
  · rw [List.getD_eq_default _ _ (by omega)]
    norm_num

/-- Every boundary delta of the sorted leaf table is below 2^30. -/
theorem deltaF_lt (m : MeshData) (box : AABBQ) (T p : Nat) :
    deltaF (sortLeaves (leafFill m box T)) p < 2 ^ 30 := by
  rw [deltaF]
  exact Nat.xor_lt_two_pow (leaf_code_lt m box T (p + 1)) (leaf_code_lt m box T p)

/-- The sorted leaf table is sorted by Morton code in index order. -/
theorem sortLeaves_sorted (leaves : List LeafRec) :
    ∀ p q, p ≤ q → q < (sortLeaves leaves).length →
      ((sortLeaves leaves).getD p (0, 0)).2 ≤
        ((sortLeaves leaves).getD q (0, 0)).2 := by
  intro p q hpq hq
  rcases Nat.eq_or_lt_of_le hpq with rfl | hlt
  · exact le_refl _
  · have hs : List.Sorted leafLE (sortLeaves leaves) :=
      List.sorted_insertionSort leafLE leaves
    have hp : p < (sortLeaves leaves).length := by omega
    have hrel := List.Sorted.rel_get_of_lt hs
      (show (⟨p, hp⟩ : Fin (sortLeaves leaves).length) < ⟨q, hq⟩ from
        Fin.mk_lt_mk.mpr hlt)
    rw [List.getD_eq_getElem?_getD, List.getElem?_eq_getElem hp,
      List.getD_eq_getElem?_getD, List.getElem?_eq_getElem hq]
    exact hrel

/-- Any BVH built from a mesh with 2 <= T < 2^31 triangles is traversed
without a stack overflow, on every ray, initial record and fuel (shared
helper: the bounds chain keeps the visit stack at 32 entries or fewer). -/
theorem built_no_overflow (m : MeshData) (hT2 : 2 ≤ triCount m)
    (hT31 : triCount m < 2 ^ 31) :
    ∀ bvh, buildLBVH m = some bvh →
      ∀ ray rec fuel, traverseChecked m bvh ray rec fuel ≠
        Except.error TravErr.stackOverflow := by
  intro bvh hb ray rec fuel
  obtain ⟨stF, hbe, hlen, hroot, hsub⟩ := buildLBVH_ok m hT2 hT31
  rw [hbe] at hb
  obtain rfl := Option.some.inj hb
  have hwfl := leavesWF_sorted m (meshBox m) (triCount m)
  have htree : TreeOK (sortLeaves (leafFill m (meshBox m) (triCount m)))
      (stF.nodes.map fun nd => { nd with
        box := nd.box.translate (meshBox m).mini })
      (u32 (stF.root * 2)) 0 (triCount m - 1) :=
    TreeOK_map_box _ _ (SubtreeOK_toTree m _ _ hsub)
  have hchain : ChainOK (sortLeaves (leafFill m (meshBox m) (triCount m)))
      (triCount m)
      (stF.nodes.map fun nd => { nd with
        box := nd.box.translate (meshBox m).mini })
      [stF.root] [30] := by
    refine ⟨rfl, ?_, ?_, ?_⟩
    · intro j hj
      simp only [List.length_cons, List.length_nil] at hj
      obtain rfl : j = 0 := by omega
      simp only [List.getD_cons_zero]
      refine ⟨⟨0, triCount m - 1, by omega, by omega, by omega, htree, ?_⟩,
        le_refl 30⟩
      intro p hp0 hp1
      exact deltaF_lt m (meshBox m) (triCount m) p
    · intro h
      simp only [List.length_cons, List.length_nil] at h
      omega
    · intro j hj1 hj2
      simp only [List.length_cons, List.length_nil] at hj2
      omega
  exact traverseLoop_no_overflow m
    (sortLeaves (leafFill m (meshBox m) (triCount m))) (triCount m)
    (stF.nodes.map fun nd => { nd with
      box := nd.box.translate (meshBox m).mini })
    ray hT31 (sortLeaves_sorted (leafFill m (meshBox m) (triCount m)))
    (le_of_eq hwfl.1.symm) hwfl.2 fuel [stF.root] [30] rec hchain

/-- C5: the visit stack holds at most 32 entries, so TraverseIterative never
writes past `visit_stack[64]`. For any mesh with 2 <= T < 2^31 triangles,
the model of the traversal never reports a stack overflow, on every ray,
initial record and fuel. -/
theorem C5_stack_bound (m : MeshData) (hT2 : 2 ≤ triCount m)
    (hT31 : triCount m < 2 ^ 31) :
    ∀ bvh, buildLBVH m = some bvh →
      ∀ ray rec fuel, traverseChecked m bvh ray rec fuel ≠
        Except.error TravErr.stackOverflow :=
  built_no_overflow m hT2 hT31

/-- C5 witness: on the two-triangle mesh, its built BVH, a concrete ray,
the cleared record and fuel 64 the traversal does not overflow. -/
theorem C5_witness :
    traverseChecked mesh2 ((buildLBVH mesh2).getD ⟨0, []⟩) rayC1
        ⟨false, rayC1.tmax, 0, 0, 0⟩ 64 ≠
      Except.error TravErr.stackOverflow :=
  C5_stack_bound mesh2 (by decide) (by decide)
    ((buildLBVH mesh2).getD ⟨0, []⟩) (by decide) rayC1
    ⟨false, rayC1.tmax, 0, 0, 0⟩ 64


/-- A successful push prepends the index (shared helper). -/
theorem pushStack_some {stack : List Nat} {idx : Nat} {stack1 : List Nat}
    (h : pushStack stack idx = some stack1) : stack1 = idx :: stack := by
  rw [pushStack] at h
  by_cases hl : stack.length < 64
  · rw [if_pos hl] at h
    exact (Option.some.inj h).symm
  · rw [if_neg hl] at h
    exact absurd h (by simp)

/-- The slab test passes for any box containing an acceptable triangle whose
hit distance is positive and strictly below the test length (generalizes the
fixed-tmax prune soundness to mid-traversal distance bounds). -/
theorem okFace_box_pass2 (m : MeshData) (ray : RayQ) (f : Nat) (b : AABBQ)
    (hdx : ray.dir.x ≠ 0) (hdy : ray.dir.y ≠ 0) (hdz : ray.dir.z ≠ 0)
    (hinv : ray.inv_dir = ⟨1 / ray.dir.x, 1 / ray.dir.y, 1 / ray.dir.z⟩)
    (hsub : boxSubset (triBoxRaw m f) b)
    (hok : okFace m ray f) (d : ℚ)
    (ht0 : 0 < tFace m ray f) (hlt : tFace m ray f < d) :
    b.intersectB ray.pos ray.inv_dir d = true := by
  obtain ⟨h1, h2, h3, h4, h5, h6, h7⟩ := hok
  have ht0x := ht0
  have hltx := hlt
  simp only [tFace] at ht0x hltx
  obtain ⟨px, py, pz⟩ := mt_point_identity ray.pos ray.dir (m.tv f 0)
    (m.tv f 1) (m.tv f 2) h1
  have hw : 0 ≤ 1 - mtU ray.pos ray.dir (m.tv f 0) (m.tv f 1) (m.tv f 2) -
      mtV ray.pos ray.dir (m.tv f 0) (m.tv f 1) (m.tv f 2) := by linarith
  have hbx := convex_bound _ _ _ _ _ _ h2 h4 hw px
  have hby := convex_bound _ _ _ _ _ _ h2 h4 hw py
  have hbz := convex_bound _ _ _ _ _ _ h2 h4 hw pz
  simp only [boxSubset, triBoxRaw, AABBQ.point, AABBQ.mergePoint, Vec3.vmin,
    Vec3.vmax, sMin_eq, sMax_eq] at hsub
  obtain ⟨s1, s2, s3, s4, s5, s6⟩ := hsub
  have hax := slab_axis b.mini.x b.maxi.x ray.pos.x ray.dir.x
    (mtT ray.pos ray.dir (m.tv f 0) (m.tv f 1) (m.tv f 2)) hdx
    (by linarith [hbx.1, hbx.2]) (by linarith [hbx.1, hbx.2])
  have hay := slab_axis b.mini.y b.maxi.y ray.pos.y ray.dir.y
    (mtT ray.pos ray.dir (m.tv f 0) (m.tv f 1) (m.tv f 2)) hdy
    (by linarith [hby.1, hby.2]) (by linarith [hby.1, hby.2])
  have haz := slab_axis b.mini.z b.maxi.z ray.pos.z ray.dir.z
    (mtT ray.pos ray.dir (m.tv f 0) (m.tv f 1) (m.tv f 2)) hdz
    (by linarith [hbz.1, hbz.2]) (by linarith [hbz.1, hbz.2])
  simp only [AABBQ.intersectB, hinv, max3, min3, sMax_eq, sMin_eq,
    Bool.and_eq_true, decide_eq_true_eq]
  have hen : max (max (((if 0 < 1 / ray.dir.x then b.mini.x else b.maxi.x) -
      ray.pos.x) * (1 / ray.dir.x))
      (((if 0 < 1 / ray.dir.y then b.mini.y else b.maxi.y) -
        ray.pos.y) * (1 / ray.dir.y)))
      (((if 0 < 1 / ray.dir.z then b.mini.z else b.maxi.z) -
        ray.pos.z) * (1 / ray.dir.z)) ≤
      mtT ray.pos ray.dir (m.tv f 0) (m.tv f 1) (m.tv f 2) :=
    max_le (max_le hax.1 hay.1) haz.1
  have hex : mtT ray.pos ray.dir (m.tv f 0) (m.tv f 1) (m.tv f 2) ≤
      min (min (((if 0 < 1 / ray.dir.x then b.maxi.x else b.mini.x) -
        ray.pos.x) * (1 / ray.dir.x))
        (((if 0 < 1 / ray.dir.y then b.maxi.y else b.mini.y) -
          ray.pos.y) * (1 / ray.dir.y)))
        (((if 0 < 1 / ray.dir.z then b.maxi.z else b.mini.z) -
          ray.pos.z) * (1 / ray.dir.z)) :=
    le_min (le_min hax.2 hay.2) haz.2
  refine ⟨⟨le_trans hen hex, ?_⟩, ?_⟩
  · calc (0 : ℚ) < mtT ray.pos ray.dir (m.tv f 0) (m.tv f 1) (m.tv f 2) := ht0x
      _ ≤ _ := hex
  · calc max (max _ _) _ ≤
        mtT ray.pos ray.dir (m.tv f 0) (m.tv f 1) (m.tv f 2) := hen
      _ < d := hltx

/-- A record already holding the strictly closest acceptable hit is a fixed
point of IsHit. -/
theorem isHit_best_fixed (m : MeshData) (ray : RayQ) (fs f : Nat)
    (hok : okFace m ray fs)
    (hcase : f = fs ∨ (okFace m ray f → tFace m ray fs ≤ tFace m ray f ∧
      tFace m ray f ≠ tFace m ray fs)) :
    isHit m ray ⟨true, tFace m ray fs, uFace m ray fs, vFace m ray fs, fs⟩ f =
      ⟨true, tFace m ray fs, uFace m ray fs, vFace m ray fs, fs⟩ := by
  rcases hcase with rfl | hcond
  · exact isHit_accept m ray _ f hok (le_refl _)
  · by_cases hf : okFace m ray f
    · obtain ⟨hle, hne⟩ := hcond hf
      apply isHit_skip
      rintro ⟨-, hfd⟩
      have hfd2 : tFace m ray f ≤ tFace m ray fs := hfd
      exact hne (le_antisymm hfd2 hle)
    · apply isHit_skip
      rintro ⟨hc, -⟩
      exact hf hc

/-- Testing a face other than the winner preserves the pre-winner record
invariant: the record is either still cleared or holds some acceptable
non-winning hit. -/
theorem isHit_pre_preserve (m : MeshData) (ray : RayQ) (T fs f : Nat)
    (hfT : f < T) (hne : f ≠ fs) (rec : HitRec)
    (hrec : rec = ⟨false, ray.tmax, 0, 0, 0⟩ ∨ ∃ g, g < T ∧ okFace m ray g ∧
      g ≠ fs ∧
      rec = ⟨true, tFace m ray g, uFace m ray g, vFace m ray g, g⟩) :
    isHit m ray rec f = ⟨false, ray.tmax, 0, 0, 0⟩ ∨ ∃ g, g < T ∧
      okFace m ray g ∧ g ≠ fs ∧
      isHit m ray rec f =
        ⟨true, tFace m ray g, uFace m ray g, vFace m ray g, g⟩ := by
  by_cases hacc : okFace m ray f ∧ tFace m ray f ≤ rec.dist
  · right
    exact ⟨f, hfT, hacc.1, hne, isHit_accept m ray rec f hacc.1 hacc.2⟩
  · rw [isHit_skip m ray rec f hacc]
    exact hrec

/-- The pre-winner record keeps a distance strictly above the winning
distance. -/
theorem pre_dist_gt (m : MeshData) (ray : RayQ) (T fs : Nat)
    (hok : okFace m ray fs)
    (hmin : ∀ g, g < T → okFace m ray g → tFace m ray fs ≤ tFace m ray g)
    (hnotie : ∀ g, g < T → okFace m ray g → tFace m ray g = tFace m ray fs →
      g = fs)
    (rec : HitRec)
    (hrec : rec = ⟨false, ray.tmax, 0, 0, 0⟩ ∨ ∃ g, g < T ∧ okFace m ray g ∧
      g ≠ fs ∧
      rec = ⟨true, tFace m ray g, uFace m ray g, vFace m ray g, g⟩) :
    tFace m ray fs < rec.dist := by
  rcases hrec with rfl | ⟨g, hgT, hgok, hgne, rfl⟩
  · exact hok.2.2.2.2.2.2
  · have h1 := hmin g hgT hgok
    rcases lt_or_eq_of_le h1 with h | h
    · exact h
    · exact absurd (hnotie g hgT hgok h.symm) hgne

/-- Folding IsHit over non-winning faces preserves the pre-winner record
invariant. -/
theorem foldl_pre_preserve (m : MeshData) (ray : RayQ) (T fs : Nat)
    (l : List Nat) :
    (∀ f ∈ l, f < T ∧ f ≠ fs) → ∀ rec : HitRec,
      (rec = ⟨false, ray.tmax, 0, 0, 0⟩ ∨ ∃ g, g < T ∧ okFace m ray g ∧
        g ≠ fs ∧
        rec = ⟨true, tFace m ray g, uFace m ray g, vFace m ray g, g⟩) →
      (l.foldl (fun r f => isHit m ray r f) rec =
          ⟨false, ray.tmax, 0, 0, 0⟩ ∨
        ∃ g, g < T ∧ okFace m ray g ∧ g ≠ fs ∧
          l.foldl (fun r f => isHit m ray r f) rec =
            ⟨true, tFace m ray g, uFace m ray g, vFace m ray g, g⟩) := by
  induction l with
  | nil =>
    intro h rec hrec
    simpa using hrec
  | cons f l ih =>
    intro h rec hrec
    simp only [List.foldl_cons]
    exact ih (fun x hx => h x (by simp [hx])) (isHit m ray rec f)
      (isHit_pre_preserve m ray T fs f (h f (by simp)).1 (h f (by simp)).2
        rec hrec)

/-- Folding IsHit over faces that cannot beat the winner leaves the winning
record unchanged. -/
theorem foldl_best_fixed (m : MeshData) (ray : RayQ) (fs : Nat)
    (hok : okFace m ray fs) (l : List Nat)
    (h : ∀ f ∈ l, f = fs ∨ (okFace m ray f → tFace m ray fs ≤ tFace m ray f ∧
      tFace m ray f ≠ tFace m ray fs)) :
    l.foldl (fun r f => isHit m ray r f)
        ⟨true, tFace m ray fs, uFace m ray fs, vFace m ray fs, fs⟩ =
      ⟨true, tFace m ray fs, uFace m ray fs, vFace m ray fs, fs⟩ := by
  induction l with
  | nil => rfl
  | cons f l ih =>
    simp only [List.foldl_cons]
    rw [isHit_best_fixed m ray fs f hok (h f (by simp))]
    exact ih (fun x hx => h x (by simp [hx]))

/-- Splitting the index range at the winner. -/
theorem range_split_at (T fs : Nat) (h : fs < T) :
    List.range T =
      List.range fs ++ fs :: List.range' (fs + 1) (T - (fs + 1)) := by
  have h1 : List.range' fs (T - fs) =
      fs :: List.range' (fs + 1) (T - (fs + 1)) := by
    have e : T - fs = (T - (fs + 1)) + 1 := by omega
    rw [e, List.range'_succ]
  calc List.range T = List.range' 0 T := List.range_eq_range' T
    _ = List.range' 0 fs ++ List.range' fs (T - fs) := by
        have h2 := List.range'_append 0 fs (T - fs) 1
        simp only [Nat.one_mul, Nat.zero_add] at h2
        rw [h2]
        congr 1
        omega
    _ = List.range fs ++ fs :: List.range' (fs + 1) (T - (fs + 1)) := by
        rw [← List.range_eq_range', h1]

/-- Brute force with no acceptable triangle returns the cleared record. -/
theorem bruteForce_none (m : MeshData) (ray : RayQ) (T : Nat)
    (hA : ∀ f, f < T → ¬okFace m ray f) :
    bruteForce m T ray ⟨false, ray.tmax, 0, 0, 0⟩ =
      ⟨false, ray.tmax, 0, 0, 0⟩ := by
  rw [bruteForce]
  have hgen : ∀ (l : List Nat), (∀ f ∈ l, ¬okFace m ray f) →
      l.foldl (fun r f => isHit m ray r f) ⟨false, ray.tmax, 0, 0, 0⟩ =
        ⟨false, ray.tmax, 0, 0, 0⟩ := by
    intro l
    induction l with
    | nil =>
      intro h
      rfl
    | cons f l ih =>
      intro h
      simp only [List.foldl_cons]
      rw [isHit_skip m ray _ f (fun hc => h f (by simp) hc.1)]
      exact ih (fun x hx => h x (by simp [hx]))
  exact hgen _ (fun f hf => hA f (List.mem_range.mp hf))

/-- Brute force computes exactly the unique closest acceptable hit. -/
theorem bruteForce_winner (m : MeshData) (ray : RayQ) (T fs : Nat)
    (hfsT : fs < T) (hok : okFace m ray fs)
    (hmin : ∀ g, g < T → okFace m ray g → tFace m ray fs ≤ tFace m ray g)
    (hnotie : ∀ g, g < T → okFace m ray g → tFace m ray g = tFace m ray fs →
      g = fs) :
    bruteForce m T ray ⟨false, ray.tmax, 0, 0, 0⟩ =
      ⟨true, tFace m ray fs, uFace m ray fs, vFace m ray fs, fs⟩ := by
  rw [bruteForce, range_split_at T fs hfsT, List.foldl_append]
  have hpre := foldl_pre_preserve m ray T fs (List.range fs)
    (fun f hf => ⟨by have := List.mem_range.mp hf; omega,
      by have := List.mem_range.mp hf; omega⟩)
    ⟨false, ray.tmax, 0, 0, 0⟩ (Or.inl rfl)
  simp only [List.foldl_cons]
  have hgt := pre_dist_gt m ray T fs hok hmin hnotie _ hpre
  rw [isHit_accept m ray _ fs hok (le_of_lt hgt)]
  apply foldl_best_fixed m ray fs hok
  intro f hf
  obtain ⟨i, hi, rfl⟩ := List.mem_range'.mp hf
  right
  intro hfok
  have hfT : fs + 1 + 1 * i < T := by omega
  refine ⟨hmin _ hfT hfok, fun he => ?_⟩
  have := hnotie _ hfT hfok he
  omega

/-- Distinct sorted-leaf positions hold distinct triangle references. -/
theorem leaves_fst_inj (m : MeshData) (box : AABBQ) (T : Nat)
    (p q : Nat) (hp : p < T) (hq : q < T)
    (heq : ((sortLeaves (leafFill m box T)).getD p (0, 0)).1 =
      ((sortLeaves (leafFill m box T)).getD q (0, 0)).1) : p = q := by
  have hlen := (leavesWF_sorted m box T).1
  have hnd : ((sortLeaves (leafFill m box T)).map Prod.fst).Nodup :=
    (leaves_fst_perm m box T).nodup_iff.mpr (List.nodup_range T)
  have hp2 : p < ((sortLeaves (leafFill m box T)).map Prod.fst).length := by
    simpa [hlen] using hp
  have hq2 : q < ((sortLeaves (leafFill m box T)).map Prod.fst).length := by
    simpa [hlen] using hq
  have hp3 : p < (sortLeaves (leafFill m box T)).length := by omega
  have hq3 : q < (sortLeaves (leafFill m box T)).length := by omega
  have hget : ((sortLeaves (leafFill m box T)).map Prod.fst).get ⟨p, hp2⟩ =
      ((sortLeaves (leafFill m box T)).map Prod.fst).get ⟨q, hq2⟩ := by
    simp only [List.get_eq_getElem, List.getElem_map]
    rw [List.getD_eq_getElem?_getD, List.getElem?_eq_getElem hp3,
      List.getD_eq_getElem?_getD, List.getElem?_eq_getElem hq3] at heq
    exact heq
  have h5 := (List.Nodup.get_inj_iff hnd).mp hget
  exact congrArg Fin.val h5

/-- Popping the stack preserves the per-entry validity of the remainder. -/
theorem entries_shift (m : MeshData) (leaves : List LeafRec) (gmini : Vec3)
    (nodes : List NodeM) (T : Nat) (i : Nat) (pr : Nat × Nat)
    (stack : List Nat) (ranges : List (Nat × Nat))
    (h : ∀ j, j < (i :: stack).length →
      ((pr :: ranges).getD j (0, 0)).1 < ((pr :: ranges).getD j (0, 0)).2 ∧
      ((pr :: ranges).getD j (0, 0)).2 ≤ T - 1 ∧
      ((i :: stack).getD j 0) * 2 < 2 ^ 32 ∧
      SubtreeOK m leaves gmini nodes (u32 (((i :: stack).getD j 0) * 2))
        ((pr :: ranges).getD j (0, 0)).1 ((pr :: ranges).getD j (0, 0)).2) :
    ∀ j, j < stack.length →
      (ranges.getD j (0, 0)).1 < (ranges.getD j (0, 0)).2 ∧
      (ranges.getD j (0, 0)).2 ≤ T - 1 ∧
      (stack.getD j 0) * 2 < 2 ^ 32 ∧
      SubtreeOK m leaves gmini nodes (u32 ((stack.getD j 0) * 2))
        (ranges.getD j (0, 0)).1 (ranges.getD j (0, 0)).2 := by
  intro j hj
  have h2 := h (j + 1) (by simp only [List.length_cons]; omega)
  simpa using h2

/-- Pushing a valid entry preserves the per-entry validity of the stack. -/
theorem entries_cons (m : MeshData) (leaves : List LeafRec) (gmini : Vec3)
    (nodes : List NodeM) (T : Nat) (i : Nat) (pr : Nat × Nat)
    (stack : List Nat) (ranges : List (Nat × Nat))
    (hhead : pr.1 < pr.2 ∧ pr.2 ≤ T - 1 ∧ i * 2 < 2 ^ 32 ∧
      SubtreeOK m leaves gmini nodes (u32 (i * 2)) pr.1 pr.2)
    (htail : ∀ j, j < stack.length →
      (ranges.getD j (0, 0)).1 < (ranges.getD j (0, 0)).2 ∧
      (ranges.getD j (0, 0)).2 ≤ T - 1 ∧
      (stack.getD j 0) * 2 < 2 ^ 32 ∧
      SubtreeOK m leaves gmini nodes (u32 ((stack.getD j 0) * 2))
        (ranges.getD j (0, 0)).1 (ranges.getD j (0, 0)).2) :
    ∀ j, j < (i :: stack).length →
      ((pr :: ranges).getD j (0, 0)).1 < ((pr :: ranges).getD j (0, 0)).2 ∧
      ((pr :: ranges).getD j (0, 0)).2 ≤ T - 1 ∧
      ((i :: stack).getD j 0) * 2 < 2 ^ 32 ∧
      SubtreeOK m leaves gmini nodes (u32 (((i :: stack).getD j 0) * 2))
        ((pr :: ranges).getD j (0, 0)).1 ((pr :: ranges).getD j (0, 0)).2 := by
  intro j hj
  cases j with
  | zero => simpa using hhead
  | succ j2 =>
    have h2 := htail j2 (by simp only [List.length_cons] at hj; omega)
    simpa using h2


/-- Traversal master run, winner case: from any stack of valid subtree
entries with enough fuel, a record that either precedes the winner (with the
winner still covered by the stack) or already equals the winning record, the
loop returns the winning record unless the stack overflows. -/
theorem traverse_winner (m : MeshData) (ray : RayQ) (leaves : List LeafRec)
    (gmini : Vec3) (nodes : List NodeM) (T : Nat)
    (hT31 : T < 2 ^ 31) (hlen : nodes.length = T - 1)
    (hwf : ∀ p, p < T → (leaves.getD p (0, 0)).1 < T)
    (hinj : ∀ p q, p < T → q < T → (leaves.getD p (0, 0)).1 =
      (leaves.getD q (0, 0)).1 → p = q)
    (hdx : ray.dir.x ≠ 0) (hdy : ray.dir.y ≠ 0) (hdz : ray.dir.z ≠ 0)
    (hinv : ray.inv_dir = ⟨1 / ray.dir.x, 1 / ray.dir.y, 1 / ray.dir.z⟩)
    (phat fs : Nat) (hphatT : phat < T)
    (hfs : (leaves.getD phat (0, 0)).1 = fs)
    (hok : okFace m ray fs)
    (hmin : ∀ g, g < T → okFace m ray g → tFace m ray fs ≤ tFace m ray g)
    (hnotie : ∀ g, g < T → okFace m ray g → tFace m ray g = tFace m ray fs →
      g = fs)
    (hpos : 0 < tFace m ray fs) :
    ∀ (fuel : Nat) (stack : List Nat) (ranges : List (Nat × Nat))
      (rec : HitRec),
      stack.length = ranges.length →
      (∀ j, j < stack.length →
        (ranges.getD j (0, 0)).1 < (ranges.getD j (0, 0)).2 ∧
        (ranges.getD j (0, 0)).2 ≤ T - 1 ∧
        (stack.getD j 0) * 2 < 2 ^ 32 ∧
        SubtreeOK m leaves gmini nodes (u32 ((stack.getD j 0) * 2))
          (ranges.getD j (0, 0)).1 (ranges.getD j (0, 0)).2) →
      (ranges.map fun pr => pr.2 - pr.1).sum + 1 ≤ fuel →
      (((∃ j, j < stack.length ∧ (ranges.getD j (0, 0)).1 ≤ phat ∧
          phat ≤ (ranges.getD j (0, 0)).2) ∧
        (rec = ⟨false, ray.tmax, 0, 0, 0⟩ ∨ ∃ g, g < T ∧ okFace m ray g ∧
          g ≠ fs ∧
          rec = ⟨true, tFace m ray g, uFace m ray g, vFace m ray g, g⟩)) ∨
        rec = ⟨true, tFace m ray fs, uFace m ray fs, vFace m ray fs, fs⟩) →
      (traverseLoop m (nodes.map fun nd => { nd with
          box := nd.box.translate gmini }) ray fuel stack rec =
        Except.ok ⟨true, tFace m ray fs, uFace m ray fs, vFace m ray fs,
          fs⟩ ∨
        traverseLoop m (nodes.map fun nd => { nd with
          box := nd.box.translate gmini }) ray fuel stack rec =
        Except.error TravErr.stackOverflow) := by
  intro fuel
  induction fuel with
  | zero =>
    intro stack ranges rec hlr hent hfu hinvr
    exact absurd hfu (by omega)
  | succ f ih =>
    intro stack ranges rec hlr hent hfu hinvr
    have habs : ∀ w, w < T → isHit m ray
        ⟨true, tFace m ray fs, uFace m ray fs, vFace m ray fs, fs⟩ w =
        ⟨true, tFace m ray fs, uFace m ray fs, vFace m ray fs, fs⟩ := by
      intro w hw
      rcases eq_or_ne w fs with rfl | hwne
      · exact isHit_best_fixed m ray _ _ hok (Or.inl rfl)
      · exact isHit_best_fixed m ray fs w hok (Or.inr (fun hokw =>
          ⟨hmin w hw hokw, fun he => hwne (hnotie w hw hokw he)⟩))
    cases stack with
    | nil =>
      rcases hinvr with ⟨⟨j, hj, -, -⟩, -⟩ | hbest
      · exact absurd hj (by simp)
      · left
        rw [hbest]
        simp [traverseLoop]
    | cons idx rest =>
      cases ranges with
      | nil => exact absurd hlr (by simp)
      | cons pr rrest =>
        obtain ⟨l, r⟩ := pr
        have hlr2 : rest.length = rrest.length := by
          simpa using hlr
        have hent0 := hent 0 (by simp)
        simp only [List.getD_cons_zero] at hent0
        obtain ⟨hlr0, hrT, hsm, hsub⟩ := hent0
        obtain ⟨s, hls, hsr, hencEq, hLc, hRc, hboxEq⟩ :=
          SubtreeOK_node_inv m leaves gmini hsub hlr0
        have hsx : s = idx := by
          have hs2 : s * 2 < 2 ^ 32 := by omega
          simp only [u32] at hencEq
          omega
        subst hsx
        have hsN : s < nodes.length := by omega
        have hsNT : s < (nodes.map fun nd => { nd with
            box := nd.box.translate gmini }).length := by
          simpa using hsN
        have hget1 : (nodes.map fun nd => { nd with
            box := nd.box.translate gmini }).get? s =
            some ((nodes.map fun nd => { nd with
              box := nd.box.translate gmini }).getD s node0) := by
          rw [List.get?_eq_getElem?, List.getElem?_eq_getElem hsNT,
            List.getD_eq_getElem?_getD, List.getElem?_eq_getElem hsNT]
          rfl
        have hnodeD := getD_map_box nodes gmini s hsN
        have hbxT : ((nodes.map fun nd => { nd with
            box := nd.box.translate gmini }).getD s node0).box =
            ((nodes.getD s node0).box).translate gmini := by
          rw [hnodeD]
        simp only [traverseLoop, hget1]
        have hshift := entries_shift m leaves gmini nodes T s (l, r) rest
          rrest hent
        cases hbox : ((nodes.map fun nd => { nd with
            box := nd.box.translate gmini }).getD s node0).box.intersectB
            ray.pos ray.inv_dir rec.dist with
        | false =>
          rw [if_pos (by simp [hbox])]
          have hfu2 : (rrest.map fun pr => pr.2 - pr.1).sum + 1 ≤ f := by
            simp only [List.map_cons, List.sum_cons] at hfu
            omega
          rcases hinvr with ⟨⟨j, hj, hcovl, hcovr⟩, hrec⟩ | hbest
          · by_cases hin : l ≤ phat ∧ phat ≤ r
            · exfalso
              have hgt := pre_dist_gt m ray T fs hok hmin hnotie rec hrec
              have hsubbox : boxSubset (triBoxRaw m fs)
                  (((nodes.map fun nd => { nd with
                    box := nd.box.translate gmini }).getD s node0).box) := by
                rw [hbxT, hboxEq]
                have h1 := rangeBox_contains m leaves gmini l phat r hin.1
                  hin.2
                have h2 := boxSubset_translate gmini h1
                rw [leafBox_translate_back, hfs] at h2
                exact h2
              have hpass := okFace_box_pass2 m ray fs _ hdx hdy hdz hinv
                hsubbox hok rec.dist hpos hgt
              rw [hbox] at hpass
              exact Bool.noConfusion hpass
            · obtain ⟨j2, rfl⟩ : ∃ j2, j = j2 + 1 := by
                cases j with
                | zero =>
                  exfalso
                  apply hin
                  simp only [List.getD_cons_zero] at hcovl hcovr
                  exact ⟨hcovl, hcovr⟩
                | succ j2 => exact ⟨j2, rfl⟩
              simp only [List.getD_cons_succ] at hcovl hcovr
              exact ih rest rrest rec hlr2 hshift hfu2
                (Or.inl ⟨⟨j2, by simp only [List.length_cons] at hj; omega,
                  hcovl, hcovr⟩, hrec⟩)
          · exact ih rest rrest rec hlr2 hshift hfu2 (Or.inr hbest)
        | true =>
          rw [if_neg (by simp)]
          rcases Nat.eq_or_lt_of_le hls with hleq | hllt
          · rcases Nat.eq_or_lt_of_le (show s + 1 ≤ r by omega) with
              hreq | hrlt
            · -- both children are leaves
              have hlT : l < T := by omega
              have hrT2 : r < T := by omega
              have hrefL : (leaves.getD l (0, 0)).1 < T := hwf l hlT
              have hrefR : (leaves.getD r (0, 0)).1 < T := hwf r hrT2
              have hLm : ((nodes.map fun nd => { nd with
                  box := nd.box.translate gmini }).getD s node0).L =
                  (leaves.getD l (0, 0)).1 * 2 + 1 := by
                rw [getD_map_box_L, SubtreeOK_leaf_inv m leaves gmini hLc hleq]
                simp only [u32]
                omega
              have hLodd : ((nodes.map fun nd => { nd with
                  box := nd.box.translate gmini }).getD s node0).L % 2 = 1 := by
                rw [hLm]
                omega
              have hLd : ((nodes.map fun nd => { nd with
                  box := nd.box.translate gmini }).getD s node0).L / 2 =
                  (leaves.getD l (0, 0)).1 := by
                rw [hLm]
                omega
              have hRleaf := SubtreeOK_leaf_inv m leaves gmini hRc hreq
              rw [hreq] at hRleaf
              have hRm : ((nodes.map fun nd => { nd with
                  box := nd.box.translate gmini }).getD s node0).R =
                  (leaves.getD r (0, 0)).1 * 2 + 1 := by
                rw [getD_map_box_R, hRleaf]
                simp only [u32]
                omega
              have hRodd : ((nodes.map fun nd => { nd with
                  box := nd.box.translate gmini }).getD s node0).R % 2 = 1 := by
                rw [hRm]
                omega
              have hRd : ((nodes.map fun nd => { nd with
                  box := nd.box.translate gmini }).getD s node0).R / 2 =
                  (leaves.getD r (0, 0)).1 := by
                rw [hRm]
                omega
              rw [if_pos hLodd, if_pos hRodd, hLd, hRd]
              have hfu2 : (rrest.map fun pr => pr.2 - pr.1).sum + 1 ≤ f := by
                simp only [List.map_cons, List.sum_cons] at hfu
                omega
              rcases hinvr with ⟨⟨j, hj, hcovl, hcovr⟩, hrec⟩ | hbest
              · by_cases hin : l ≤ phat ∧ phat ≤ r
                · have hgt := pre_dist_gt m ray T fs hok hmin hnotie rec hrec
                  rcases (show phat = l ∨ phat = r by omega) with hpl | hpr
                  · have hfl : (leaves.getD l (0, 0)).1 = fs := by
                      rw [← hpl]
                      exact hfs
                    have hner : (leaves.getD r (0, 0)).1 ≠ fs := by
                      intro he
                      have h8 := hinj r phat hrT2 hphatT (by rw [he, hfs])
                      omega
                    rw [hfl, isHit_accept m ray rec fs hok (le_of_lt hgt),
                      isHit_best_fixed m ray fs ((leaves.getD r (0, 0)).1) hok
                        (Or.inr (fun hokr => ⟨hmin _ hrefR hokr,
                          fun he => hner (hnotie _ hrefR hokr he)⟩))]
                    exact ih rest rrest _ hlr2 hshift hfu2 (Or.inr rfl)
                  · have hfr : (leaves.getD r (0, 0)).1 = fs := by
                      rw [← hpr]
                      exact hfs
                    have hnel : (leaves.getD l (0, 0)).1 ≠ fs := by
                      intro he
                      have h8 := hinj l phat hlT hphatT (by rw [he, hfs])
                      omega
                    have hrec1 := isHit_pre_preserve m ray T fs _ hrefL hnel
                      rec hrec
                    have hgt1 := pre_dist_gt m ray T fs hok hmin hnotie _ hrec1
                    rw [hfr, isHit_accept m ray _ fs hok (le_of_lt hgt1)]
                    exact ih rest rrest _ hlr2 hshift hfu2 (Or.inr rfl)
                · have hnel : (leaves.getD l (0, 0)).1 ≠ fs := by
                    intro he
                    have h8 := hinj l phat hlT hphatT (by rw [he, hfs])
                    omega
                  have hner : (leaves.getD r (0, 0)).1 ≠ fs := by
                    intro he
                    have h8 := hinj r phat hrT2 hphatT (by rw [he, hfs])
                    omega
                  obtain ⟨j2, rfl⟩ : ∃ j2, j = j2 + 1 := by
                    cases j with
                    | zero =>
                      exfalso
                      apply hin
                      simp only [List.getD_cons_zero] at hcovl hcovr
                      exact ⟨hcovl, hcovr⟩
                    | succ j2 => exact ⟨j2, rfl⟩
                  simp only [List.getD_cons_succ] at hcovl hcovr
                  have hrec1 := isHit_pre_preserve m ray T fs _ hrefL hnel
                    rec hrec
                  have hrec2 := isHit_pre_preserve m ray T fs _ hrefR hner
                    _ hrec1
                  exact ih rest rrest _ hlr2 hshift hfu2
                    (Or.inl ⟨⟨j2,
                      by simp only [List.length_cons] at hj; omega,
                      hcovl, hcovr⟩, hrec2⟩)
              · rw [hbest, habs _ hrefL, habs _ hrefR]
                exact ih rest rrest _ hlr2 hshift hfu2 (Or.inr rfl)
            · -- left child leaf, right child internal
              have hlT : l < T := by omega
              have hrefL : (leaves.getD l (0, 0)).1 < T := hwf l hlT
              have hLm : ((nodes.map fun nd => { nd with
                  box := nd.box.translate gmini }).getD s node0).L =
                  (leaves.getD l (0, 0)).1 * 2 + 1 := by
                rw [getD_map_box_L, SubtreeOK_leaf_inv m leaves gmini hLc hleq]
                simp only [u32]
                omega
              have hLodd : ((nodes.map fun nd => { nd with
                  box := nd.box.translate gmini }).getD s node0).L % 2 = 1 := by
                rw [hLm]
                omega
              have hLd : ((nodes.map fun nd => { nd with
                  box := nd.box.translate gmini }).getD s node0).L / 2 =
                  (leaves.getD l (0, 0)).1 := by
                rw [hLm]
                omega
              obtain ⟨sR, hsR1, hsR2, hRencEq, hRLc, hRRc, hRboxEq⟩ :=
                SubtreeOK_node_inv m leaves gmini hRc hrlt
              have hRm : ((nodes.map fun nd => { nd with
                  box := nd.box.translate gmini }).getD s node0).R =
                  sR * 2 := by
                rw [getD_map_box_R, hRencEq]
                simp only [u32]
                omega
              have hReven : ¬(((nodes.map fun nd => { nd with
                  box := nd.box.translate gmini }).getD s node0).R % 2 = 1) := by
                rw [hRm]
                omega
              have hRd : ((nodes.map fun nd => { nd with
                  box := nd.box.translate gmini }).getD s node0).R / 2 =
                  sR := by
                rw [hRm]
                omega
              rw [if_pos hLodd, if_neg hReven, hRd]
              cases hpush : pushStack rest sR with
              | none =>
                right
                simp only [hpush]
              | some stack1 =>
                obtain rfl := pushStack_some hpush
                simp only [hpush]
                rw [hLd]
                have hcons := entries_cons m leaves gmini nodes T sR (s + 1, r)
                  rest rrest ⟨hrlt, hrT, by omega,
                    by rw [← hRencEq]; exact hRc⟩ hshift
                have hlen1 : (sR :: rest).length =
                    ((s + 1, r) :: rrest).length := by
                  simp [hlr2]
                have hfu2 : (((s + 1, r) :: rrest).map fun pr =>
                    pr.2 - pr.1).sum + 1 ≤ f := by
                  simp only [List.map_cons, List.sum_cons] at hfu ⊢
                  omega
                rcases hinvr with ⟨⟨j, hj, hcovl, hcovr⟩, hrec⟩ | hbest
                · by_cases hin : l ≤ phat ∧ phat ≤ r
                  · rcases (show phat = l ∨ (s + 1 ≤ phat ∧ phat ≤ r)
                        by omega) with hpl | hpin
                    · have hfl : (leaves.getD l (0, 0)).1 = fs := by
                        rw [← hpl]
                        exact hfs
                      have hgt := pre_dist_gt m ray T fs hok hmin hnotie rec
                        hrec
                      rw [hfl, isHit_accept m ray rec fs hok (le_of_lt hgt)]
                      exact ih (sR :: rest) ((s + 1, r) :: rrest) _ hlen1
                        hcons hfu2 (Or.inr rfl)
                    · have hnel : (leaves.getD l (0, 0)).1 ≠ fs := by
                        intro he
                        have h8 := hinj l phat hlT hphatT (by rw [he, hfs])
                        omega
                      have hrec1 := isHit_pre_preserve m ray T fs _ hrefL hnel
                        rec hrec
                      exact ih (sR :: rest) ((s + 1, r) :: rrest) _ hlen1
                        hcons hfu2 (Or.inl ⟨⟨0, by simp,
                          by simpa using hpin.1, by simpa using hpin.2⟩,
                          hrec1⟩)
                  · have hnel : (leaves.getD l (0, 0)).1 ≠ fs := by
                      intro he
                      have h8 := hinj l phat hlT hphatT (by rw [he, hfs])
                      omega
                    obtain ⟨j2, rfl⟩ : ∃ j2, j = j2 + 1 := by
                      cases j with
                      | zero =>
                        exfalso
                        apply hin
                        simp only [List.getD_cons_zero] at hcovl hcovr
                        exact ⟨hcovl, hcovr⟩
                      | succ j2 => exact ⟨j2, rfl⟩
                    simp only [List.getD_cons_succ] at hcovl hcovr
                    have hrec1 := isHit_pre_preserve m ray T fs _ hrefL hnel
                      rec hrec
                    exact ih (sR :: rest) ((s + 1, r) :: rrest) _ hlen1 hcons
                      hfu2 (Or.inl ⟨⟨j2 + 1,
                        by simp only [List.length_cons] at hj ⊢; omega,
                        by simpa using hcovl, by simpa using hcovr⟩, hrec1⟩)
                · rw [hbest, habs _ hrefL]
                  exact ih (sR :: rest) ((s + 1, r) :: rrest) _ hlen1 hcons
                    hfu2 (Or.inr rfl)
          · rcases Nat.eq_or_lt_of_le (show s + 1 ≤ r by omega) with
              hreq | hrlt
            · -- left child internal, right child leaf
              have hrT2 : r < T := by omega
              have hrefR : (leaves.getD r (0, 0)).1 < T := hwf r hrT2
              obtain ⟨sL, hsL1, hsL2, hLencEq, hLLc, hLRc, hLboxEq⟩ :=
                SubtreeOK_node_inv m leaves gmini hLc hllt
              have hLm : ((nodes.map fun nd => { nd with
                  box := nd.box.translate gmini }).getD s node0).L =
                  sL * 2 := by
                rw [getD_map_box_L, hLencEq]
                simp only [u32]
                omega
              have hLeven : ¬(((nodes.map fun nd => { nd with
                  box := nd.box.translate gmini }).getD s node0).L % 2 = 1) := by
                rw [hLm]
                omega
              have hLd : ((nodes.map fun nd => { nd with
                  box := nd.box.translate gmini }).getD s node0).L / 2 =
                  sL := by
                rw [hLm]
                omega
              have hRleaf := SubtreeOK_leaf_inv m leaves gmini hRc hreq
              rw [hreq] at hRleaf
              have hRm : ((nodes.map fun nd => { nd with
                  box := nd.box.translate gmini }).getD s node0).R =
                  (leaves.getD r (0, 0)).1 * 2 + 1 := by
                rw [getD_map_box_R, hRleaf]
                simp only [u32]
                omega
              have hRodd : ((nodes.map fun nd => { nd with
                  box := nd.box.translate gmini }).getD s node0).R % 2 = 1 := by
                rw [hRm]
                omega
              have hRd : ((nodes.map fun nd => { nd with
                  box := nd.box.translate gmini }).getD s node0).R / 2 =
                  (leaves.getD r (0, 0)).1 := by
                rw [hRm]
                omega
              rw [if_neg hLeven, hLd]
              cases hpush : pushStack rest sL with
              | none =>
                right
                simp only [hpush]
              | some stack1 =>
                obtain rfl := pushStack_some hpush
                simp only [hpush]
                rw [if_pos hRodd, hRd]
                have hcons := entries_cons m leaves gmini nodes T sL (l, s)
                  rest rrest ⟨hllt, by omega, by omega,
                    by rw [← hLencEq]; exact hLc⟩ hshift
                have hlen1 : (sL :: rest).length =
                    ((l, s) :: rrest).length := by
                  simp [hlr2]
                have hfu2 : (((l, s) :: rrest).map fun pr =>
                    pr.2 - pr.1).sum + 1 ≤ f := by
                  simp only [List.map_cons, List.sum_cons] at hfu ⊢
                  omega
                rcases hinvr with ⟨⟨j, hj, hcovl, hcovr⟩, hrec⟩ | hbest
                · by_cases hin : l ≤ phat ∧ phat ≤ r
                  · rcases (show phat = r ∨ (l ≤ phat ∧ phat ≤ s)
                        by omega) with hpr | hpin
                    · have hfr : (leaves.getD r (0, 0)).1 = fs := by
                        rw [← hpr]
                        exact hfs
                      have hgt := pre_dist_gt m ray T fs hok hmin hnotie rec
                        hrec
                      rw [hfr, isHit_accept m ray rec fs hok (le_of_lt hgt)]
                      exact ih (sL :: rest) ((l, s) :: rrest) _ hlen1
                        hcons hfu2 (Or.inr rfl)
                    · have hner : (leaves.getD r (0, 0)).1 ≠ fs := by
                        intro he
                        have h8 := hinj r phat hrT2 hphatT (by rw [he, hfs])
                        omega
                      have hrec1 := isHit_pre_preserve m ray T fs _ hrefR hner
                        rec hrec
                      exact ih (sL :: rest) ((l, s) :: rrest) _ hlen1
                        hcons hfu2 (Or.inl ⟨⟨0, by simp,
                          by simpa using hpin.1, by simpa using hpin.2⟩,
                          hrec1⟩)
                  · have hner : (leaves.getD r (0, 0)).1 ≠ fs := by
                      intro he
                      have h8 := hinj r phat hrT2 hphatT (by rw [he, hfs])
                      omega
                    obtain ⟨j2, rfl⟩ : ∃ j2, j = j2 + 1 := by
                      cases j with
                      | zero =>
                        exfalso
                        apply hin
                        simp only [List.getD_cons_zero] at hcovl hcovr
                        exact ⟨hcovl, hcovr⟩
                      | succ j2 => exact ⟨j2, rfl⟩
                    simp only [List.getD_cons_succ] at hcovl hcovr
                    have hrec1 := isHit_pre_preserve m ray T fs _ hrefR hner
                      rec hrec
                    exact ih (sL :: rest) ((l, s) :: rrest) _ hlen1 hcons
                      hfu2 (Or.inl ⟨⟨j2 + 1,
                        by simp only [List.length_cons] at hj ⊢; omega,
                        by simpa using hcovl, by simpa using hcovr⟩, hrec1⟩)
                · rw [hbest, habs _ hrefR]
                  exact ih (sL :: rest) ((l, s) :: rrest) _ hlen1 hcons
                    hfu2 (Or.inr rfl)
            · -- both children internal
              obtain ⟨sL, hsL1, hsL2, hLencEq, hLLc, hLRc, hLboxEq⟩ :=
                SubtreeOK_node_inv m leaves gmini hLc hllt
              obtain ⟨sR, hsR1, hsR2, hRencEq, hRLc, hRRc, hRboxEq⟩ :=
                SubtreeOK_node_inv m leaves gmini hRc hrlt
              have hLm : ((nodes.map fun nd => { nd with
                  box := nd.box.translate gmini }).getD s node0).L =
                  sL * 2 := by
                rw [getD_map_box_L, hLencEq]
                simp only [u32]
                omega
              have hLeven : ¬(((nodes.map fun nd => { nd with
                  box := nd.box.translate gmini }).getD s node0).L % 2 = 1) := by
                rw [hLm]
                omega
              have hLd : ((nodes.map fun nd => { nd with
                  box := nd.box.translate gmini }).getD s node0).L / 2 =
                  sL := by
                rw [hLm]
                omega
              have hRm : ((nodes.map fun nd => { nd with
                  box := nd.box.translate gmini }).getD s node0).R =
                  sR * 2 := by
                rw [getD_map_box_R, hRencEq]
                simp only [u32]
                omega
              have hReven : ¬(((nodes.map fun nd => { nd with
                  box := nd.box.translate gmini }).getD s node0).R % 2 = 1) := by
                rw [hRm]
                omega
              have hRd : ((nodes.map fun nd => { nd with
                  box := nd.box.translate gmini }).getD s node0).R / 2 =
                  sR := by
                rw [hRm]
                omega
              rw [if_neg hLeven, hLd]
              cases hpush1 : pushStack rest sL with
              | none =>
                right
                simp only [hpush1]
              | some stack1 =>
                obtain rfl := pushStack_some hpush1
                simp only [hpush1]
                rw [if_neg hReven, hRd]
                cases hpush2 : pushStack (sL :: rest) sR with
                | none =>
                  right
                  simp only [hpush2]
                | some stack2 =>
                  obtain rfl := pushStack_some hpush2
                  simp only [hpush2]
                  have hconsL := entries_cons m leaves gmini nodes T sL (l, s)
                    rest rrest ⟨hllt, by omega, by omega,
                      by rw [← hLencEq]; exact hLc⟩ hshift
                  have hconsR := entries_cons m leaves gmini nodes T sR
                    (s + 1, r) (sL :: rest) ((l, s) :: rrest)
                    ⟨hrlt, hrT, by omega, by rw [← hRencEq]; exact hRc⟩ hconsL
                  have hlen2 : (sR :: sL :: rest).length =
                      ((s + 1, r) :: (l, s) :: rrest).length := by
                    simp [hlr2]
                  have hfu2 : (((s + 1, r) :: (l, s) :: rrest).map fun pr =>
                      pr.2 - pr.1).sum + 1 ≤ f := by
                    simp only [List.map_cons, List.sum_cons] at hfu ⊢
                    omega
                  rcases hinvr with ⟨⟨j, hj, hcovl, hcovr⟩, hrec⟩ | hbest
                  · by_cases hin : l ≤ phat ∧ phat ≤ r
                    · rcases (show (l ≤ phat ∧ phat ≤ s) ∨
                          (s + 1 ≤ phat ∧ phat ≤ r) by omega) with hp1 | hp2
                      · exact ih (sR :: sL :: rest)
                          ((s + 1, r) :: (l, s) :: rrest) rec hlen2 hconsR
                          hfu2 (Or.inl ⟨⟨1, by simp,
                            by simpa using hp1.1, by simpa using hp1.2⟩,
                            hrec⟩)
                      · exact ih (sR :: sL :: rest)
                          ((s + 1, r) :: (l, s) :: rrest) rec hlen2 hconsR
                          hfu2 (Or.inl ⟨⟨0, by simp,
                            by simpa using hp2.1, by simpa using hp2.2⟩,
                            hrec⟩)
                    · obtain ⟨j2, rfl⟩ : ∃ j2, j = j2 + 1 := by
                        cases j with
                        | zero =>
                          exfalso
                          apply hin
                          simp only [List.getD_cons_zero] at hcovl hcovr
                          exact ⟨hcovl, hcovr⟩
                        | succ j2 => exact ⟨j2, rfl⟩
                      simp only [List.getD_cons_succ] at hcovl hcovr
                      exact ih (sR :: sL :: rest)
                        ((s + 1, r) :: (l, s) :: rrest) rec hlen2 hconsR hfu2
                        (Or.inl ⟨⟨j2 + 2,
                          by simp only [List.length_cons] at hj ⊢; omega,
                          by simpa using hcovl, by simpa using hcovr⟩, hrec⟩)
                  · exact ih (sR :: sL :: rest)
                      ((s + 1, r) :: (l, s) :: rrest) rec hlen2 hconsR hfu2
                      (Or.inr hbest)


/-- Traversal master run, no-hit case: when no triangle is acceptable, the
loop returns the cleared record unless the stack overflows. -/
theorem traverse_none (m : MeshData) (ray : RayQ) (leaves : List LeafRec)
    (gmini : Vec3) (nodes : List NodeM) (T : Nat)
    (hT31 : T < 2 ^ 31) (hlen : nodes.length = T - 1)
    (hwf : ∀ p, p < T → (leaves.getD p (0, 0)).1 < T)
    (hA : ∀ g, g < T → ¬okFace m ray g) :
    ∀ (fuel : Nat) (stack : List Nat) (ranges : List (Nat × Nat)),
      stack.length = ranges.length →
      (∀ j, j < stack.length →
        (ranges.getD j (0, 0)).1 < (ranges.getD j (0, 0)).2 ∧
        (ranges.getD j (0, 0)).2 ≤ T - 1 ∧
        (stack.getD j 0) * 2 < 2 ^ 32 ∧
        SubtreeOK m leaves gmini nodes (u32 ((stack.getD j 0) * 2))
          (ranges.getD j (0, 0)).1 (ranges.getD j (0, 0)).2) →
      (ranges.map fun pr => pr.2 - pr.1).sum + 1 ≤ fuel →
      (traverseLoop m (nodes.map fun nd => { nd with
          box := nd.box.translate gmini }) ray fuel stack
          ⟨false, ray.tmax, 0, 0, 0⟩ =
        Except.ok ⟨false, ray.tmax, 0, 0, 0⟩ ∨
        traverseLoop m (nodes.map fun nd => { nd with
          box := nd.box.translate gmini }) ray fuel stack
          ⟨false, ray.tmax, 0, 0, 0⟩ =
        Except.error TravErr.stackOverflow) := by
  intro fuel
  induction fuel with
  | zero =>
    intro stack ranges hlr hent hfu
    exact absurd hfu (by omega)
  | succ f ih =>
    intro stack ranges hlr hent hfu
    have hskip : ∀ w, w < T →
        isHit m ray ⟨false, ray.tmax, 0, 0, 0⟩ w =
          ⟨false, ray.tmax, 0, 0, 0⟩ := by
      intro w hw
      exact isHit_skip m ray _ w (fun hc => hA w hw hc.1)
    cases stack with
    | nil =>
      left
      simp [traverseLoop]
    | cons idx rest =>
      cases ranges with
      | nil => exact absurd hlr (by simp)
      | cons pr rrest =>
        obtain ⟨l, r⟩ := pr
        have hlr2 : rest.length = rrest.length := by
          simpa using hlr
        have hent0 := hent 0 (by simp)
        simp only [List.getD_cons_zero] at hent0
        obtain ⟨hlr0, hrT, hsm, hsub⟩ := hent0
        obtain ⟨s, hls, hsr, hencEq, hLc, hRc, hboxEq⟩ :=
          SubtreeOK_node_inv m leaves gmini hsub hlr0
        have hsx : s = idx := by
          have hs2 : s * 2 < 2 ^ 32 := by omega
          simp only [u32] at hencEq
          omega
        subst hsx
        have hsN : s < nodes.length := by omega
        have hsNT : s < (nodes.map fun nd => { nd with
            box := nd.box.translate gmini }).length := by
          simpa using hsN
        have hget1 : (nodes.map fun nd => { nd with
            box := nd.box.translate gmini }).get? s =
            some ((nodes.map fun nd => { nd with
              box := nd.box.translate gmini }).getD s node0) := by
          rw [List.get?_eq_getElem?, List.getElem?_eq_getElem hsNT,
            List.getD_eq_getElem?_getD, List.getElem?_eq_getElem hsNT]
          rfl
        simp only [traverseLoop, hget1]
        have hshift := entries_shift m leaves gmini nodes T s (l, r) rest
          rrest hent
        cases hbox : ((nodes.map fun nd => { nd with
            box := nd.box.translate gmini }).getD s node0).box.intersectB
            ray.pos ray.inv_dir
            ((⟨false, ray.tmax, 0, 0, 0⟩ : HitRec).dist) with
        | false =>
          rw [if_pos (by simp [hbox])]
          have hfu2 : (rrest.map fun pr => pr.2 - pr.1).sum + 1 ≤ f := by
            simp only [List.map_cons, List.sum_cons] at hfu
            omega
          exact ih rest rrest hlr2 hshift hfu2
        | true =>
          rw [if_neg (by simp)]
          rcases Nat.eq_or_lt_of_le hls with hleq | hllt
          · rcases Nat.eq_or_lt_of_le (show s + 1 ≤ r by omega) with
              hreq | hrlt
            · -- both children are leaves
              have hrefL : (leaves.getD l (0, 0)).1 < T := hwf l (by omega)
              have hrefR : (leaves.getD r (0, 0)).1 < T := hwf r (by omega)
              have hLm : ((nodes.map fun nd => { nd with
                  box := nd.box.translate gmini }).getD s node0).L =
                  (leaves.getD l (0, 0)).1 * 2 + 1 := by
                rw [getD_map_box_L, SubtreeOK_leaf_inv m leaves gmini hLc hleq]
                simp only [u32]
                omega
              have hLodd : ((nodes.map fun nd => { nd with
                  box := nd.box.translate gmini }).getD s node0).L % 2 = 1 := by
                rw [hLm]
                omega
              have hLd : ((nodes.map fun nd => { nd with
                  box := nd.box.translate gmini }).getD s node0).L / 2 =
                  (leaves.getD l (0, 0)).1 := by
                rw [hLm]
                omega
              have hRleaf := SubtreeOK_leaf_inv m leaves gmini hRc hreq
              rw [hreq] at hRleaf
              have hRm : ((nodes.map fun nd => { nd with
                  box := nd.box.translate gmini }).getD s node0).R =
                  (leaves.getD r (0, 0)).1 * 2 + 1 := by
                rw [getD_map_box_R, hRleaf]
                simp only [u32]
                omega
              have hRodd : ((nodes.map fun nd => { nd with
                  box := nd.box.translate gmini }).getD s node0).R % 2 = 1 := by
                rw [hRm]
                omega
              have hRd : ((nodes.map fun nd => { nd with
                  box := nd.box.translate gmini }).getD s node0).R / 2 =
                  (leaves.getD r (0, 0)).1 := by
                rw [hRm]
                omega
              rw [if_pos hLodd, if_pos hRodd, hLd, hRd,
                hskip _ hrefL, hskip _ hrefR]
              have hfu2 : (rrest.map fun pr => pr.2 - pr.1).sum + 1 ≤ f := by
                simp only [List.map_cons, List.sum_cons] at hfu
                omega
              exact ih rest rrest hlr2 hshift hfu2
            · -- left child leaf, right child internal
              have hrefL : (leaves.getD l (0, 0)).1 < T := hwf l (by omega)
              have hLm : ((nodes.map fun nd => { nd with
                  box := nd.box.translate gmini }).getD s node0).L =
                  (leaves.getD l (0, 0)).1 * 2 + 1 := by
                rw [getD_map_box_L, SubtreeOK_leaf_inv m leaves gmini hLc hleq]
                simp only [u32]
                omega
              have hLodd : ((nodes.map fun nd => { nd with
                  box := nd.box.translate gmini }).getD s node0).L % 2 = 1 := by
                rw [hLm]
                omega
              have hLd : ((nodes.map fun nd => { nd with
                  box := nd.box.translate gmini }).getD s node0).L / 2 =
                  (leaves.getD l (0, 0)).1 := by
                rw [hLm]
                omega
              obtain ⟨sR, hsR1, hsR2, hRencEq, hRLc, hRRc, hRboxEq⟩ :=
                SubtreeOK_node_inv m leaves gmini hRc hrlt
              have hRm : ((nodes.map fun nd => { nd with
                  box := nd.box.translate gmini }).getD s node0).R =
                  sR * 2 := by
                rw [getD_map_box_R, hRencEq]
                simp only [u32]
                omega
              have hReven : ¬(((nodes.map fun nd => { nd with
                  box := nd.box.translate gmini }).getD s node0).R % 2 = 1) := by
                rw [hRm]
                omega
              have hRd : ((nodes.map fun nd => { nd with
                  box := nd.box.translate gmini }).getD s node0).R / 2 =
                  sR := by
                rw [hRm]
                omega
              rw [if_pos hLodd, if_neg hReven, hRd]
              cases hpush : pushStack rest sR with
              | none =>
                right
                simp only [hpush]
              | some stack1 =>
                obtain rfl := pushStack_some hpush
                simp only [hpush]
                rw [hLd, hskip _ hrefL]
                have hcons := entries_cons m leaves gmini nodes T sR (s + 1, r)
                  rest rrest ⟨hrlt, hrT, by omega,
                    by rw [← hRencEq]; exact hRc⟩ hshift
                have hfu2 : (((s + 1, r) :: rrest).map fun pr =>
                    pr.2 - pr.1).sum + 1 ≤ f := by
                  simp only [List.map_cons, List.sum_cons] at hfu ⊢
                  omega
                exact ih (sR :: rest) ((s + 1, r) :: rrest)
                  (by simp [hlr2]) hcons hfu2
          · rcases Nat.eq_or_lt_of_le (show s + 1 ≤ r by omega) with
              hreq | hrlt
            · -- left child internal, right child leaf
              have hrefR : (leaves.getD r (0, 0)).1 < T := hwf r (by omega)
              obtain ⟨sL, hsL1, hsL2, hLencEq, hLLc, hLRc, hLboxEq⟩ :=
                SubtreeOK_node_inv m leaves gmini hLc hllt
              have hLm : ((nodes.map fun nd => { nd with
                  box := nd.box.translate gmini }).getD s node0).L =
                  sL * 2 := by
                rw [getD_map_box_L, hLencEq]
                simp only [u32]
                omega
              have hLeven : ¬(((nodes.map fun nd => { nd with
                  box := nd.box.translate gmini }).getD s node0).L % 2 = 1) := by
                rw [hLm]
                omega
              have hLd : ((nodes.map fun nd => { nd with
                  box := nd.box.translate gmini }).getD s node0).L / 2 =
                  sL := by
                rw [hLm]
                omega
              have hRleaf := SubtreeOK_leaf_inv m leaves gmini hRc hreq
              rw [hreq] at hRleaf
              have hRm : ((nodes.map fun nd => { nd with
                  box := nd.box.translate gmini }).getD s node0).R =
                  (leaves.getD r (0, 0)).1 * 2 + 1 := by
                rw [getD_map_box_R, hRleaf]
                simp only [u32]
                omega
              have hRodd : ((nodes.map fun nd => { nd with
                  box := nd.box.translate gmini }).getD s node0).R % 2 = 1 := by
                rw [hRm]
                omega
              have hRd : ((nodes.map fun nd => { nd with
                  box := nd.box.translate gmini }).getD s node0).R / 2 =
                  (leaves.getD r (0, 0)).1 := by
                rw [hRm]
                omega
              rw [if_neg hLeven, hLd]
              cases hpush : pushStack rest sL with
              | none =>
                right
                simp only [hpush]
              | some stack1 =>
                obtain rfl := pushStack_some hpush
                simp only [hpush]
                rw [if_pos hRodd, hRd, hskip _ hrefR]
                have hcons := entries_cons m leaves gmini nodes T sL (l, s)
                  rest rrest ⟨hllt, by omega, by omega,
                    by rw [← hLencEq]; exact hLc⟩ hshift
                have hfu2 : (((l, s) :: rrest).map fun pr =>
                    pr.2 - pr.1).sum + 1 ≤ f := by
                  simp only [List.map_cons, List.sum_cons] at hfu ⊢
                  omega
                exact ih (sL :: rest) ((l, s) :: rrest)
                  (by simp [hlr2]) hcons hfu2
            · -- both children internal
              obtain ⟨sL, hsL1, hsL2, hLencEq, hLLc, hLRc, hLboxEq⟩ :=
                SubtreeOK_node_inv m leaves gmini hLc hllt
              obtain ⟨sR, hsR1, hsR2, hRencEq, hRLc, hRRc, hRboxEq⟩ :=
                SubtreeOK_node_inv m leaves gmini hRc hrlt
              have hLm : ((nodes.map fun nd => { nd with
                  box := nd.box.translate gmini }).getD s node0).L =
                  sL * 2 := by
                rw [getD_map_box_L, hLencEq]
                simp only [u32]
                omega
              have hLeven : ¬(((nodes.map fun nd => { nd with
                  box := nd.box.translate gmini }).getD s node0).L % 2 = 1) := by
                rw [hLm]
                omega
              have hLd : ((nodes.map fun nd => { nd with
                  box := nd.box.translate gmini }).getD s node0).L / 2 =
                  sL := by
                rw [hLm]
                omega
              have hRm : ((nodes.map fun nd => { nd with
                  box := nd.box.translate gmini }).getD s node0).R =
                  sR * 2 := by
                rw [getD_map_box_R, hRencEq]
                simp only [u32]
                omega
              have hReven : ¬(((nodes.map fun nd => { nd with
                  box := nd.box.translate gmini }).getD s node0).R % 2 = 1) := by
                rw [hRm]
                omega
              have hRd : ((nodes.map fun nd => { nd with
                  box := nd.box.translate gmini }).getD s node0).R / 2 =
                  sR := by
                rw [hRm]
                omega
              rw [if_neg hLeven, hLd]
              cases hpush1 : pushStack rest sL with
              | none =>
                right
                simp only [hpush1]
              | some stack1 =>
                obtain rfl := pushStack_some hpush1
                simp only [hpush1]
                rw [if_neg hReven, hRd]
                cases hpush2 : pushStack (sL :: rest) sR with
                | none =>
                  right
                  simp only [hpush2]
                | some stack2 =>
                  obtain rfl := pushStack_some hpush2
                  simp only [hpush2]
                  have hconsL := entries_cons m leaves gmini nodes T sL (l, s)
                    rest rrest ⟨hllt, by omega, by omega,
                      by rw [← hLencEq]; exact hLc⟩ hshift
                  have hconsR := entries_cons m leaves gmini nodes T sR
                    (s + 1, r) (sL :: rest) ((l, s) :: rrest)
                    ⟨hrlt, hrT, by omega, by rw [← hRencEq]; exact hRc⟩ hconsL
                  have hfu2 : (((s + 1, r) :: (l, s) :: rrest).map fun pr =>
                      pr.2 - pr.1).sum + 1 ≤ f := by
                    simp only [List.map_cons, List.sum_cons] at hfu ⊢
                    omega
                  exact ih (sR :: sL :: rest) ((s + 1, r) :: (l, s) :: rrest)
                    (by simp [hlr2]) hconsR hfu2


/-- C1 (amended): for every mesh with 2 <= T < 2^31 triangles and every ray
with nonzero direction components and exact reciprocal inverse direction,
whenever no two distinct acceptable triangles tie at the same exact hit
distance and no acceptable triangle is hit at distance <= 0, the iterative
traversal of the built LBVH (with fuel at least T) returns exactly the
brute-force closest hit over triangles 0 .. T-1 with the same initial
record. -/
theorem C1_agree (m : MeshData) (ray : RayQ)
    (hT2 : 2 ≤ triCount m) (hT31 : triCount m < 2 ^ 31)
    (hdx : ray.dir.x ≠ 0) (hdy : ray.dir.y ≠ 0) (hdz : ray.dir.z ≠ 0)
    (hinv : ray.inv_dir = ⟨1 / ray.dir.x, 1 / ray.dir.y, 1 / ray.dir.z⟩)
    (hnotie : ∀ f, f < triCount m → ∀ g, g < triCount m → okFace m ray f →
      okFace m ray g → tFace m ray f = tFace m ray g → f = g)
    (hpos : ∀ f, f < triCount m → okFace m ray f → 0 < tFace m ray f) :
    ∃ bvh : LBVHS, buildLBVH m = some bvh ∧
      ∀ fuel, triCount m ≤ fuel →
        traverseChecked m bvh ray ⟨false, ray.tmax, 0, 0, 0⟩ fuel =
          Except.ok (bruteForce m (triCount m) ray
            ⟨false, ray.tmax, 0, 0, 0⟩) := by
  obtain ⟨stF, hbuild, hlen, hroot, hsub⟩ := buildLBVH_ok m hT2 hT31
  refine ⟨_, hbuild, ?_⟩
  intro fuel hfuel
  have hnov := built_no_overflow m hT2 hT31 _ hbuild ray
    ⟨false, ray.tmax, 0, 0, 0⟩ fuel
  have hwfl := leavesWF_sorted m (meshBox m) (triCount m)
  have hentinit : ∀ j, j < ([stF.root] : List Nat).length →
      ((([(0, triCount m - 1)] : List (Nat × Nat)).getD j (0, 0)).1 <
        (([(0, triCount m - 1)] : List (Nat × Nat)).getD j (0, 0)).2) ∧
      (([(0, triCount m - 1)] : List (Nat × Nat)).getD j (0, 0)).2 ≤
        triCount m - 1 ∧
      (([stF.root] : List Nat).getD j 0) * 2 < 2 ^ 32 ∧
      SubtreeOK m (sortLeaves (leafFill m (meshBox m) (triCount m)))
        (meshBox m).mini stF.nodes
        (u32 ((([stF.root] : List Nat).getD j 0) * 2))
        (([(0, triCount m - 1)] : List (Nat × Nat)).getD j (0, 0)).1
        (([(0, triCount m - 1)] : List (Nat × Nat)).getD j (0, 0)).2 := by
    intro j hj
    simp only [List.length_cons, List.length_nil] at hj
    obtain rfl : j = 0 := by omega
    simp only [List.getD_cons_zero]
    exact ⟨by omega, le_refl _, by omega, hsub⟩
  have hfuinit : (([(0, triCount m - 1)] : List (Nat × Nat)).map fun pr =>
      pr.2 - pr.1).sum + 1 ≤ fuel := by
    simp only [List.map_cons, List.map_nil, List.sum_cons, List.sum_nil]
    omega
  by_cases hA : ∃ f0, f0 < triCount m ∧ okFace m ray f0
  · obtain ⟨f0, hf0T, hf0ok⟩ := hA
    obtain ⟨fs, hfsmem, hfsmin⟩ := Finset.exists_min_image
      (Finset.filter (fun f => okFace m ray f) (Finset.range (triCount m)))
      (tFace m ray)
      ⟨f0, by simp only [Finset.mem_filter, Finset.mem_range]
              exact ⟨hf0T, hf0ok⟩⟩
    simp only [Finset.mem_filter, Finset.mem_range] at hfsmem
    have hmin : ∀ g, g < triCount m → okFace m ray g →
        tFace m ray fs ≤ tFace m ray g := by
      intro g hg hgok
      exact hfsmin g (by simp only [Finset.mem_filter, Finset.mem_range]
                         exact ⟨hg, hgok⟩)
    have hnt : ∀ g, g < triCount m → okFace m ray g →
        tFace m ray g = tFace m ray fs → g = fs := by
      intro g hg hgok he
      exact hnotie g hg fs hfsmem.1 hgok hfsmem.2 he
    have hposfs : 0 < tFace m ray fs := hpos fs hfsmem.1 hfsmem.2
    have hmemmap : fs ∈ (sortLeaves (leafFill m (meshBox m)
        (triCount m))).map Prod.fst :=
      (leaves_fst_perm m (meshBox m) (triCount m)).mem_iff.mpr
        (List.mem_range.mpr hfsmem.1)
    obtain ⟨phat, hphatlt, hphat⟩ := List.getElem_of_mem hmemmap
    have hphatlv : phat < (sortLeaves (leafFill m (meshBox m)
        (triCount m))).length := by
      simpa using hphatlt
    have hphatT : phat < triCount m := by
      have h9 := hwfl.1
      omega
    have hfs2 : ((sortLeaves (leafFill m (meshBox m)
        (triCount m))).getD phat (0, 0)).1 = fs := by
      rw [List.getD_eq_getElem?_getD, List.getElem?_eq_getElem hphatlv]
      rw [List.getElem_map] at hphat
      exact hphat
    have hmaster := traverse_winner m ray
      (sortLeaves (leafFill m (meshBox m) (triCount m))) (meshBox m).mini
      stF.nodes (triCount m) hT31 hlen hwfl.2
      (leaves_fst_inj m (meshBox m) (triCount m))
      hdx hdy hdz hinv phat fs hphatT hfs2 hfsmem.2 hmin hnt hposfs
      fuel [stF.root] [(0, triCount m - 1)] ⟨false, ray.tmax, 0, 0, 0⟩
      rfl hentinit hfuinit
      (Or.inl ⟨⟨0, by simp, by simp, by
        simp only [List.getD_cons_zero]
        omega⟩, Or.inl rfl⟩)
    rw [bruteForce_winner m ray (triCount m) fs hfsmem.1 hfsmem.2 hmin hnt]
    rcases hmaster with hok2 | herr
    · exact hok2
    · exact absurd herr hnov
  · push_neg at hA
    have hmaster := traverse_none m ray
      (sortLeaves (leafFill m (meshBox m) (triCount m))) (meshBox m).mini
      stF.nodes (triCount m) hT31 hlen hwfl.2 hA
      fuel [stF.root] [(0, triCount m - 1)] rfl hentinit hfuinit
    rw [bruteForce_none m ray (triCount m) hA]
    rcases hmaster with hok2 | herr
    · exact hok2
    · exact absurd herr hnov

/-- Witness for the amended C1 at the two-triangle mesh and a tie-free ray
with positive hit distances. -/
theorem C1_agree_witness :
    ∃ bvh : LBVHS, buildLBVH mesh2 = some bvh ∧
      ∀ fuel, triCount mesh2 ≤ fuel →
        traverseChecked mesh2 bvh rayC1 ⟨false, rayC1.tmax, 0, 0, 0⟩ fuel =
          Except.ok (bruteForce mesh2 (triCount mesh2) rayC1
            ⟨false, rayC1.tmax, 0, 0, 0⟩) :=
  C1_agree mesh2 rayC1 (by decide) (by decide) (by decide) (by decide)
    (by decide) (by decide) (by decide) (by decide)

/-- A second divergence of the unrestricted claim, independent of distance
ties: with tnear = 0 and the ray origin on triangle 0 (inside it, outside
triangle 1), the only acceptable hit is at distance exactly 0; brute force
reports it, but the traversal prunes the root box because the slab test
requires a strictly positive exit distance, and reports a miss. -/
theorem C1_zero_dist_prune :
    rayT0.inv_dir = ⟨1 / rayT0.dir.x, 1 / rayT0.dir.y, 1 / rayT0.dir.z⟩ ∧
    (∀ f, f < 2 → ∀ g, g < 2 → okFace mesh2 rayT0 f → okFace mesh2 rayT0 g →
      tFace mesh2 rayT0 f = tFace mesh2 rayT0 g → f = g) ∧
    okFace mesh2 rayT0 0 ∧ tFace mesh2 rayT0 0 = 0 ∧
    buildLBVH mesh2 = some bvh2 ∧
    bruteForce mesh2 2 rayT0 rec10 = ⟨true, 0, 1/2, 1/4, 0⟩ ∧
    traverseChecked mesh2 bvh2 rayT0 rec10 5 = .ok rec10 ∧
    traverseChecked mesh2 bvh2 rayT0 rec10 5 ≠
      .ok (bruteForce mesh2 2 rayT0 rec10) :=
  ⟨by decide, by decide, by decide, by decide, by decide, by decide,
   by decide, by decide⟩

end S3D

